import Mathlib

/-!
# Oh My Ondas step sequencer: a shallow embedding of `firmware/teensy/sequencer.cpp`

The C++ class `Sequencer` becomes the structure `Sequencer` below and every
method becomes a function on it.

Modelling conventions
* `int` values (`currentStep`, `selectedTrack`, track/step/param arguments) are
  unbounded `Int`; C++ `%` on `int` is `Int.tmod` (truncated remainder).
* `uint8_t` values are `Nat`, reduced `% 256` where the code can overflow.
* `unsigned long` (32 bit on Teensy 4.1) is `Nat`, reduced `% 4294967296`.
* `float` (IEEE 754 binary32) values are the rationals they denote (`Rat`).
  The result of a `float` operation is rounded to the nearest binary32 value,
  ties to even (`f32Round`); an infinity or NaN result is `none`. Comparisons
  and assignments of `float` values are exact.
* `millis()` and `random(100)` are inputs: `now` and the draw `rnd track` that
  the generator hands to the evaluation of `track` in this call.
* Undefined behaviour (a read or write outside a fixed-size table, `% 0`, a
  float-to-integer conversion out of range) is the result `none`.
* `triggerStep` / `applyParamLocks` only log; their log lines are the `Event`s.
-/

namespace OhMyOndas

/-! ## Constants (`config.h`, `sequencer.h`) -/

abbrev MAX_TRACKS : Nat := 8
abbrev MAX_STEPS : Nat := 16
abbrev MAX_PATTERNS : Nat := 64
/-- The enumerator `PARAM_COUNT` of `enum ParamType`. -/
abbrev PARAM_COUNT : Nat := 9
/-- Number of values of a `uint8_t`. -/
abbrev U8_MOD : Nat := 256
/-- Number of values of an `unsigned long`. -/
abbrev ULONG_MOD : Nat := 4294967296

/-- Trig condition types, `enum TrigCondition` of `config.h`. -/
inductive TrigCondition where
  | TRIG_ALWAYS
  | TRIG_FILL
  | TRIG_NOT_FILL
  | TRIG_PRE
  | TRIG_NEI
  | TRIG_PROB_25
  | TRIG_PROB_50
  | TRIG_PROB_75
  | TRIG_1ST
  | TRIG_2ND
  | TRIG_3RD
  | TRIG_4TH
  | TRIG_COUNT
  deriving DecidableEq, Repr

open TrigCondition

/-! ## Data model (`sequencer.h`) -/

/-- The C++ `struct Step`. -/
structure Step where
  active : Bool
  condition : TrigCondition
  velocity : Nat
  pitchOffset : Int
  sampleSlice : Nat
  paramLocks : Fin PARAM_COUNT → Rat
  hasParamLock : Fin PARAM_COUNT → Bool
  deriving DecidableEq

/-- The C++ `struct Track`. -/
structure Track where
  muted : Bool
  soloed : Bool
  sourceSlot : Nat
  volume : Rat
  pan : Rat
  steps : Fin MAX_STEPS → Step
  deriving DecidableEq

/-- The C++ `struct Pattern`. -/
structure Pattern where
  length : Nat
  swing : Nat
  bpm : Rat
  tracks : Fin MAX_TRACKS → Track
  deriving DecidableEq

/-- The data members of the C++ `class Sequencer`. -/
structure Sequencer where
  pattern : Pattern
  currentPatternNumber : Int
  selectedTrack : Int
  currentStep : Int
  running : Bool
  fillMode : Bool
  globalBpm : Rat
  lastStepTime : Nat
  stepInterval : Nat
  triggerCounts : Fin MAX_TRACKS → Nat
  deriving DecidableEq

/-- One log line of `applyParamLocks` (`paramLock`) or `triggerStep` (`trigger`). -/
inductive Event where
  | paramLock (param : Nat) (value : Rat)
  | trigger (track : Nat) (step : Int) (velocity : Nat) (pitchOffset : Int)
  deriving DecidableEq, Repr

/-! ## Table access -/

/-- The read `pattern.tracks[track].steps[step]`; `none` outside the table. -/
def stepAt (p : Pattern) (track : Fin MAX_TRACKS) (step : Int) : Option Step :=
  if h : 0 ≤ step ∧ step < (MAX_STEPS : Int) then
    some ((p.tracks track).steps ⟨step.toNat, by omega⟩)
  else none

/-- The call `memset(triggerCounts, 0, sizeof(triggerCounts))`. -/
def clearCounts (q : Sequencer) : Sequencer :=
  { q with triggerCounts := fun _ => 0 }

/-- The statement `triggerCounts[track]++` on a `uint8_t`. -/
def bumpCount (q : Sequencer) (track : Fin MAX_TRACKS) : Sequencer :=
  { q with triggerCounts :=
      Function.update q.triggerCounts track ((q.triggerCounts track + 1) % U8_MOD) }

/-- The call `random(100)` for a raw generator output. -/
def random100 (raw : Nat) : Nat := raw % 100

/-- Unsigned 32-bit subtraction `a - b`. -/
def ulongSub (a b : Nat) : Nat :=
  (a % ULONG_MOD + (ULONG_MOD - b % ULONG_MOD)) % ULONG_MOD

/-- The value `now - lastStepTime` computed by `update`. -/
def elapsed (q : Sequencer) (now : Nat) : Nat :=
  ulongSub now q.lastStepTime

/-! ## Trigger evaluation -/

/-- Method `Sequencer::evaluateTrigCondition`. Returns the verdict and the state, in
which only `triggerCounts` can differ. `raw` is the generator output a
probability condition would consume. -/
def evaluateTrigCondition (q : Sequencer) (track : Fin MAX_TRACKS) (step : Int)
    (raw : Nat) : Option (Bool × Sequencer) :=
  match stepAt q.pattern track step with
  | none => none
  | some s =>
    if !s.active then some (false, q)
    else
      match s.condition with
      | TRIG_ALWAYS => some (true, q)
      | TRIG_FILL => some (q.fillMode, q)
      | TRIG_NOT_FILL => some (!q.fillMode, q)
      | TRIG_PRE =>
        if step > 0 then
          (stepAt q.pattern track (step - 1)).map fun prev => (prev.active, q)
        else some (false, q)
      | TRIG_NEI =>
        if step = 0 then some (false, q)
        else (stepAt q.pattern track (step - 1)).map fun prev => (prev.active, q)
      | TRIG_PROB_25 => some (decide (random100 raw < 25), q)
      | TRIG_PROB_50 => some (decide (random100 raw < 50), q)
      | TRIG_PROB_75 => some (decide (random100 raw < 75), q)
      | TRIG_1ST =>
        let q1 := bumpCount q track
        some (decide (q1.triggerCounts track = 1), q1)
      | TRIG_2ND =>
        let q1 := bumpCount q track
        some (decide (q1.triggerCounts track = 2), q1)
      | TRIG_3RD =>
        let q1 := bumpCount q track
        some (decide (q1.triggerCounts track = 3), q1)
      | TRIG_4TH =>
        let q1 := bumpCount q track
        some (decide (q1.triggerCounts track = 4), q1)
      | TRIG_COUNT => some (true, q)

/-- Method `Sequencer::applyParamLocks`: one log line per lock flagged present, in
ascending parameter order. -/
def applyParamLocks (q : Sequencer) (track : Fin MAX_TRACKS) (step : Int) :
    Option (List Event) :=
  (stepAt q.pattern track step).map fun s =>
    (List.finRange PARAM_COUNT).filterMap fun p =>
      if s.hasParamLock p then some (Event.paramLock p.val (s.paramLocks p)) else none

/-- Method `Sequencer::triggerStep`: the parameter locks, then the trigger line. -/
def triggerStep (q : Sequencer) (track : Fin MAX_TRACKS) (step : Int) :
    Option (List Event) :=
  match stepAt q.pattern track step with
  | none => none
  | some s =>
    (applyParamLocks q track step).map fun locks =>
      locks ++ [Event.trigger track.val step s.velocity s.pitchOffset]

/-- The inner loop of `update` that looks for a soloed track. -/
def anySoloed (p : Pattern) : Bool :=
  (List.finRange MAX_TRACKS).any fun t => (p.tracks t).soloed

/-- One iteration of the track loop of `update`. -/
def processTrack (q : Sequencer) (rnd : Nat → Nat) (track : Fin MAX_TRACKS) :
    Option (Sequencer × List Event) :=
  if (q.pattern.tracks track).muted then some (q, [])
  else if anySoloed q.pattern && !(q.pattern.tracks track).soloed then some (q, [])
  else
    match evaluateTrigCondition q track q.currentStep (rnd track.val) with
    | none => none
    | some (fire, q1) =>
      if fire then (triggerStep q1 track q1.currentStep).map fun evs => (q1, evs)
      else some (q1, [])

/-- The track loop of `update` over the listed tracks, in order. -/
def processTracks (rnd : Nat → Nat) :
    List (Fin MAX_TRACKS) → Sequencer → Option (Sequencer × List Event)
  | [], q => some (q, [])
  | t :: ts, q =>
    match processTrack q rnd t with
    | none => none
    | some (q1, e1) =>
      match processTracks rnd ts q1 with
      | none => none
      | some (q2, e2) => some (q2, e1 ++ e2)

/-- The advance-step and reset-counts-on-pattern-loop part of `update`. -/
def advanceStep (q : Sequencer) : Option Sequencer :=
  if q.pattern.length = 0 then none
  else
    let q1 := { q with currentStep := Int.tmod (q.currentStep + 1) (q.pattern.length : Int) }
    if q1.currentStep = 0 then some (clearCounts q1) else some q1

/-- Method `Sequencer::update`, with `now` the value of `millis()`. -/
def update (q : Sequencer) (now : Nat) (rnd : Nat → Nat) :
    Option (Sequencer × List Event) :=
  if !q.running then some (q, [])
  else if elapsed q now ≥ q.stepInterval then
    let q1 := { q with lastStepTime := now % ULONG_MOD }
    match processTracks rnd (List.finRange MAX_TRACKS) q1 with
    | none => none
    | some (q2, evs) => (advanceStep q2).map fun q3 => (q3, evs)
  else some (q, [])

/-! ## Transport -/

/-- Method `Sequencer::start`, with `now` the value of `millis()`. -/
def start (q : Sequencer) (now : Nat) : Sequencer :=
  { q with running := true, lastStepTime := now % ULONG_MOD }

/-- Method `Sequencer::stop`. -/
def stop (q : Sequencer) : Sequencer :=
  clearCounts { q with running := false, currentStep := 0 }

/-- Method `Sequencer::pause`. -/
def pause (q : Sequencer) : Sequencer :=
  { q with running := false }

/-- Method `Sequencer::reset`. -/
def reset (q : Sequencer) : Sequencer :=
  clearCounts { q with currentStep := 0 }

/-- Method `Sequencer::setPosition`. -/
def setPosition (q : Sequencer) (step : Int) : Option Sequencer :=
  if q.pattern.length = 0 then none
  else some { q with currentStep := Int.tmod step (q.pattern.length : Int) }

/-! ## Tempo -/

/-- The conversion `(unsigned long) x` of a float, truncating toward zero. -/
def floatToULong (x : Rat) : Option Nat :=
  let t := Int.tdiv x.num (x.den : Int)
  if 0 ≤ t ∧ t < (ULONG_MOD : Int) then some t.toNat else none

/-- The binary32 unit in the last place at `x`: `2 ^ (e - 23)` where
`2 ^ e ≤ |x| < 2 ^ (e + 1)`, with `e` not below -126 (subnormal range). -/
def f32Ulp (x : Rat) : Rat :=
  (2 : Rat) ^ (max (Int.log 2 |x|) (-126) - 23)

/-- Round to the nearest integer, a tie to the even neighbour. -/
def roundHalfEven (y : Rat) : Int :=
  let f := ⌊y⌋
  if y - f < 1 / 2 then f
  else if 1 / 2 < y - f then f + 1
  else if f % 2 = 0 then f else f + 1

/-- The multiple of the unit in the last place nearest to `x`, ties to even:
the binary32 rounding of `x` before the overflow test. -/
def f32Near (x : Rat) : Rat :=
  (roundHalfEven (x / f32Ulp x) : Rat) * f32Ulp x

/-- The binary32 value of the exact result `x` of a `float` operation (IEEE 754
round to nearest, ties to even); `none` when the result overflows to an
infinity. -/
def f32Round (x : Rat) : Option Rat :=
  if |f32Near x| < 2 ^ 128 then some (f32Near x) else none

/-- The `float` division `a / b`; `none` when the result is an infinity or a
NaN (division by zero, overflow). -/
def f32Div (a b : Rat) : Option Rat :=
  if b = 0 then none else f32Round (a / b)

/-- The value `(unsigned long)(60000.0f / bpm / 4.0f)` that
`calculateStepInterval` stores for the tempo `bpm`: two `float` divisions, then
the conversion. -/
def stepIntervalOf (bpm : Rat) : Option Nat :=
  (f32Div 60000 bpm).bind fun x => (f32Div x 4).bind floatToULong

/-- Method `Sequencer::calculateStepInterval`. -/
def calculateStepInterval (q : Sequencer) : Option Sequencer :=
  let bpm := if q.pattern.bpm > 0 then q.pattern.bpm else q.globalBpm
  (stepIntervalOf bpm).map fun n => { q with stepInterval := n }

/-- The Arduino macro `constrain(amt, low, high)`. -/
def constrain {α : Type} [LT α] [DecidableRel (fun a b : α => a < b)]
    (amt low high : α) : α :=
  if amt < low then low else if amt > high then high else amt

/-- Method `Sequencer::loadPattern`. -/
def loadPattern (q : Sequencer) (patternNumber : Int) : Sequencer :=
  { q with currentPatternNumber := patternNumber }

/-- Method `Sequencer::savePattern`. -/
def savePattern (q : Sequencer) (_patternNumber : Int) : Sequencer := q

/-- Method `Sequencer::copyPattern`. -/
def copyPattern (q : Sequencer) (_src _dst : Int) : Sequencer := q

/-- Method `Sequencer::begin`. -/
def begin (q : Sequencer) (initialBpm : Rat) : Option Sequencer :=
  (calculateStepInterval { q with globalBpm := initialBpm }).map fun q1 => loadPattern q1 0

/-- Method `Sequencer::setTempo`. -/
def setTempo (q : Sequencer) (bpm : Rat) : Option Sequencer :=
  calculateStepInterval { q with globalBpm := constrain bpm 40 300 }

/-- Method `Sequencer::adjustSwing`; the sum `pattern.swing + delta` is an `int`. -/
def adjustSwing (q : Sequencer) (delta : Int) : Option Sequencer :=
  let sum : Int := (q.pattern.swing : Int) + delta
  if sum < -2147483648 ∨ 2147483647 < sum then none
  else
    calculateStepInterval
      { q with pattern := { q.pattern with swing := (constrain sum 0 100).toNat % U8_MOD } }

/-! ## Track management -/

/-- The guard `track >= 0 && track < MAX_TRACKS`. -/
def trackOk (track : Int) : Prop := 0 ≤ track ∧ track < (MAX_TRACKS : Int)

instance (track : Int) : Decidable (trackOk track) := by
  unfold trackOk; infer_instance

/-- The write `pattern.tracks[track] = f(pattern.tracks[track])`. -/
def modifyTrack (p : Pattern) (track : Int) (f : Track → Track) : Option Pattern :=
  if h : 0 ≤ track ∧ track < (MAX_TRACKS : Int) then
    let i : Fin MAX_TRACKS := ⟨track.toNat, by omega⟩
    some { p with tracks := Function.update p.tracks i (f (p.tracks i)) }
  else none

/-- The write `pattern.tracks[track].steps[step] = f(...)`. -/
def modifyStep (p : Pattern) (track step : Int) (f : Step → Step) : Option Pattern :=
  if h : 0 ≤ step ∧ step < (MAX_STEPS : Int) then
    let j : Fin MAX_STEPS := ⟨step.toNat, by omega⟩
    modifyTrack p track fun t => { t with steps := Function.update t.steps j (f (t.steps j)) }
  else none

/-- Replace the pattern of a sequencer, when the write was inside the tables. -/
def withPattern (q : Sequencer) (p : Option Pattern) : Option Sequencer :=
  p.map fun p1 => { q with pattern := p1 }

/-- Method `Sequencer::selectTrack`. -/
def selectTrack (q : Sequencer) (track : Int) : Sequencer :=
  if trackOk track then { q with selectedTrack := track } else q

/-- Method `Sequencer::muteTrack`. -/
def muteTrack (q : Sequencer) (track : Int) : Option Sequencer :=
  if trackOk track then
    withPattern q (modifyTrack q.pattern track fun t => { t with muted := true })
  else some q

/-- Method `Sequencer::unmuteTrack`. -/
def unmuteTrack (q : Sequencer) (track : Int) : Option Sequencer :=
  if trackOk track then
    withPattern q (modifyTrack q.pattern track fun t => { t with muted := false })
  else some q

/-- Method `Sequencer::soloTrack`. -/
def soloTrack (q : Sequencer) (track : Int) : Option Sequencer :=
  if trackOk track then
    withPattern q (modifyTrack q.pattern track fun t => { t with soloed := true })
  else some q

/-- Method `Sequencer::unsoloTrack`. -/
def unsoloTrack (q : Sequencer) (track : Int) : Option Sequencer :=
  if trackOk track then
    withPattern q (modifyTrack q.pattern track fun t => { t with soloed := false })
  else some q

/-! ## Step editing -/

/-- The guard `step >= 0 && step < pattern.length`. -/
def stepOk (q : Sequencer) (step : Int) : Prop :=
  0 ≤ step ∧ step < (q.pattern.length : Int)

instance (q : Sequencer) (step : Int) : Decidable (stepOk q step) := by
  unfold stepOk; infer_instance

/-- The guard `param >= 0 && param < PARAM_COUNT`. -/
def paramOk (param : Int) : Prop := 0 ≤ param ∧ param < (PARAM_COUNT : Int)

instance (param : Int) : Decidable (paramOk param) := by
  unfold paramOk; infer_instance

/-- Method `Sequencer::toggleStep`. -/
def toggleStep (q : Sequencer) (step : Int) : Option Sequencer :=
  if stepOk q step then
    withPattern q
      (modifyStep q.pattern q.selectedTrack step fun s => { s with active := !s.active })
  else some q

/-- Method `Sequencer::setStep`. -/
def setStep (q : Sequencer) (track step : Int) (active : Bool) : Option Sequencer :=
  if trackOk track ∧ stepOk q step then
    withPattern q (modifyStep q.pattern track step fun s => { s with active := active })
  else some q

/-- Method `Sequencer::setTrigCondition`. -/
def setTrigCondition (q : Sequencer) (track step : Int) (condition : TrigCondition) :
    Option Sequencer :=
  if trackOk track ∧ stepOk q step then
    withPattern q (modifyStep q.pattern track step fun s => { s with condition := condition })
  else some q

/-! ## Parameter locks -/

/-- Method `Sequencer::setParamLock`. -/
def setParamLock (q : Sequencer) (track step param : Int) (value : Rat) : Option Sequencer :=
  if h : trackOk track ∧ stepOk q step ∧ paramOk param then
    let k : Fin PARAM_COUNT := ⟨param.toNat, by have := h.2.2; unfold paramOk at this; omega⟩
    withPattern q (modifyStep q.pattern track step fun s =>
      { s with paramLocks := Function.update s.paramLocks k value,
               hasParamLock := Function.update s.hasParamLock k true })
  else some q

/-- Method `Sequencer::clearParamLock`. -/
def clearParamLock (q : Sequencer) (track step param : Int) : Option Sequencer :=
  if h : trackOk track ∧ stepOk q step ∧ paramOk param then
    let k : Fin PARAM_COUNT := ⟨param.toNat, by have := h.2.2; unfold paramOk at this; omega⟩
    withPattern q (modifyStep q.pattern track step fun s =>
      { s with hasParamLock := Function.update s.hasParamLock k false })
  else some q

/-- Method `Sequencer::clearAllParamLocks`. -/
def clearAllParamLocks (q : Sequencer) (track step : Int) : Option Sequencer :=
  if trackOk track ∧ stepOk q step then
    withPattern q (modifyStep q.pattern track step fun s =>
      { s with hasParamLock := fun _ => false })
  else some q

/-! ## Pattern management -/

/-- The step written by `clearPattern`. -/
def defaultStep : Step :=
  { active := false, condition := TRIG_ALWAYS, velocity := 127, pitchOffset := 0,
    sampleSlice := 0, paramLocks := fun _ => 0, hasParamLock := fun _ => false }

/-- The track written by `clearPattern` at index `t`. -/
def defaultTrack (t : Fin MAX_TRACKS) : Track :=
  { muted := false, soloed := false, sourceSlot := t.val, volume := 1, pan := 0,
    steps := fun _ => defaultStep }

/-- The pattern written by `clearPattern`. -/
def defaultPattern : Pattern :=
  { length := MAX_STEPS, swing := 0, bpm := 0, tracks := defaultTrack }

/-- Method `Sequencer::clearPattern`; it assigns every field of the pattern. -/
def clearPattern (q : Sequencer) : Sequencer :=
  { q with pattern := defaultPattern }

/-- Method `Sequencer::setFillMode`. -/
def setFillMode (q : Sequencer) (enabled : Bool) : Sequencer :=
  { q with fillMode := enabled }

/-- The constructor `Sequencer::Sequencer()`. -/
def construct : Sequencer :=
  { pattern := defaultPattern, currentPatternNumber := 0, selectedTrack := 0,
    currentStep := 0, running := false, fillMode := false, globalBpm := 120,
    lastStepTime := 0, stepInterval := 125, triggerCounts := fun _ => 0 }

/-! ## Queries

The query methods assign no member of the class, so they are functions of the
state that return the answer only. -/

/-- The read `pattern.tracks[track].steps[step]` for two `int` indices; `none`
outside the tables. -/
def stepAtInt (p : Pattern) (track step : Int) : Option Step :=
  if h : 0 ≤ track ∧ track < (MAX_TRACKS : Int) then
    stepAt p ⟨track.toNat, by omega⟩ step
  else none

/-- Method `Sequencer::getTempo`. -/
def getTempo (q : Sequencer) : Rat :=
  if q.pattern.bpm > 0 then q.pattern.bpm else q.globalBpm

/-- Method `Sequencer::getSwing`. -/
def getSwing (q : Sequencer) : Nat := q.pattern.swing

/-- Method `Sequencer::isTrackMuted`. -/
def isTrackMuted (q : Sequencer) (track : Int) : Bool :=
  if h : 0 ≤ track ∧ track < (MAX_TRACKS : Int) then
    (q.pattern.tracks ⟨track.toNat, by omega⟩).muted
  else false

/-- Method `Sequencer::isTrackSoloed`. -/
def isTrackSoloed (q : Sequencer) (track : Int) : Bool :=
  if h : 0 ≤ track ∧ track < (MAX_TRACKS : Int) then
    (q.pattern.tracks ⟨track.toNat, by omega⟩).soloed
  else false

/-- Method `Sequencer::getStep`. -/
def getStep (q : Sequencer) (track step : Int) : Option Bool :=
  if trackOk track ∧ stepOk q step then
    (stepAtInt q.pattern track step).map fun s => s.active
  else some false

/-- Method `Sequencer::getTrigCondition`. -/
def getTrigCondition (q : Sequencer) (track step : Int) : Option TrigCondition :=
  if trackOk track ∧ stepOk q step then
    (stepAtInt q.pattern track step).map fun s => s.condition
  else some TRIG_ALWAYS

/-- Method `Sequencer::hasParamLock`. -/
def hasParamLock (q : Sequencer) (track step param : Int) : Option Bool :=
  if h : trackOk track ∧ stepOk q step ∧ paramOk param then
    let k : Fin PARAM_COUNT := ⟨param.toNat, by have := h.2.2; unfold paramOk at this; omega⟩
    (stepAtInt q.pattern track step).map fun s => s.hasParamLock k
  else some false

/-- Method `Sequencer::getParamLock`. -/
def getParamLock (q : Sequencer) (track step param : Int) : Option Rat :=
  if h : trackOk track ∧ stepOk q step ∧ paramOk param then
    let k : Fin PARAM_COUNT := ⟨param.toNat, by have := h.2.2; unfold paramOk at this; omega⟩
    (stepAtInt q.pattern track step).map fun s => s.paramLocks k
  else some 0

/-- The track loop of `hasStep` over the listed tracks: the unguarded read
`pattern.tracks[t].steps[step].active`, returning at the first active step. -/
def hasStepFrom (p : Pattern) (step : Int) : List (Fin MAX_TRACKS) → Option Bool
  | [] => some false
  | t :: ts =>
    match stepAt p t step with
    | none => none
    | some s => if s.active then some true else hasStepFrom p step ts

/-- Method `Sequencer::hasStep`; it has no range test on `step`. -/
def hasStep (q : Sequencer) (step : Int) : Option Bool :=
  hasStepFrom q.pattern step (List.finRange MAX_TRACKS)

/-- Method `Sequencer::getCurrentPattern`. -/
def getCurrentPattern (q : Sequencer) : Int := q.currentPatternNumber

/-- Method `Sequencer::getCurrentStep`. -/
def getCurrentStep (q : Sequencer) : Int := q.currentStep

/-! ## Public operations as data -/

/-- A call of one public, state-changing method of `Sequencer`. -/
inductive Op where
  | begin (initialBpm : Rat)
  | update (now : Nat) (rnd : Nat → Nat)
  | start (now : Nat)
  | stop
  | pause
  | reset
  | setTempo (bpm : Rat)
  | adjustSwing (delta : Int)
  | setPosition (step : Int)
  | selectTrack (track : Int)
  | muteTrack (track : Int)
  | unmuteTrack (track : Int)
  | soloTrack (track : Int)
  | unsoloTrack (track : Int)
  | toggleStep (step : Int)
  | setStep (track step : Int) (active : Bool)
  | setTrigCondition (track step : Int) (condition : TrigCondition)
  | setParamLock (track step param : Int) (value : Rat)
  | clearParamLock (track step param : Int)
  | clearAllParamLocks (track step : Int)
  | loadPattern (patternNumber : Int)
  | savePattern (patternNumber : Int)
  | copyPattern (src dst : Int)
  | clearPattern
  | setFillMode (enabled : Bool)

/-- Run one public operation; the events are those it logs. -/
def applyOp (q : Sequencer) : Op → Option (Sequencer × List Event)
  | .begin b => (begin q b).map fun r => (r, [])
  | .update now rnd => update q now rnd
  | .start now => some (start q now, [])
  | .stop => some (stop q, [])
  | .pause => some (pause q, [])
  | .reset => some (reset q, [])
  | .setTempo b => (setTempo q b).map fun r => (r, [])
  | .adjustSwing d => (adjustSwing q d).map fun r => (r, [])
  | .setPosition s => (setPosition q s).map fun r => (r, [])
  | .selectTrack t => some (selectTrack q t, [])
  | .muteTrack t => (muteTrack q t).map fun r => (r, [])
  | .unmuteTrack t => (unmuteTrack q t).map fun r => (r, [])
  | .soloTrack t => (soloTrack q t).map fun r => (r, [])
  | .unsoloTrack t => (unsoloTrack q t).map fun r => (r, [])
  | .toggleStep s => (toggleStep q s).map fun r => (r, [])
  | .setStep t s a => (setStep q t s a).map fun r => (r, [])
  | .setTrigCondition t s c => (setTrigCondition q t s c).map fun r => (r, [])
  | .setParamLock t s p v => (setParamLock q t s p v).map fun r => (r, [])
  | .clearParamLock t s p => (clearParamLock q t s p).map fun r => (r, [])
  | .clearAllParamLocks t s => (clearAllParamLocks q t s).map fun r => (r, [])
  | .loadPattern n => some (loadPattern q n, [])
  | .savePattern n => some (savePattern q n, [])
  | .copyPattern a b => some (copyPattern q a b, [])
  | .clearPattern => some (clearPattern q, [])
  | .setFillMode e => some (setFillMode q e, [])

/-- Run a sequence of public operations, collecting the events in order. -/
def runOps : Sequencer → List Op → Option (Sequencer × List Event)
  | q, [] => some (q, [])
  | q, op :: ops =>
    match applyOp q op with
    | none => none
    | some (q1, e1) =>
      match runOps q1 ops with
      | none => none
      | some (q2, e2) => some (q2, e1 ++ e2)

/-- The tick and transport operations: `update`, `start`, `stop`, `pause`,
`reset` and `setPosition`. -/
def Op.isTransport : Op → Bool
  | .update _ _ => true
  | .start _ => true
  | .stop => true
  | .pause => true
  | .reset => true
  | .setPosition _ => true
  | _ => false

/-! ## Vocabulary of the statements -/

/-- The ordinal `k` of the conditions `TRIG_1ST` .. `TRIG_4TH`; `none` for the others. -/
def ordinalOf : TrigCondition → Option Nat
  | TRIG_1ST => some 1
  | TRIG_2ND => some 2
  | TRIG_3RD => some 3
  | TRIG_4TH => some 4
  | _ => none

/-- Whether the event is a trigger line for `track`. -/
def Event.isTriggerOf (track : Nat) : Event → Bool
  | .trigger t _ _ _ => decide (t = track)
  | .paramLock _ _ => false

/-- The step a trigger line names; `none` for a parameter-lock line. -/
def Event.stepOf : Event → Option Int
  | .trigger _ s _ _ => some s
  | .paramLock _ _ => none

/-- The states `q` and `q1` agree on every member except `triggerCounts`. -/
def sameButCounts (q q1 : Sequencer) : Prop :=
  q1 = { q with triggerCounts := q1.triggerCounts }

/-- The track passes the mute and solo tests of `update`, so its step is evaluated. -/
def evaluated (p : Pattern) (t : Fin MAX_TRACKS) : Bool :=
  !(p.tracks t).muted && (!anySoloed p || (p.tracks t).soloed)

/-- Evaluating the step runs `triggerCounts[track]++`: it is active with an
ordinal condition. -/
def countsStep (s : Step) : Bool :=
  s.active && (ordinalOf s.condition).isSome

/-- In a tick that processes a step from state `q`, `update` reaches
`triggerStep` for track `t`. -/
def fires (q : Sequencer) (rnd : Nat → Nat) (t : Fin MAX_TRACKS) : Prop :=
  evaluated q.pattern t = true ∧
    (evaluateTrigCondition q t q.currentStep (rnd t.val)).map Prod.fst = some true

/-- The position and the pattern length are inside the step table. -/
def InBounds (q : Sequencer) : Prop :=
  0 < q.pattern.length ∧ q.pattern.length ≤ MAX_STEPS ∧
    0 ≤ q.currentStep ∧ q.currentStep < (q.pattern.length : Int)

/-- The operations of a run of ticks, each with its clock value and draws. -/
def tickOps (ticks : List (Nat × (Nat → Nat))) : List Op :=
  ticks.map fun p => Op.update p.1 p.2

/-- The number of steps of track `t` at indices below `n` whose evaluation
runs `triggerCounts[t]++`: the active steps with an ordinal condition. -/
def ordinalEvals (p : Pattern) (t : Fin MAX_TRACKS) : Nat → Nat
  | 0 => 0
  | n + 1 =>
    ordinalEvals p t n +
      (match stepAt p t (n : Int) with
       | some s => if countsStep s = true then 1 else 0
       | none => 0)

/-- The number of active steps of track `t` at indices below `n`, whatever
their condition. -/
def activeEvals (p : Pattern) (t : Fin MAX_TRACKS) : Nat → Nat
  | 0 => 0
  | n + 1 =>
    activeEvals p t n +
      (match stepAt p t (n : Int) with
       | some s => if s.active = true then 1 else 0
       | none => 0)

/-- Every counter of an evaluated track equals the number of active ordinal
steps of that track below the current position, and is zero for a track that
mute or solo keeps from being evaluated. -/
def CountsInSync (q : Sequencer) : Prop :=
  ∀ t, q.triggerCounts t =
    if evaluated q.pattern t = true then ordinalEvals q.pattern t q.currentStep.toNat else 0

/-- The effective tempo in the words of the specification: the pattern's
tempo override when it is nonzero, the global tempo otherwise. -/
def effectiveBpm (q : Sequencer) : Rat :=
  if q.pattern.bpm ≠ 0 then q.pattern.bpm else q.globalBpm

/-- The state `q1` is the result of one of the three operations that
recompute the step interval, applied to `q`. -/
def Recomputed (q q1 : Sequencer) : Prop :=
  (∃ bpm, setTempo q bpm = some q1) ∨ (∃ delta, adjustSwing q delta = some q1) ∨
    (∃ initialBpm, begin q initialBpm = some q1)

/-- The default pattern with one armed step: step 0 of track 0, active with
condition `ALWAYS`. -/
def scenarioPattern : Pattern :=
  { defaultPattern with
    tracks := fun t =>
      if t = 0 then
        { defaultTrack t with
          steps := fun i => if i = 0 then { defaultStep with active := true } else defaultStep }
      else defaultTrack t }

/-- The constructed sequencer (120 BPM, interval 125 ms) holding `scenarioPattern`. -/
def scenarioSeq : Sequencer :=
  { construct with pattern := scenarioPattern }

/-! ## Sample states -/

/-- Steps of the sample track: 0 `ALWAYS`, 1 `2ND`, 2 `1ST`, 3 `FILL`, 4 `PRE`,
5 `NEI`, 6 `NOT_FILL`, all active; step 7 is an inactive `1ST`; the rest are
the inactive defaults. -/
def sampleSteps : Fin MAX_STEPS → Step := fun i =>
  if i = 0 then { defaultStep with active := true }
  else if i = 1 then { defaultStep with active := true, condition := TRIG_2ND }
  else if i = 2 then { defaultStep with active := true, condition := TRIG_1ST }
  else if i = 3 then { defaultStep with active := true, condition := TRIG_FILL }
  else if i = 4 then { defaultStep with active := true, condition := TRIG_PRE }
  else if i = 5 then { defaultStep with active := true, condition := TRIG_NEI }
  else if i = 6 then { defaultStep with active := true, condition := TRIG_NOT_FILL }
  else if i = 7 then { defaultStep with condition := TRIG_1ST }
  else defaultStep

/-- The default pattern with `sampleSteps` on track 0. -/
def samplePattern : Pattern :=
  { defaultPattern with
    tracks := fun t =>
      if t = 0 then { defaultTrack t with steps := sampleSteps } else defaultTrack t }

/-- A running sequencer on `samplePattern`, at step 0 with a step due at `now = 125`. -/
def sampleSeq : Sequencer :=
  { construct with pattern := samplePattern, running := true }

/-- The default pattern with track 0 soloed and an active `ALWAYS` step at
index 0 of the unmuted track 1. -/
def soloPattern : Pattern :=
  { defaultPattern with
    tracks := fun t =>
      if t = 0 then { defaultTrack t with soloed := true }
      else if t = 1 then
        { defaultTrack t with
          steps := fun i => if i = 0 then { defaultStep with active := true } else defaultStep }
      else defaultTrack t }

/-- A running sequencer on `soloPattern`, at step 0. -/
def soloSeq : Sequencer :=
  { construct with pattern := soloPattern, running := true }

/-- Sixteen ticks, 125 ms apart, each one due: one loop of a 16-step pattern. -/
def loopTicks : List (Nat × (Nat → Nat)) :=
  (List.range 16).map fun k => (125 * (k + 1), fun _ => 0)

/-- Steps of the ordinal track: 0 `1ST`, 1 `ALWAYS`, 2 `2ND`, 3 `2ND`, all
active; the rest are the inactive defaults. -/
def ordinalSteps : Fin MAX_STEPS → Step := fun i =>
  if i = 0 then { defaultStep with active := true, condition := TRIG_1ST }
  else if i = 1 then { defaultStep with active := true }
  else if i = 2 then { defaultStep with active := true, condition := TRIG_2ND }
  else if i = 3 then { defaultStep with active := true, condition := TRIG_2ND }
  else defaultStep

/-- A running sequencer, at step 0, on the default pattern with `ordinalSteps`
on track 0. -/
def ordinalSeq : Sequencer :=
  { construct with
    pattern :=
      { defaultPattern with
        tracks := fun t =>
          if t = 0 then { defaultTrack t with steps := ordinalSteps } else defaultTrack t },
    running := true }

/-- The sample sequencer after three due ticks: at step 3, with the counter of
track 0 at 2. -/
def sampleSeqAt3 : Sequencer :=
  { sampleSeq with
    currentStep := 3, lastStepTime := 375,
    triggerCounts := fun t => if t = 0 then 2 else 0 }

/-- The constructed sequencer with step 5 of track 2 made an active `FILL` step
that holds parameter locks 3 (value -7/2) and 4 (value 1/4). -/
def lockedSeq : Sequencer :=
  { construct with
    pattern :=
      { defaultPattern with
        tracks := fun t =>
          if t = 2 then
            { defaultTrack t with
              steps := fun i =>
                if i = 5 then
                  { defaultStep with
                    active := true, condition := TRIG_FILL,
                    paramLocks := fun k => if k = 3 then -7 / 2 else if k = 4 then 1 / 4 else 0,
                    hasParamLock := fun k => decide (k = 3 ∨ k = 4) }
                else defaultStep }
          else defaultTrack t } }

/-- The locked sequencer running with fill mode on, standing on its locked
step 5. -/
def lockedRun : Sequencer :=
  { lockedSeq with running := true, currentStep := 5, fillMode := true }

/-- The log lines of `applyParamLocks` for a step: one line per lock flagged
present, in ascending parameter order. -/
def lockEvents (s : Step) : List Event :=
  (List.finRange PARAM_COUNT).filterMap fun p =>
    if s.hasParamLock p then some (Event.paramLock p.val (s.paramLocks p)) else none

/-- Whether `update`, processing a step from state `q`, reaches `triggerStep`
for track `t`: the track passes the mute and solo tests and
`evaluateTrigCondition` returns true. -/
def firesNow (q : Sequencer) (rnd : Nat → Nat) (t : Fin MAX_TRACKS) : Bool :=
  evaluated q.pattern t &&
    ((evaluateTrigCondition q t q.currentStep (rnd t.val)).map Prod.fst == some true)

/-- The lines one iteration of the track loop logs: nothing when the track does
not fire, else the lock lines of its current step followed by its trigger line. -/
def trackLog (q : Sequencer) (rnd : Nat → Nat) (t : Fin MAX_TRACKS) : List Event :=
  if firesNow q rnd t then
    match stepAt q.pattern t q.currentStep with
    | some s => lockEvents s ++ [Event.trigger t.val q.currentStep s.velocity s.pitchOffset]
    | none => []
  else []

/-- The track a trigger line names; `none` for a parameter-lock line. -/
def Event.triggerTrack : Event → Option Nat
  | .trigger t _ _ _ => some t
  | .paramLock _ _ => none

/-- A running sequencer, at step 0, on the default pattern with an active
`ALWAYS` step 0 on tracks 1 and 4; the step of track 4 holds parameter lock 2
(value 1/2). -/
def twoVoiceSeq : Sequencer :=
  { construct with
    pattern :=
      { defaultPattern with
        tracks := fun t =>
          if t = 1 then
            { defaultTrack t with
              steps := fun i => if i = 0 then { defaultStep with active := true } else defaultStep }
          else if t = 4 then
            { defaultTrack t with
              steps := fun i =>
                if i = 0 then
                  { defaultStep with
                    active := true,
                    paramLocks := fun k => if k = 2 then 1 / 2 else 0,
                    hasParamLock := fun k => decide (k = 2) }
                else defaultStep }
          else defaultTrack t },
    running := true }

/-- The two guards of `update`: the sequencer runs and `stepInterval` has
elapsed, so this tick processes a step. -/
def stepDue (q : Sequencer) (now : Nat) : Bool :=
  q.running && decide (q.stepInterval ≤ elapsed q now)

/-- What one tick of a run did: whether it processed a step, the position on
entry and on return, and the lines it logged. -/
structure TickRecord where
  due : Bool
  before : Int
  after : Int
  events : List Event

/-- Run a sequence of ticks and keep one record per tick. -/
def traceTicks : Sequencer → List (Nat × (Nat → Nat)) → Option (Sequencer × List TickRecord)
  | q, [] => some (q, [])
  | q, tk :: rest =>
    match update q tk.1 tk.2 with
    | none => none
    | some (q1, evs) =>
      match traceTicks q1 rest with
      | none => none
      | some (q2, recs) =>
        some (q2, { due := stepDue q tk.1, before := q.currentStep,
                    after := q1.currentStep, events := evs } :: recs)

/-- One tick per millisecond: the `m` ticks at the times `t0 + k + 1`,
`t0 + k + 2`, ..., the tick of offset `j` drawing `rnd j`. -/
def msTicks (t0 : Nat) (rnd : Nat → Nat → Nat) : Nat → Nat → List (Nat × (Nat → Nat))
  | _, 0 => []
  | k, m + 1 => (t0 + k + 1, rnd k) :: msTicks t0 rnd (k + 1) m

/-- The number of ticks of a trace that processed a step. -/
def advanceCount (recs : List TickRecord) : Nat :=
  (recs.filter fun r => r.due).length

/-- The number of ticks of a trace that logged a trigger of `track`. -/
def triggerCount (track : Nat) (recs : List TickRecord) : Nat :=
  (recs.filter fun r => r.events.any (Event.isTriggerOf track)).length

/-- The state of the scenario `k` milliseconds after `start` at `t0`: the
scenario pattern, interval 125, running, last step boundary at the latest
multiple of 125 ms, position the number of boundaries passed modulo 16. -/
def ScenarioInv (t0 : Nat) (q : Sequencer) (k : Nat) : Prop :=
  q.pattern = scenarioPattern ∧ q.stepInterval = 125 ∧ q.running = true ∧
    q.lastStepTime = (t0 + 125 * (k / 125)) % ULONG_MOD ∧
    q.currentStep = (((k / 125) % 16 : Nat) : Int)

/-- What the scenario expects of one tick: a trigger of track 0 exactly when
the tick processed a step at position 0, no trigger of another track, one
advance modulo 16 when a step was processed, and nothing at all otherwise. -/
def ScenarioRecord (r : TickRecord) : Prop :=
  (r.events.any (Event.isTriggerOf 0) = true ↔ r.due = true ∧ r.before = 0) ∧
  (∀ u : Fin MAX_TRACKS, u ≠ 0 → r.events.any (Event.isTriggerOf u.val) = false) ∧
  (r.due = true → r.after = (r.before + 1) % 16) ∧
  (r.due = false → r.after = r.before ∧ r.events = [])

/-- The pattern holds no probability condition on any step of the table. -/
def NoProbability (p : Pattern) : Prop :=
  ∀ (t : Fin MAX_TRACKS) (i : Fin MAX_STEPS),
    ((p.tracks t).steps i).condition ≠ TRIG_PROB_25 ∧
    ((p.tracks t).steps i).condition ≠ TRIG_PROB_50 ∧
    ((p.tracks t).steps i).condition ≠ TRIG_PROB_75

/-- Every tick of the run processes a step: each is due in the state the
ticks before it produced. -/
def allDue : Sequencer → List (Nat × (Nat → Nat)) → Bool
  | _, [] => true
  | q, tk :: rest =>
    stepDue q tk.1 &&
      (match update q tk.1 tk.2 with
       | some (q1, _) => allDue q1 rest
       | none => false)

/-- The two states agree on what a tick reads: pattern, fill mode, position
and trigger counters. -/
def LoopAgree (qa qb : Sequencer) : Prop :=
  qa.pattern = qb.pattern ∧ qa.fillMode = qb.fillMode ∧
    qa.currentStep = qb.currentStep ∧ qa.triggerCounts = qb.triggerCounts

/-- The sample sequencer seen later: another clock anchor, a shorter interval
and another selected track, with the same pattern, fill mode, position and
counters. -/
def sampleSeqLater : Sequencer :=
  { sampleSeq with lastStepTime := 7, stepInterval := 50, selectedTrack := 3 }

/-- Sixteen ticks, 100 ms apart, with the draw 99 for every track. -/
def laterTicks : List (Nat × (Nat → Nat)) :=
  (List.range 16).map fun k => (100 * (k + 1), fun _ => 99)

/-- The operation left the loop where it was: `q1` has the position and the
trigger counters of `q`, and the pattern length of `q` or the length
`MAX_STEPS` that `clearPattern` writes. -/
def SamePlace (q q1 : Sequencer) : Prop :=
  q1.currentStep = q.currentStep ∧ q1.triggerCounts = q.triggerCounts ∧
    (q1.pattern.length = q.pattern.length ∨ q1.pattern.length = MAX_STEPS)

/-- A short editing and playing session: arm step 1 of track 0 as a `1ST`
step, mute track 3, start, run two due ticks, jump to step 9 and run a third
due tick. -/
def sessionOps : List Op :=
  [Op.setStep 0 1 true, Op.setTrigCondition 0 1 TRIG_1ST, Op.muteTrack 3, Op.start 0,
    Op.update 125 (fun _ => 0), Op.update 250 (fun _ => 0), Op.setPosition 9,
    Op.update 375 (fun _ => 0)]

/-- The default pattern with track 0 both soloed and muted, and an active
`ALWAYS` step at index 0 of track 0 and of the unmuted, unsoloed track 1. -/
def mutedSoloPattern : Pattern :=
  { defaultPattern with
    tracks := fun t =>
      if t = 0 then
        { defaultTrack t with
          muted := true, soloed := true,
          steps := fun i => if i = 0 then { defaultStep with active := true } else defaultStep }
      else if t = 1 then
        { defaultTrack t with
          steps := fun i => if i = 0 then { defaultStep with active := true } else defaultStep }
      else defaultTrack t }

/-- A running sequencer on `mutedSoloPattern`, at step 0. -/
def mutedSoloSeq : Sequencer :=
  { construct with pattern := mutedSoloPattern, running := true }

/-- The pattern with the `muted` flag of track `t` set to `m`: what
`muteTrack` (`m = true`) and `unmuteTrack` (`m = false`) store. -/
def withMuted (p : Pattern) (t : Fin MAX_TRACKS) (m : Bool) : Pattern :=
  { p with tracks := Function.update p.tracks t { p.tracks t with muted := m } }

/-- The ordinal sequencer with track 0 muted. -/
def mutedOrdinalSeq : Sequencer :=
  { ordinalSeq with pattern := withMuted ordinalSeq.pattern 0 true }

/-- Step `j` is the one step of track `t` whose evaluation runs
`triggerCounts[t]++`: the only active step of the track with an ordinal
condition. -/
def LoneOrdinal (p : Pattern) (t : Fin MAX_TRACKS) (j : Fin MAX_STEPS) : Prop :=
  countsStep ((p.tracks t).steps j) = true ∧
    ∀ i : Fin MAX_STEPS, countsStep ((p.tracks t).steps i) = true → i = j

/-- A running sequencer, at step 0, on the default pattern with two active
steps on track 0: step 0 `ALWAYS` and step 3 `2ND`. -/
def loneSecondSeq : Sequencer :=
  { construct with
    pattern :=
      { defaultPattern with
        tracks := fun t =>
          if t = 0 then
            { defaultTrack t with
              steps := fun i =>
                if i = 0 then { defaultStep with active := true }
                else if i = 3 then { defaultStep with active := true, condition := TRIG_2ND }
                else defaultStep }
          else defaultTrack t },
    running := true }

/-- Thirty-two ticks, 125 ms apart, each one due: two loops of a 16-step
pattern. -/
def twoLoopTicks : List (Nat × (Nat → Nat)) :=
  (List.range 32).map fun k => (125 * (k + 1), fun _ => 0)

/-- Whether the operation is a call of `setPosition`. -/
def Op.isSetPosition : Op → Bool
  | .setPosition _ => true
  | _ => false

/-- The pattern has the full length `MAX_STEPS`, the position is inside it and
no trigger counter exceeds the position. -/
def CounterBound (q : Sequencer) : Prop :=
  q.pattern.length = MAX_STEPS ∧ 0 ≤ q.currentStep ∧ q.currentStep ≤ (MAX_STEPS : Int) - 1 ∧
    ∀ t, (q.triggerCounts t : Int) ≤ q.currentStep

/-- A session without `setPosition`: arm step 1 of track 0 as a `1ST` step,
start, run two due ticks and mute track 3. -/
def playOps : List Op :=
  [Op.setStep 0 1 true, Op.setTrigCondition 0 1 TRIG_1ST, Op.start 0,
    Op.update 125 (fun _ => 0), Op.update 250 (fun _ => 0), Op.muteTrack 3]

/-- The session `playOps` followed by `setPosition(0)`. -/
def jumpOps : List Op := playOps ++ [Op.setPosition 0]

/-- The pattern of the replay: full length, no track muted or soloed, step 0
of track 0 an active `1ST` step with velocity 127, pitch offset 0 and no
parameter lock, and step 0 of every other track inactive. -/
def Armed (p : Pattern) : Prop :=
  p.length = MAX_STEPS ∧
  (∀ t : Fin MAX_TRACKS, (p.tracks t).muted = false ∧ (p.tracks t).soloed = false) ∧
  ((p.tracks 0).steps 0).active = true ∧ ((p.tracks 0).steps 0).condition = TRIG_1ST ∧
  ((p.tracks 0).steps 0).velocity = 127 ∧ ((p.tracks 0).steps 0).pitchOffset = 0 ∧
  (∀ k : Fin PARAM_COUNT, ((p.tracks 0).steps 0).hasParamLock k = false) ∧
  (∀ t : Fin MAX_TRACKS, t ≠ 0 → ((p.tracks t).steps 0).active = false)

instance (p : Pattern) : Decidable (Armed p) := by
  unfold Armed; infer_instance

/-- Arm step 0 of track 0 as an active `1ST` step and start at time 0. -/
def armOps : List Op :=
  [Op.setStep 0 0 true, Op.setTrigCondition 0 0 TRIG_1ST, Op.start 0]

/-- Round `k` of the replay: the due tick at `125 * (k + 1)` ms, which
processes step 0, then `setPosition(0)`, which moves the position back from
step 1 before any wrap. -/
def replayRound (k : Nat) : List Op :=
  [Op.update (125 * (k + 1)) (fun _ => 0), Op.setPosition 0]

/-- The rounds `k`, `k + 1`, ..., `k + n - 1` of the replay. -/
def replayOps : Nat → Nat → List Op
  | _, 0 => []
  | k, n + 1 => replayRound k ++ replayOps (k + 1) n

/-- The log of the rounds `k`, ..., `k + n - 1` of the replay: the trigger of
step 0 of track 0 in every round whose index is a multiple of 256. -/
def replayLog : Nat → Nat → List Event
  | _, 0 => []
  | k, n + 1 =>
    (if k % U8_MOD = 0 then [Event.trigger 0 0 127 0] else []) ++ replayLog (k + 1) n

/-- The state of the replay before round `k`: armed pattern, running with
interval 125, last step at `125 * k` ms, position 0 and the counter of track 0
at `k` modulo 256. -/
def ReplayInv (k : Nat) (q : Sequencer) : Prop :=
  Armed q.pattern ∧ q.running = true ∧ q.stepInterval = 125 ∧
    q.lastStepTime = (125 * k) % ULONG_MOD ∧ q.currentStep = 0 ∧
    q.triggerCounts 0 = k % U8_MOD

/-! # Theorems -/

/-! ## Table access -/

theorem stepAt_isSome_iff (p : Pattern) (track : Fin MAX_TRACKS) (step : Int) :
    (stepAt p track step).isSome = true ↔ 0 ≤ step ∧ step < (MAX_STEPS : Int) := by
  by_cases h : 0 ≤ step ∧ step < (MAX_STEPS : Int)
  · simp only [stepAt, dif_pos h, Option.isSome_some, true_iff]; exact h
  · simp only [stepAt, dif_neg h, Option.isSome_none]; simpa using h

theorem stepAt_some_bounds {p : Pattern} {track : Fin MAX_TRACKS} {step : Int} {s : Step}
    (h : stepAt p track step = some s) : 0 ≤ step ∧ step < (MAX_STEPS : Int) :=
  (stepAt_isSome_iff p track step).1 (by simp [h])

theorem stepAt_of_bounds (p : Pattern) (track : Fin MAX_TRACKS) (step : Int)
    (h0 : 0 ≤ step) (h1 : step < (MAX_STEPS : Int)) :
    ∃ s, stepAt p track step = some s := by
  unfold stepAt
  rw [dif_pos ⟨h0, h1⟩]
  exact ⟨_, rfl⟩

/-! ## Frame and verdict of one evaluation -/
theorem sameButCounts_refl (q : Sequencer) : sameButCounts q q := rfl

theorem sameButCounts_trans {a b c : Sequencer} (h1 : sameButCounts a b)
    (h2 : sameButCounts b c) : sameButCounts a c := by
  unfold sameButCounts at *
  rw [h2, h1]

theorem sameButCounts_pattern {a b : Sequencer} (h : sameButCounts a b) :
    b.pattern = a.pattern := by
  unfold sameButCounts at h; rw [h]

theorem sameButCounts_currentStep {a b : Sequencer} (h : sameButCounts a b) :
    b.currentStep = a.currentStep := by
  unfold sameButCounts at h; rw [h]

theorem sameButCounts_fillMode {a b : Sequencer} (h : sameButCounts a b) :
    b.fillMode = a.fillMode := by
  unfold sameButCounts at h; rw [h]

theorem evaluateTrigCondition_spec (q : Sequencer) (t : Fin MAX_TRACKS) (st : Int) (raw : Nat)
    (s : Step) (hs : stepAt q.pattern t st = some s) :
    ∃ (fire : Bool) (q1 : Sequencer),
      evaluateTrigCondition q t st raw = some (fire, q1) ∧ sameButCounts q q1 ∧
      (∀ u, u ≠ t → q1.triggerCounts u = q.triggerCounts u) ∧
      q1.triggerCounts t =
        if countsStep s = true then (q.triggerCounts t + 1) % U8_MOD else q.triggerCounts t := by
  obtain ⟨h0, h1⟩ := stepAt_some_bounds hs
  have keep : ∀ fire : Bool, evaluateTrigCondition q t st raw = some (fire, q) →
      countsStep s = false →
      ∃ (fire : Bool) (q1 : Sequencer),
        evaluateTrigCondition q t st raw = some (fire, q1) ∧ sameButCounts q q1 ∧
        (∀ u, u ≠ t → q1.triggerCounts u = q.triggerCounts u) ∧
        q1.triggerCounts t =
          if countsStep s = true then (q.triggerCounts t + 1) % U8_MOD
          else q.triggerCounts t := by
    intro fire he hc
    exact ⟨fire, q, he, rfl, fun _ _ => rfl, by simp [hc]⟩
  have bump : ∀ fire : Bool, evaluateTrigCondition q t st raw = some (fire, bumpCount q t) →
      countsStep s = true →
      ∃ (fire : Bool) (q1 : Sequencer),
        evaluateTrigCondition q t st raw = some (fire, q1) ∧ sameButCounts q q1 ∧
        (∀ u, u ≠ t → q1.triggerCounts u = q.triggerCounts u) ∧
        q1.triggerCounts t =
          if countsStep s = true then (q.triggerCounts t + 1) % U8_MOD
          else q.triggerCounts t := by
    intro fire he hc
    refine ⟨fire, bumpCount q t, he, rfl, ?_, by simp [hc, bumpCount]⟩
    intro u hu; simp [bumpCount, Function.update_noteq hu]
  cases ha : s.active
  · exact keep false (by simp [evaluateTrigCondition, hs, ha]) (by simp [countsStep, ha])
  · cases hc : s.condition
    case TRIG_ALWAYS =>
      exact keep true (by simp [evaluateTrigCondition, hs, ha, hc])
        (by simp [countsStep, hc, ordinalOf])
    case TRIG_FILL =>
      exact keep q.fillMode (by simp [evaluateTrigCondition, hs, ha, hc])
        (by simp [countsStep, hc, ordinalOf])
    case TRIG_NOT_FILL =>
      exact keep (!q.fillMode) (by simp [evaluateTrigCondition, hs, ha, hc])
        (by simp [countsStep, hc, ordinalOf])
    case TRIG_PRE =>
      by_cases hpos : 0 < st
      · obtain ⟨prev, hprev⟩ := stepAt_of_bounds q.pattern t (st - 1) (by omega) (by omega)
        exact keep prev.active (by simp [evaluateTrigCondition, hs, ha, hc, hpos, hprev])
          (by simp [countsStep, hc, ordinalOf])
      · exact keep false (by simp [evaluateTrigCondition, hs, ha, hc, hpos])
          (by simp [countsStep, hc, ordinalOf])
    case TRIG_NEI =>
      by_cases hz : st = 0
      · subst hz
        exact keep false (by simp [evaluateTrigCondition, hs, ha, hc])
          (by simp [countsStep, hc, ordinalOf])
      · obtain ⟨prev, hprev⟩ := stepAt_of_bounds q.pattern t (st - 1) (by omega) (by omega)
        exact keep prev.active (by simp [evaluateTrigCondition, hs, ha, hc, hz, hprev])
          (by simp [countsStep, hc, ordinalOf])
    case TRIG_PROB_25 =>
      exact keep (decide (random100 raw < 25)) (by simp [evaluateTrigCondition, hs, ha, hc])
        (by simp [countsStep, hc, ordinalOf])
    case TRIG_PROB_50 =>
      exact keep (decide (random100 raw < 50)) (by simp [evaluateTrigCondition, hs, ha, hc])
        (by simp [countsStep, hc, ordinalOf])
    case TRIG_PROB_75 =>
      exact keep (decide (random100 raw < 75)) (by simp [evaluateTrigCondition, hs, ha, hc])
        (by simp [countsStep, hc, ordinalOf])
    case TRIG_1ST =>
      exact bump (decide ((bumpCount q t).triggerCounts t = 1))
        (by simp [evaluateTrigCondition, hs, ha, hc]) (by simp [countsStep, ha, hc, ordinalOf])
    case TRIG_2ND =>
      exact bump (decide ((bumpCount q t).triggerCounts t = 2))
        (by simp [evaluateTrigCondition, hs, ha, hc]) (by simp [countsStep, ha, hc, ordinalOf])
    case TRIG_3RD =>
      exact bump (decide ((bumpCount q t).triggerCounts t = 3))
        (by simp [evaluateTrigCondition, hs, ha, hc]) (by simp [countsStep, ha, hc, ordinalOf])
    case TRIG_4TH =>
      exact bump (decide ((bumpCount q t).triggerCounts t = 4))
        (by simp [evaluateTrigCondition, hs, ha, hc]) (by simp [countsStep, ha, hc, ordinalOf])
    case TRIG_COUNT =>
      exact keep true (by simp [evaluateTrigCondition, hs, ha, hc])
        (by simp [countsStep, hc, ordinalOf])

theorem evaluateTrigCondition_verdict_congr (q q2 : Sequencer) (t : Fin MAX_TRACKS) (st : Int)
    (raw : Nat) (hp : q2.pattern = q.pattern) (hf : q2.fillMode = q.fillMode)
    (hc : q2.triggerCounts t = q.triggerCounts t) :
    (evaluateTrigCondition q2 t st raw).map Prod.fst =
      (evaluateTrigCondition q t st raw).map Prod.fst := by
  unfold evaluateTrigCondition
  rw [hp]
  cases hs : stepAt q.pattern t st with
  | none => rfl
  | some s =>
    cases ha : s.active
    · simp [ha]
    · cases hcond : s.condition <;> simp [ha, hcond, hf, hc, bumpCount]
      all_goals split <;> simp [Option.map_map, Function.comp_def]

theorem triggerStep_spec (q : Sequencer) (t : Fin MAX_TRACKS) (st : Int) (s : Step)
    (hs : stepAt q.pattern t st = some s) :
    ∃ locks, triggerStep q t st = some (locks ++ [Event.trigger t.val st s.velocity s.pitchOffset]) ∧
      ∀ e ∈ locks, e.stepOf = none ∧ ∀ u, e.isTriggerOf u = false := by
  refine ⟨_, by simp [triggerStep, applyParamLocks, hs]; rfl, ?_⟩
  intro e he
  simp only [List.mem_filterMap] at he
  obtain ⟨p, _, hp⟩ := he
  by_cases hl : s.hasParamLock p = true
  · simp [hl] at hp
    subst hp
    exact ⟨rfl, fun _ => rfl⟩
  · simp [hl] at hp

theorem processTrack_spec (q : Sequencer) (rnd : Nat → Nat) (t : Fin MAX_TRACKS)
    (h0 : 0 ≤ q.currentStep) (h1 : q.currentStep < (MAX_STEPS : Int)) :
    ∃ q1 evs, processTrack q rnd t = some (q1, evs) ∧ sameButCounts q q1 ∧
      (∀ u, u ≠ t → q1.triggerCounts u = q.triggerCounts u) ∧
      (∀ s, stepAt q.pattern t q.currentStep = some s →
        q1.triggerCounts t =
          if (evaluated q.pattern t && countsStep s) = true
          then (q.triggerCounts t + 1) % U8_MOD else q.triggerCounts t) ∧
      (∀ e ∈ evs, e.stepOf = none ∨ e.stepOf = some q.currentStep) ∧
      (∀ e ∈ evs, ∀ u : Nat, e.isTriggerOf u = true → u = t.val) ∧
      ((∃ e ∈ evs, e.isTriggerOf t.val = true) ↔ fires q rnd t) := by
  by_cases hev : evaluated q.pattern t = true
  · obtain ⟨s, hs⟩ := stepAt_of_bounds q.pattern t q.currentStep h0 h1
    obtain ⟨fire, q1, he, hsame, hoth, hcnt⟩ :=
      evaluateTrigCondition_spec q t q.currentStep (rnd t.val) s hs
    have hm : (q.pattern.tracks t).muted = false := by
      simp [evaluated] at hev; exact hev.1
    have hsolo : (anySoloed q.pattern && !(q.pattern.tracks t).soloed) = false := by
      simp [evaluated] at hev
      rcases hev.2 with h | h <;> simp [h]
    have hcount : ∀ s2, stepAt q.pattern t q.currentStep = some s2 →
        q1.triggerCounts t =
          if (evaluated q.pattern t && countsStep s2) = true
          then (q.triggerCounts t + 1) % U8_MOD else q.triggerCounts t := by
      intro s2 hs2
      rw [hs] at hs2
      cases hs2
      simp [hev, hcnt]
    cases fire
    · refine ⟨q1, [], by simp [processTrack, hm, hsolo, he], hsame, hoth, hcount, ?_, ?_, ?_⟩
      · simp
      · simp
      · simp [fires, he]
    · have hs1 : stepAt q1.pattern t q1.currentStep = some s := by
        rw [sameButCounts_pattern hsame, sameButCounts_currentStep hsame]; exact hs
      obtain ⟨locks, hts, hlocks⟩ := triggerStep_spec q1 t q1.currentStep s hs1
      refine ⟨q1, locks ++ [Event.trigger t.val q1.currentStep s.velocity s.pitchOffset],
        by simp [processTrack, hm, hsolo, he, hts], hsame, hoth, hcount, ?_, ?_, ?_⟩
      · intro e hmem
        rcases List.mem_append.1 hmem with h | h
        · exact Or.inl (hlocks e h).1
        · simp at h; subst h
          right; simp [Event.stepOf, sameButCounts_currentStep hsame]
      · intro e hmem u hu
        rcases List.mem_append.1 hmem with h | h
        · rw [(hlocks e h).2 u] at hu; cases hu
        · simp at h; subst h
          simpa [Event.isTriggerOf, eq_comm] using hu
      · constructor
        · intro _
          exact ⟨hev, by simp [he]⟩
        · intro _
          exact ⟨_, List.mem_append_right _ (List.mem_singleton_self _), by simp [Event.isTriggerOf]⟩
  · have hev2 : evaluated q.pattern t = false := by simpa using hev
    have hskip : processTrack q rnd t = some (q, []) := by
      unfold processTrack
      simp [evaluated] at hev2
      by_cases hm : (q.pattern.tracks t).muted = true
      · simp [hm]
      · have hm2 : (q.pattern.tracks t).muted = false := by simpa using hm
        have := hev2 hm2
        simp [hm2, this.1, this.2]
    refine ⟨q, [], hskip, sameButCounts_refl q, fun _ _ => rfl, ?_, ?_, ?_, ?_⟩
    · intro s _; simp [hev2]
    · simp
    · simp
    · simp [fires, hev2]

theorem fires_congr {q q1 : Sequencer} (rnd : Nat → Nat) (u : Fin MAX_TRACKS)
    (hsame : sameButCounts q q1) (hc : q1.triggerCounts u = q.triggerCounts u) :
    fires q1 rnd u ↔ fires q rnd u := by
  unfold fires
  rw [sameButCounts_pattern hsame, sameButCounts_currentStep hsame,
    evaluateTrigCondition_verdict_congr q q1 u q.currentStep (rnd u.val)
      (sameButCounts_pattern hsame) (sameButCounts_fillMode hsame) hc]

theorem processTracks_spec (rnd : Nat → Nat) (ts : List (Fin MAX_TRACKS)) :
    ts.Nodup → ∀ q : Sequencer, 0 ≤ q.currentStep → q.currentStep < (MAX_STEPS : Int) →
    ∃ q2 evs, processTracks rnd ts q = some (q2, evs) ∧ sameButCounts q q2 ∧
      (∀ u, u ∉ ts → q2.triggerCounts u = q.triggerCounts u) ∧
      (∀ u, u ∈ ts → ∀ s, stepAt q.pattern u q.currentStep = some s →
        q2.triggerCounts u =
          if (evaluated q.pattern u && countsStep s) = true
          then (q.triggerCounts u + 1) % U8_MOD else q.triggerCounts u) ∧
      (∀ e ∈ evs, e.stepOf = none ∨ e.stepOf = some q.currentStep) ∧
      (∀ u : Fin MAX_TRACKS,
        (∃ e ∈ evs, e.isTriggerOf u.val = true) ↔ u ∈ ts ∧ fires q rnd u) := by
  induction ts with
  | nil =>
    intro _ q _ _
    exact ⟨q, [], rfl, sameButCounts_refl q, fun _ _ => rfl, by simp, by simp, by simp⟩
  | cons t ts ih =>
    intro hnd q h0 h1
    have hnot : t ∉ ts := (List.nodup_cons.1 hnd).1
    obtain ⟨q1, e1, hp, hsame1, hoth1, hcnt1, hstep1, honly1, hiff1⟩ :=
      processTrack_spec q rnd t h0 h1
    have hcs : q1.currentStep = q.currentStep := sameButCounts_currentStep hsame1
    have hpat : q1.pattern = q.pattern := sameButCounts_pattern hsame1
    obtain ⟨q2, e2, hps, hsame2, hout2, hin2, hstep2, hiff2⟩ :=
      ih (List.nodup_cons.1 hnd).2 q1 (by rw [hcs]; exact h0) (by rw [hcs]; exact h1)
    refine ⟨q2, e1 ++ e2, by simp [processTracks, hp, hps], sameButCounts_trans hsame1 hsame2,
      ?_, ?_, ?_, ?_⟩
    · intro u hu
      have hut : u ≠ t := fun h => hu (h ▸ List.mem_cons_self _ _)
      have hu2 : u ∉ ts := fun h => hu (List.mem_cons_of_mem _ h)
      rw [hout2 u hu2, hoth1 u hut]
    · intro u hu s hs
      rcases List.mem_cons.1 hu with h | h
      · subst h
        rw [hout2 u hnot]
        exact hcnt1 s hs
      · have hut : u ≠ t := fun e => hnot (e ▸ h)
        have := hin2 u h s (by rw [hpat, hcs]; exact hs)
        rw [this, hpat, hoth1 u hut]
    · intro e he
      rcases List.mem_append.1 he with h | h
      · exact hstep1 e h
      · have := hstep2 e h
        rwa [hcs] at this
    · intro u
      constructor
      · rintro ⟨e, he, htrig⟩
        rcases List.mem_append.1 he with h | h
        · have hut : u = t := Fin.ext (honly1 e h u.val htrig)
          subst hut
          exact ⟨List.mem_cons_self _ _, hiff1.1 ⟨e, h, htrig⟩⟩
        · obtain ⟨hmem, hf⟩ := (hiff2 u).1 ⟨e, h, htrig⟩
          have hut : u ≠ t := fun e => hnot (e ▸ hmem)
          exact ⟨List.mem_cons_of_mem _ hmem, (fires_congr rnd u hsame1 (hoth1 u hut)).1 hf⟩
      · rintro ⟨hmem, hf⟩
        rcases List.mem_cons.1 hmem with h | h
        · subst h
          obtain ⟨e, he, htrig⟩ := hiff1.2 hf
          exact ⟨e, List.mem_append_left _ he, htrig⟩
        · have hut : u ≠ t := fun e => hnot (e ▸ h)
          obtain ⟨e, he, htrig⟩ :=
            (hiff2 u).2 ⟨h, (fires_congr rnd u hsame1 (hoth1 u hut)).2 hf⟩
          exact ⟨e, List.mem_append_right _ he, htrig⟩

theorem advanceStep_spec (q : Sequencer) (hlen : 0 < q.pattern.length)
    (h0 : 0 ≤ q.currentStep) :
    ∃ q3, advanceStep q = some q3 ∧
      q3.currentStep = (q.currentStep + 1) % (q.pattern.length : Int) ∧
      q3.triggerCounts = (if q3.currentStep = 0 then fun _ => 0 else q.triggerCounts) ∧
      q3 = { q with currentStep := q3.currentStep, triggerCounts := q3.triggerCounts } := by
  have hne : q.pattern.length ≠ 0 := by omega
  have hmod : Int.tmod (q.currentStep + 1) (q.pattern.length : Int) =
      (q.currentStep + 1) % (q.pattern.length : Int) :=
    Int.tmod_eq_emod (by omega) (by omega)
  unfold advanceStep
  rw [if_neg hne]
  simp only [hmod]
  by_cases hz : (q.currentStep + 1) % (q.pattern.length : Int) = 0
  · rw [if_pos hz]
    exact ⟨_, rfl, by simp [clearCounts, hz], by simp [clearCounts, hz], rfl⟩
  · rw [if_neg hz]
    exact ⟨_, rfl, rfl, by simp [hz], rfl⟩

/-! ## One tick -/

theorem finRange_tracks_nodup : (List.finRange MAX_TRACKS).Nodup := List.nodup_finRange _

theorem update_idle (q : Sequencer) (now : Nat) (rnd : Nat → Nat)
    (h : q.running = false ∨ elapsed q now < q.stepInterval) :
    update q now rnd = some (q, []) := by
  unfold update
  rcases h with h | h
  · simp [h]
  · by_cases hr : q.running = true
    · simp [hr, Nat.not_le.2 h]
    · simp [hr]

theorem update_due_spec (q : Sequencer) (now : Nat) (rnd : Nat → Nat)
    (hrun : q.running = true) (hdue : q.stepInterval ≤ elapsed q now)
    (h0 : 0 ≤ q.currentStep) (h1 : q.currentStep < (MAX_STEPS : Int))
    (hlen : 0 < q.pattern.length) :
    ∃ q2 q3 evs,
      processTracks rnd (List.finRange MAX_TRACKS) { q with lastStepTime := now % ULONG_MOD } =
        some (q2, evs) ∧
      advanceStep q2 = some q3 ∧
      update q now rnd = some (q3, evs) ∧
      q3 = { q with lastStepTime := now % ULONG_MOD, currentStep := q3.currentStep,
                    triggerCounts := q3.triggerCounts } ∧
      q2.currentStep = q.currentStep ∧
      q3.currentStep = (q.currentStep + 1) % (q.pattern.length : Int) ∧
      (∀ u s, stepAt q.pattern u q.currentStep = some s →
        q3.triggerCounts u =
          if q3.currentStep = 0 then 0
          else if (evaluated q.pattern u && countsStep s) = true
          then (q.triggerCounts u + 1) % U8_MOD else q.triggerCounts u) ∧
      (∀ e ∈ evs, e.stepOf = none ∨ e.stepOf = some q.currentStep) ∧
      (∀ u : Fin MAX_TRACKS, (∃ e ∈ evs, e.isTriggerOf u.val = true) ↔ fires q rnd u) := by
  obtain ⟨q0, hq0⟩ : ∃ q0 : Sequencer, q0 = { q with lastStepTime := now % ULONG_MOD } :=
    ⟨_, rfl⟩
  have hcs0 : q0.currentStep = q.currentStep := by rw [hq0]
  have hpat0 : q0.pattern = q.pattern := by rw [hq0]
  have hcnt0 : q0.triggerCounts = q.triggerCounts := by rw [hq0]
  have hfill0 : q0.fillMode = q.fillMode := by rw [hq0]
  rw [← hq0]
  obtain ⟨q2, evs, hps, hsame, _, hin, hstep, hiff⟩ :=
    processTracks_spec rnd (List.finRange MAX_TRACKS) finRange_tracks_nodup q0
      (by rw [hcs0]; exact h0) (by rw [hcs0]; exact h1)
  have hcs : q2.currentStep = q.currentStep := (sameButCounts_currentStep hsame).trans hcs0
  have hpat : q2.pattern = q.pattern := (sameButCounts_pattern hsame).trans hpat0
  obtain ⟨q3, hadv, hnext, hcnt, hq3⟩ :=
    advanceStep_spec q2 (by rw [hpat]; exact hlen) (by rw [hcs]; exact h0)
  have hfires : ∀ u, fires q0 rnd u ↔ fires q rnd u := by
    intro u
    unfold fires
    rw [hpat0, hcs0, evaluateTrigCondition_verdict_congr q q0 u q.currentStep (rnd u.val)
      hpat0 hfill0 (by rw [hcnt0])]
  refine ⟨q2, q3, evs, hps, hadv, ?_, ?_, hcs, ?_, ?_, ?_, ?_⟩
  · unfold update
    have hd : elapsed q now ≥ q.stepInterval := hdue
    have hr : (!q.running) = false := by simp [hrun]
    rw [hr, if_neg (by simp), if_pos hd]
    simp only []
    rw [← hq0, hps]
    simp [hadv]
  · rw [hq3]
    unfold sameButCounts at hsame
    rw [hsame, hq0]
  · rw [hnext, hcs, hpat]
  · intro u s hs
    have h := hin u (List.mem_finRange u) s (by rw [hpat0, hcs0]; exact hs)
    rw [hcnt]
    by_cases hz : q3.currentStep = 0
    · simp [hz]
    · simp only [hz, if_false]
      rw [h, hpat0, hcnt0]
  · intro e he
    have := hstep e he
    rwa [hcs0] at this
  · intro u
    rw [hiff u, hfires u]
    simp [List.mem_finRange]

theorem evaluated_false_of_solo {p : Pattern} {t : Fin MAX_TRACKS}
    (ha : anySoloed p = true) (hs : (p.tracks t).soloed = false) : evaluated p t = false := by
  simp [evaluated, ha, hs]

theorem evaluated_false_of_muted {p : Pattern} {t : Fin MAX_TRACKS}
    (hm : (p.tracks t).muted = true) : evaluated p t = false := by
  simp [evaluated, hm]

theorem anySoloed_of_soloed {p : Pattern} (t : Fin MAX_TRACKS)
    (h : (p.tracks t).soloed = true) : anySoloed p = true := by
  unfold anySoloed
  rw [List.any_eq_true]
  exact ⟨t, List.mem_finRange t, h⟩

theorem update_inBounds (q : Sequencer) (now : Nat) (rnd : Nat → Nat) (hb : InBounds q) :
    ∃ q1 evs, update q now rnd = some (q1, evs) ∧ InBounds q1 ∧ q1.pattern = q.pattern ∧
      (∀ u : Fin MAX_TRACKS, (∃ e ∈ evs, e.isTriggerOf u.val = true) → fires q rnd u) := by
  obtain ⟨hlen, hmax, h0, h1⟩ := hb
  by_cases hgo : q.running = true ∧ q.stepInterval ≤ elapsed q now
  · have h16 : q.currentStep < (MAX_STEPS : Int) := by
      have : (q.pattern.length : Int) ≤ (MAX_STEPS : Int) := by exact_mod_cast hmax
      omega
    obtain ⟨q2, q3, evs, _, _, hup, hq3, _, hnext, _, _, hiff⟩ :=
      update_due_spec q now rnd hgo.1 hgo.2 h0 h16 hlen
    have hpat : q3.pattern = q.pattern := by rw [hq3]
    refine ⟨q3, evs, hup, ⟨?_, ?_, ?_, ?_⟩, hpat, fun u h => (hiff u).1 h⟩
    · rw [hpat]; exact hlen
    · rw [hpat]; exact hmax
    · rw [hnext]; exact Int.emod_nonneg _ (by omega)
    · rw [hnext, hpat]; exact Int.emod_lt_of_pos _ (by omega)
  · have hidle : q.running = false ∨ elapsed q now < q.stepInterval := by
      by_cases hr : q.running = true
      · right
        exact Nat.lt_of_not_le fun h => hgo ⟨hr, h⟩
      · left; simpa using hr
    exact ⟨q, [], update_idle q now rnd hidle, ⟨hlen, hmax, h0, h1⟩, rfl, by simp⟩

theorem runOps_ticks_induct (I : Sequencer → Prop) (E : Event → Prop)
    (hstep : ∀ q now rnd, I q →
      ∃ q1 evs, update q now rnd = some (q1, evs) ∧ I q1 ∧ ∀ e ∈ evs, E e) :
    ∀ (ticks : List (Nat × (Nat → Nat))) (q : Sequencer), I q →
      ∃ q1 evs, runOps q (tickOps ticks) = some (q1, evs) ∧ I q1 ∧ ∀ e ∈ evs, E e := by
  intro ticks
  induction ticks with
  | nil =>
    intro q hq
    exact ⟨q, [], rfl, hq, by simp⟩
  | cons tk rest ih =>
    intro q hq
    obtain ⟨q1, e1, hu, hI1, hE1⟩ := hstep q tk.1 tk.2 hq
    obtain ⟨q2, e2, hr, hI2, hE2⟩ := ih q1 hI1
    refine ⟨q2, e1 ++ e2, ?_, hI2, ?_⟩
    · have hr2 : runOps q1 (List.map (fun p => Op.update p.1 p.2) rest) = some (q2, e2) := hr
      simp [tickOps, runOps, applyOp, hu, hr2]
    · intro e he
      rcases List.mem_append.1 he with h | h
      · exact hE1 e h
      · exact hE2 e h

/-! ## Ticks and transport: claims -/

/-- C9: when the sequencer is not running, or is running with less than
`stepInterval` elapsed since `lastStepTime`, `update` returns the state it was
given (position, timestamp, counters and pattern included) and logs nothing. -/
theorem update_noop (q : Sequencer) (now : Nat) (rnd : Nat → Nat)
    (h : q.running = false ∨ (q.running = true ∧ elapsed q now < q.stepInterval)) :
    update q now rnd = some (q, []) :=
  update_idle q now rnd (h.imp id And.right)

/-- Witness for C9: the running sample sequencer at `now = 124`, one millisecond
before its 125 ms step is due. -/
theorem update_noop_witness :
    (sampleSeq.running = false ∨
      (sampleSeq.running = true ∧ elapsed sampleSeq 124 < sampleSeq.stepInterval)) ∧
    update sampleSeq 124 (fun _ => 0) = some (sampleSeq, []) :=
  ⟨Or.inr (by decide), update_noop sampleSeq 124 (fun _ => 0) (Or.inr (by decide))⟩

/-- C10: `stop` then `start` leaves the sequencer running at step 0 with all
counters zero; `pause` then `start` leaves it running at the step and with the
counters it had before. -/
theorem stop_start_vs_pause_start (q : Sequencer) (now : Nat) :
    ((start (stop q) now).running = true ∧ (start (stop q) now).currentStep = 0 ∧
      ∀ t, (start (stop q) now).triggerCounts t = 0) ∧
    ((start (pause q) now).running = true ∧
      (start (pause q) now).currentStep = q.currentStep ∧
      (start (pause q) now).triggerCounts = q.triggerCounts) :=
  ⟨⟨rfl, rfl, fun _ => rfl⟩, rfl, rfl, rfl⟩

/-- C1: a running sequencer whose step is due (by any amount of time, also
many whole intervals) runs the track loop once, at the position it had on
entry, and then advances once: the new position is `(currentStep + 1) mod
pattern.length`, every trigger logged names the old position, and the step
boundary is re-anchored at `now`. -/
theorem update_single_step (q : Sequencer) (now : Nat) (rnd : Nat → Nat)
    (hrun : q.running = true) (hdue : q.stepInterval ≤ elapsed q now)
    (h0 : 0 ≤ q.currentStep) (h1 : q.currentStep < (MAX_STEPS : Int))
    (hlen : 0 < q.pattern.length) :
    ∃ q2 q3 evs,
      update q now rnd = some (q3, evs) ∧
      processTracks rnd (List.finRange MAX_TRACKS) { q with lastStepTime := now % ULONG_MOD } =
        some (q2, evs) ∧
      q2.currentStep = q.currentStep ∧
      advanceStep q2 = some q3 ∧
      q3.currentStep = (q.currentStep + 1) % (q.pattern.length : Int) ∧
      (∀ e ∈ evs, e.stepOf = none ∨ e.stepOf = some q.currentStep) ∧
      q3.lastStepTime = now % ULONG_MOD := by
  obtain ⟨q2, q3, evs, hps, hadv, hup, hq3, hcs, hnext, _, hstep, _⟩ :=
    update_due_spec q now rnd hrun hdue h0 h1 hlen
  exact ⟨q2, q3, evs, hup, hps, hcs, hadv, hnext, hstep, by rw [hq3]⟩

/-- Witness for C1: the sample sequencer (interval 125 ms, last boundary at 0)
ticked at `now = 10000`, eighty intervals late. -/
theorem update_single_step_witness :
    sampleSeq.running = true ∧ sampleSeq.stepInterval ≤ elapsed sampleSeq 10000 ∧
    ∃ q2 q3 evs,
      update sampleSeq 10000 (fun _ => 0) = some (q3, evs) ∧
      processTracks (fun _ => 0) (List.finRange MAX_TRACKS)
        { sampleSeq with lastStepTime := 10000 % ULONG_MOD } = some (q2, evs) ∧
      q2.currentStep = sampleSeq.currentStep ∧
      advanceStep q2 = some q3 ∧
      q3.currentStep = (sampleSeq.currentStep + 1) % (sampleSeq.pattern.length : Int) ∧
      (∀ e ∈ evs, e.stepOf = none ∨ e.stepOf = some sampleSeq.currentStep) ∧
      q3.lastStepTime = 10000 % ULONG_MOD :=
  ⟨by decide, by decide,
    update_single_step sampleSeq 10000 (fun _ => 0) (by decide) (by decide) (by decide)
      (by decide) (by decide)⟩

/-- C2: in a tick that processes a step, (a) with any track soloed a
non-soloed track logs no trigger, (b) with no track soloed a muted track logs
no trigger and (c) an unmuted track logs a trigger exactly when
`evaluateTrigCondition` for its current step returns true. Over any run of
ticks with track 0 soloed and track 1 not, whatever track 1 holds, no trigger
of track 1 is logged; one full pattern loop is such a run. -/
theorem update_solo_mute :
    (∀ (q : Sequencer) (now : Nat) (rnd : Nat → Nat),
      q.running = true → q.stepInterval ≤ elapsed q now →
      0 ≤ q.currentStep → q.currentStep < (MAX_STEPS : Int) → 0 < q.pattern.length →
      ∃ q1 evs, update q now rnd = some (q1, evs) ∧
        ∀ t : Fin MAX_TRACKS,
          (anySoloed q.pattern = true → (q.pattern.tracks t).soloed = false →
            ∀ e ∈ evs, e.isTriggerOf t.val = false) ∧
          (anySoloed q.pattern = false → (q.pattern.tracks t).muted = true →
            ∀ e ∈ evs, e.isTriggerOf t.val = false) ∧
          (anySoloed q.pattern = false → (q.pattern.tracks t).muted = false →
            ((∃ e ∈ evs, e.isTriggerOf t.val = true) ↔
              (evaluateTrigCondition q t q.currentStep (rnd t.val)).map Prod.fst =
                some true))) ∧
    (∀ (q : Sequencer) (ticks : List (Nat × (Nat → Nat))),
      InBounds q → (q.pattern.tracks 0).soloed = true → (q.pattern.tracks 1).soloed = false →
      ∃ q1 evs, runOps q (tickOps ticks) = some (q1, evs) ∧
        ∀ e ∈ evs, e.isTriggerOf 1 = false) := by
  constructor
  · intro q now rnd hrun hdue h0 h1 hlen
    obtain ⟨_, q3, evs, _, _, hup, _, _, _, _, _, hiff⟩ :=
      update_due_spec q now rnd hrun hdue h0 h1 hlen
    have hquiet : ∀ t : Fin MAX_TRACKS, evaluated q.pattern t = false →
        ∀ e ∈ evs, e.isTriggerOf t.val = false := by
      intro t hev e he
      by_contra hne
      have htrig : e.isTriggerOf t.val = true := by simpa using hne
      have := ((hiff t).1 ⟨e, he, htrig⟩).1
      rw [hev] at this
      cases this
    refine ⟨q3, evs, hup, fun t => ⟨?_, ?_, ?_⟩⟩
    · intro ha hs
      exact hquiet t (evaluated_false_of_solo ha hs)
    · intro _ hm
      exact hquiet t (evaluated_false_of_muted hm)
    · intro ha hm
      rw [hiff t]
      unfold fires
      simp [evaluated, ha, hm]
  · intro q ticks hb hs0 hs1
    obtain ⟨q1, evs, hrun, _, hE⟩ :=
      runOps_ticks_induct (fun s => InBounds s ∧ s.pattern = q.pattern)
        (fun e => e.isTriggerOf 1 = false)
        (by
          intro s now rnd hI
          obtain ⟨s1, evs, hup, hb1, hpat, hf⟩ := update_inBounds s now rnd hI.1
          refine ⟨s1, evs, hup, ⟨hb1, hpat.trans hI.2⟩, ?_⟩
          intro e he
          by_contra hne
          have htrig : e.isTriggerOf ((1 : Fin MAX_TRACKS) : Nat) = true := by simpa using hne
          have hev := (hf 1 ⟨e, he, htrig⟩).1
          rw [hI.2, evaluated_false_of_solo (anySoloed_of_soloed 0 hs0) hs1] at hev
          cases hev)
        ticks q ⟨hb, rfl⟩
    exact ⟨q1, evs, hrun, hE⟩

/-- Witness for C2: the first tick of `soloSeq`, and its run over one loop of
sixteen due ticks, with track 0 soloed and an active `ALWAYS` step on the
unmuted track 1. -/
theorem update_solo_mute_witness :
    (soloSeq.pattern.tracks 0).soloed = true ∧ (soloSeq.pattern.tracks 1).soloed = false ∧
    (soloSeq.pattern.tracks 1).muted = false ∧
    stepAt soloSeq.pattern 1 0 = some { defaultStep with active := true } ∧
    (∃ q1 evs, update soloSeq 125 (fun _ => 0) = some (q1, evs) ∧
      ∀ t : Fin MAX_TRACKS,
        (anySoloed soloSeq.pattern = true → (soloSeq.pattern.tracks t).soloed = false →
          ∀ e ∈ evs, e.isTriggerOf t.val = false) ∧
        (anySoloed soloSeq.pattern = false → (soloSeq.pattern.tracks t).muted = true →
          ∀ e ∈ evs, e.isTriggerOf t.val = false) ∧
        (anySoloed soloSeq.pattern = false → (soloSeq.pattern.tracks t).muted = false →
          ((∃ e ∈ evs, e.isTriggerOf t.val = true) ↔
            (evaluateTrigCondition soloSeq t soloSeq.currentStep ((fun _ => 0) t.val)).map
              Prod.fst = some true))) ∧
    (runOps soloSeq (tickOps loopTicks)).map (fun r => r.1.currentStep) = some 0 ∧
    (∃ q1 evs, runOps soloSeq (tickOps loopTicks) = some (q1, evs) ∧
      ∀ e ∈ evs, e.isTriggerOf 1 = false) :=
  ⟨by decide, by decide, by decide, by decide,
    update_solo_mute.1 soloSeq 125 (fun _ => 0) (by decide) (by decide) (by decide)
      (by decide) (by decide),
    by decide,
    update_solo_mute.2 soloSeq loopTicks (by unfold InBounds; decide) (by decide) (by decide)⟩

/-! ## Counters over a run of ticks -/

theorem ordinalEvals_le (p : Pattern) (t : Fin MAX_TRACKS) (n : Nat) :
    ordinalEvals p t n ≤ n := by
  induction n with
  | zero => simp [ordinalEvals]
  | succ n ih =>
    unfold ordinalEvals
    have : (match stepAt p t (n : Int) with
       | some s => if countsStep s = true then 1 else 0
       | none => 0) ≤ 1 := by
      split
      · split <;> omega
      · omega
    omega

theorem update_countsInSync (q : Sequencer) (now : Nat) (rnd : Nat → Nat)
    (hb : InBounds q) (hsync : CountsInSync q) :
    ∃ q1 evs, update q now rnd = some (q1, evs) ∧ InBounds q1 ∧ q1.pattern = q.pattern ∧
      CountsInSync q1 := by
  obtain ⟨q1, evs, hup, hb1, hpat, _⟩ := update_inBounds q now rnd hb
  refine ⟨q1, evs, hup, hb1, hpat, ?_⟩
  obtain ⟨hlen, hmax, h0, h1⟩ := hb
  have hmaxZ : (q.pattern.length : Int) ≤ 16 := by exact_mod_cast hmax
  by_cases hgo : q.running = true ∧ q.stepInterval ≤ elapsed q now
  · have h16 : q.currentStep < (MAX_STEPS : Int) := by
      show q.currentStep < ((16 : Nat) : Int)
      omega
    obtain ⟨_, q3, evs3, _, _, hup3, _, _, hnext, hcnt, _, _⟩ :=
      update_due_spec q now rnd hgo.1 hgo.2 h0 h16 hlen
    rw [hup] at hup3
    cases hup3
    intro t
    obtain ⟨s, hs⟩ := stepAt_of_bounds q.pattern t q.currentStep h0 h16
    rw [hcnt t s hs, hpat]
    by_cases hz : q1.currentStep = 0
    · simp [hz, ordinalEvals]
    · rw [if_neg hz]
      have hlt : q.currentStep + 1 < (q.pattern.length : Int) := by
        by_contra hge
        have heq : q.currentStep + 1 = (q.pattern.length : Int) := by omega
        rw [hnext, heq, Int.emod_self] at hz
        exact hz rfl
      have hcs1 : q1.currentStep = q.currentStep + 1 := by
        rw [hnext]
        exact Int.emod_eq_of_lt (by omega) hlt
      have htn : q1.currentStep.toNat = q.currentStep.toNat + 1 := by omega
      have hcast : ((q.currentStep.toNat : Nat) : Int) = q.currentStep := Int.toNat_of_nonneg h0
      have hle := ordinalEvals_le q.pattern t q.currentStep.toNat
      have hsmall : q.currentStep.toNat < 16 := by omega
      have hsucc : ordinalEvals q.pattern t (q.currentStep.toNat + 1) =
          ordinalEvals q.pattern t q.currentStep.toNat +
            (if countsStep s = true then 1 else 0) := by
        show ordinalEvals q.pattern t q.currentStep.toNat +
            (match stepAt q.pattern t ((q.currentStep.toNat : Nat) : Int) with
             | some s => if countsStep s = true then 1 else 0
             | none => 0) = _
        rw [hcast, hs]
      rw [htn, hsucc]
      by_cases hev : evaluated q.pattern t = true
      · have hq : q.triggerCounts t = ordinalEvals q.pattern t q.currentStep.toNat := by
          have := hsync t
          rwa [if_pos hev] at this
        simp only [hev, if_true, Bool.true_and]
        rw [hq]
        by_cases hc : countsStep s = true
        · simp only [hc, if_true]
          exact Nat.mod_eq_of_lt
            (show ordinalEvals q.pattern t q.currentStep.toNat + 1 < 256 by omega)
        · simp [hc]
      · have hq : q.triggerCounts t = 0 := by
          have := hsync t
          rwa [if_neg hev] at this
        simp [hev, hq]
  · have hidle : q.running = false ∨ elapsed q now < q.stepInterval := by
      by_cases hr : q.running = true
      · right
        exact Nat.lt_of_not_le fun h => hgo ⟨hr, h⟩
      · left; simpa using hr
    rw [update_idle q now rnd hidle] at hup
    cases hup
    exact hsync

theorem countsInSync_of_fresh (q : Sequencer) (hcs : q.currentStep = 0)
    (hz : ∀ t, q.triggerCounts t = 0) : CountsInSync q := by
  intro t
  rw [hz t, hcs]
  simp [ordinalEvals]

/-- C4 as stated fails in both directions. On the sample track step 0 is an
active `ALWAYS` step and step 1 an active `2ND` step: the evaluation of step 1
is the second evaluation of an active step of track 0 since the loop began
(`activeEvals = 1` before it), yet the second tick logs nothing. On the
ordinal track steps 0 (`1ST`), 1 (`ALWAYS`) and 2 (`2ND`) are active: the
evaluation of step 2 is the third evaluation of an active step
(`activeEvals = 2` before it), and the third tick logs its trigger. -/
theorem second_active_evaluation_quiet :
    stepAt sampleSeq.pattern 0 1 = some (sampleSteps 1) ∧
    (sampleSteps 1).active = true ∧ (sampleSteps 1).condition = TRIG_2ND ∧
    activeEvals sampleSeq.pattern 0 1 = 1 ∧
    (runOps sampleSeq (tickOps [(125, fun _ => 0)])).map
        (fun r => (r.1.currentStep, r.1.triggerCounts 0, r.2)) =
      some (1, 0, [Event.trigger 0 0 127 0]) ∧
    (runOps sampleSeq (tickOps [(125, fun _ => 0), (250, fun _ => 0)])).map
        (fun r => (r.1.currentStep, r.1.triggerCounts 0, r.2)) =
      some (2, 1, [Event.trigger 0 0 127 0]) ∧
    stepAt ordinalSeq.pattern 0 2 = some (ordinalSteps 2) ∧
    (ordinalSteps 2).active = true ∧ (ordinalSteps 2).condition = TRIG_2ND ∧
    activeEvals ordinalSeq.pattern 0 2 = 2 ∧
    (runOps ordinalSeq (tickOps [(125, fun _ => 0), (250, fun _ => 0)])).map
        (fun r => (r.1.currentStep, r.2)) =
      some (2, [Event.trigger 0 0 127 0, Event.trigger 0 1 127 0]) ∧
    (runOps ordinalSeq
        (tickOps [(125, fun _ => 0), (250, fun _ => 0), (375, fun _ => 0)])).map
        (fun r => (r.1.currentStep, r.2)) =
      some (3, [Event.trigger 0 0 127 0, Event.trigger 0 1 127 0, Event.trigger 0 2 127 0]) := by
  decide

/-- C4, amended: run any ticks from the start of a loop (position 0, counters
zero, position and length inside the table). The run returns, the pattern is
unchanged and every counter of an evaluated track equals the number of active
ordinal-condition steps of that track below the position. In the tick that
then processes an active `2ND` step of an evaluated track, the step fires
exactly when that number is 1: its evaluation is the second evaluation of an
active ordinal-condition step of the track in this loop, not the first and
not a later one. -/
theorem second_fires_on_second_ordinal_evaluation (q : Sequencer)
    (ticks : List (Nat × (Nat → Nat))) (hb : InBounds q) (hcs : q.currentStep = 0)
    (hz : ∀ t, q.triggerCounts t = 0) :
    ∃ q1 evs, runOps q (tickOps ticks) = some (q1, evs) ∧ InBounds q1 ∧
      q1.pattern = q.pattern ∧
      (∀ t, evaluated q1.pattern t = true →
        q1.triggerCounts t = ordinalEvals q1.pattern t q1.currentStep.toNat) ∧
      (∀ (now : Nat) (rnd : Nat → Nat) (t : Fin MAX_TRACKS) (s : Step),
        q1.running = true → q1.stepInterval ≤ elapsed q1 now →
        evaluated q1.pattern t = true →
        stepAt q1.pattern t q1.currentStep = some s → s.active = true →
        s.condition = TRIG_2ND →
        ∃ q2 evs2, update q1 now rnd = some (q2, evs2) ∧
          ((∃ e ∈ evs2, e.isTriggerOf t.val = true) ↔
            ordinalEvals q1.pattern t q1.currentStep.toNat = 1)) := by
  obtain ⟨q1, evs, hrun, ⟨hb1, hpat, hsync⟩, _⟩ :=
    runOps_ticks_induct
      (fun s => InBounds s ∧ s.pattern = q.pattern ∧ CountsInSync s) (fun _ => True)
      (by
        intro s now rnd hI
        obtain ⟨s1, evs, hup, hb1, hpat, hsync1⟩ := update_countsInSync s now rnd hI.1 hI.2.2
        exact ⟨s1, evs, hup, ⟨hb1, hpat.trans hI.2.1, hsync1⟩, fun _ _ => trivial⟩)
      ticks q ⟨hb, rfl, countsInSync_of_fresh q hcs hz⟩
  have hcount : ∀ t, evaluated q1.pattern t = true →
      q1.triggerCounts t = ordinalEvals q1.pattern t q1.currentStep.toNat := by
    intro t hev
    have := hsync t
    rwa [if_pos hev] at this
  refine ⟨q1, evs, hrun, hb1, hpat, hcount, ?_⟩
  intro now rnd t s hr hdue hev hs ha hc
  obtain ⟨hlen, hmax, h0, h1⟩ := hb1
  have hmaxZ : (q1.pattern.length : Int) ≤ 16 := by exact_mod_cast hmax
  have h16 : q1.currentStep < (MAX_STEPS : Int) := by
    show q1.currentStep < ((16 : Nat) : Int)
    omega
  obtain ⟨_, q3, evs3, _, _, hup, _, _, _, _, _, hiff⟩ :=
    update_due_spec q1 now rnd hr hdue h0 h16 hlen
  refine ⟨q3, evs3, hup, ?_⟩
  have hle := ordinalEvals_le q1.pattern t q1.currentStep.toNat
  have hsmall : q1.currentStep.toNat < 16 := by omega
  rw [hiff t]
  unfold fires
  rw [← hcount t hev] at hle ⊢
  have hmod : (q1.triggerCounts t + 1) % 256 = q1.triggerCounts t + 1 :=
    Nat.mod_eq_of_lt (by omega)
  simp [hev, evaluateTrigCondition, hs, ha, hc, bumpCount, hmod]

/-- Witness for C4: the ordinal sequencer at the start of a loop, run for two
due ticks, which bring it to its first `2ND` step with one ordinal evaluation
(the `1ST` of step 0) behind it. -/
theorem second_fires_on_second_ordinal_evaluation_witness :
    InBounds ordinalSeq ∧ ordinalSeq.currentStep = 0 ∧ (∀ t, ordinalSeq.triggerCounts t = 0) ∧
    ordinalEvals ordinalSeq.pattern 0 2 = 1 ∧
    ∃ q1 evs,
      runOps ordinalSeq (tickOps [(125, fun _ => 0), (250, fun _ => 0)]) = some (q1, evs) ∧
      InBounds q1 ∧ q1.pattern = ordinalSeq.pattern ∧
      (∀ t, evaluated q1.pattern t = true →
        q1.triggerCounts t = ordinalEvals q1.pattern t q1.currentStep.toNat) ∧
      (∀ (now : Nat) (rnd : Nat → Nat) (t : Fin MAX_TRACKS) (s : Step),
        q1.running = true → q1.stepInterval ≤ elapsed q1 now →
        evaluated q1.pattern t = true →
        stepAt q1.pattern t q1.currentStep = some s → s.active = true →
        s.condition = TRIG_2ND →
        ∃ q2 evs2, update q1 now rnd = some (q2, evs2) ∧
          ((∃ e ∈ evs2, e.isTriggerOf t.val = true) ↔
            ordinalEvals q1.pattern t q1.currentStep.toNat = 1)) :=
  ⟨by unfold InBounds; decide, by decide, by decide, by decide,
    second_fires_on_second_ordinal_evaluation ordinalSeq
      [(125, fun _ => 0), (250, fun _ => 0)]
      (by unfold InBounds; decide) (by decide) (by decide)⟩

/-! ## Counters under every public operation -/

theorem processTrack_frame (q : Sequencer) (rnd : Nat → Nat) (t : Fin MAX_TRACKS)
    (q1 : Sequencer) (evs : List Event) (h : processTrack q rnd t = some (q1, evs)) :
    sameButCounts q q1 ∧ (∀ u, u ≠ t → q1.triggerCounts u = q.triggerCounts u) ∧
      (q1.triggerCounts t = q.triggerCounts t ∨
        q1.triggerCounts t = (q.triggerCounts t + 1) % U8_MOD) := by
  unfold processTrack at h
  split at h
  · cases h
    exact ⟨sameButCounts_refl q, fun _ _ => rfl, Or.inl rfl⟩
  · split at h
    · cases h
      exact ⟨sameButCounts_refl q, fun _ _ => rfl, Or.inl rfl⟩
    · cases hs : stepAt q.pattern t q.currentStep with
      | none =>
        have : evaluateTrigCondition q t q.currentStep (rnd t.val) = none := by
          simp [evaluateTrigCondition, hs]
        rw [this] at h
        cases h
      | some s =>
        obtain ⟨fire, q2, he, hsame, hoth, hcnt⟩ :=
          evaluateTrigCondition_spec q t q.currentStep (rnd t.val) s hs
        rw [he] at h
        have hq : q1 = q2 := by
          cases fire
          · simp only [Bool.false_eq_true, if_false, Option.some.injEq, Prod.mk.injEq] at h
            exact h.1.symm
          · simp only [if_true, Option.map_eq_some', Prod.mk.injEq] at h
            obtain ⟨_, _, h2, _⟩ := h
            exact h2.symm
        subst hq
        refine ⟨hsame, hoth, ?_⟩
        rw [hcnt]
        by_cases hc : countsStep s = true
        · right; simp [hc]
        · left; simp [hc]

theorem processTracks_frame (rnd : Nat → Nat) (ts : List (Fin MAX_TRACKS)) :
    ts.Nodup → ∀ (q q2 : Sequencer) (evs : List Event),
    processTracks rnd ts q = some (q2, evs) →
    sameButCounts q q2 ∧
      ∀ u, q2.triggerCounts u = q.triggerCounts u ∨
        (u ∈ ts ∧ q2.triggerCounts u = (q.triggerCounts u + 1) % U8_MOD) := by
  induction ts with
  | nil =>
    intro _ q q2 evs h
    simp [processTracks] at h
    rw [← h.1]
    exact ⟨sameButCounts_refl q, fun _ => Or.inl rfl⟩
  | cons t ts ih =>
    intro hnd q q2 evs h
    have hnot : t ∉ ts := (List.nodup_cons.1 hnd).1
    unfold processTracks at h
    cases hp : processTrack q rnd t with
    | none => rw [hp] at h; cases h
    | some r1 =>
      obtain ⟨q1, e1⟩ := r1
      simp only [hp] at h
      cases hps : processTracks rnd ts q1 with
      | none => simp only [hps] at h; cases h
      | some r2 =>
        obtain ⟨q2b, e2⟩ := r2
        simp only [hps, Option.some.injEq, Prod.mk.injEq] at h
        obtain ⟨hq, _⟩ := h
        subst hq
        obtain ⟨hsame1, hoth1, hcnt1⟩ := processTrack_frame q rnd t q1 e1 hp
        obtain ⟨hsame2, hcnt2⟩ := ih (List.nodup_cons.1 hnd).2 q1 q2b e2 hps
        refine ⟨sameButCounts_trans hsame1 hsame2, ?_⟩
        intro u
        by_cases hut : u = t
        · subst hut
          rcases hcnt2 u with h2 | h2
          · rw [h2]
            rcases hcnt1 with h1 | h1
            · exact Or.inl h1
            · exact Or.inr ⟨List.mem_cons_self _ _, h1⟩
          · exact absurd h2.1 hnot
        · rcases hcnt2 u with h2 | h2
          · left; rw [h2, hoth1 u hut]
          · right
            exact ⟨List.mem_cons_of_mem _ h2.1, by rw [h2.2, hoth1 u hut]⟩

theorem advanceStep_counts (q q3 : Sequencer) (h : advanceStep q = some q3) :
    (q3.currentStep = 0 → ∀ t, q3.triggerCounts t = 0) ∧
      (q3.currentStep ≠ 0 → q3.triggerCounts = q.triggerCounts) := by
  unfold advanceStep at h
  split at h
  · cases h
  · simp only [] at h
    by_cases hz : Int.tmod (q.currentStep + 1) (q.pattern.length : Int) = 0
    · rw [if_pos hz] at h
      cases h
      exact ⟨fun _ _ => rfl, fun hne => absurd hz hne⟩
    · rw [if_neg hz] at h
      cases h
      exact ⟨fun h0 => absurd h0 hz, fun _ => rfl⟩

theorem update_counts (q : Sequencer) (now : Nat) (rnd : Nat → Nat) (q1 : Sequencer)
    (evs : List Event) (h : update q now rnd = some (q1, evs)) :
    (q.running = true → q.stepInterval ≤ elapsed q now → q1.currentStep = 0 →
      ∀ t, q1.triggerCounts t = 0) ∧
    (q.running = false ∨ elapsed q now < q.stepInterval ∨ q1.currentStep ≠ 0 →
      ∀ t, q1.triggerCounts t = q.triggerCounts t ∨
        q1.triggerCounts t = (q.triggerCounts t + 1) % U8_MOD) := by
  by_cases hgo : q.running = true ∧ q.stepInterval ≤ elapsed q now
  · unfold update at h
    have hr : (!q.running) = false := by simp [hgo.1]
    have hd : elapsed q now ≥ q.stepInterval := hgo.2
    rw [hr, if_neg (by simp), if_pos hd] at h
    simp only [] at h
    cases hps : processTracks rnd (List.finRange MAX_TRACKS)
        { q with lastStepTime := now % ULONG_MOD } with
    | none => rw [hps] at h; cases h
    | some r =>
      obtain ⟨q2, e2⟩ := r
      rw [hps] at h
      simp only [Option.map_eq_some'] at h
      obtain ⟨q3, hadv, hq3⟩ := h
      cases hq3
      obtain ⟨_, hcnt⟩ := processTracks_frame rnd _ finRange_tracks_nodup _ q2 _ hps
      obtain ⟨hzero, hkeep⟩ := advanceStep_counts q2 q1 hadv
      refine ⟨fun _ _ hz => hzero hz, ?_⟩
      intro hcase t
      have hne : q1.currentStep ≠ 0 := by
        rcases hcase with h1 | h1 | h1
        · rw [hgo.1] at h1; cases h1
        · omega
        · exact h1
      rw [hkeep hne]
      rcases hcnt t with h2 | h2
      · exact Or.inl h2
      · exact Or.inr h2.2
  · have hidle : q.running = false ∨ elapsed q now < q.stepInterval := by
      by_cases hr : q.running = true
      · right
        exact Nat.lt_of_not_le fun h => hgo ⟨hr, h⟩
      · left; simpa using hr
    rw [update_idle q now rnd hidle] at h
    cases h
    exact ⟨fun hr hd => absurd ⟨hr, hd⟩ hgo, fun _ _ => Or.inl rfl⟩

theorem withPattern_counts {q : Sequencer} {p : Option Pattern} {q1 : Sequencer}
    (h : withPattern q p = some q1) : q1.triggerCounts = q.triggerCounts := by
  unfold withPattern at h
  simp only [Option.map_eq_some'] at h
  obtain ⟨_, _, h2⟩ := h
  rw [← h2]

theorem calculateStepInterval_counts {q q1 : Sequencer}
    (h : calculateStepInterval q = some q1) : q1.triggerCounts = q.triggerCounts := by
  unfold calculateStepInterval at h
  simp only [Option.map_eq_some'] at h
  obtain ⟨_, _, h2⟩ := h
  rw [← h2]

theorem guarded_counts {c : Prop} [Decidable c] {q q1 : Sequencer} {p : Option Pattern}
    (h : (if c then withPattern q p else some q) = some q1) :
    q1.triggerCounts = q.triggerCounts := by
  split at h
  · exact withPattern_counts h
  · cases h; rfl

theorem applyOp_keeps_counts (q : Sequencer) (op : Op) (q1 : Sequencer) (evs : List Event)
    (h : applyOp q op = some (q1, evs)) (hstop : op ≠ Op.stop) (hreset : op ≠ Op.reset)
    (hupd : ∀ now rnd, op ≠ Op.update now rnd) :
    q1.triggerCounts = q.triggerCounts := by
  cases op with
  | update now rnd => exact absurd rfl (hupd now rnd)
  | stop => exact absurd rfl hstop
  | reset => exact absurd rfl hreset
  | begin b =>
    simp only [applyOp, begin, Option.map_eq_some', Prod.mk.injEq] at h
    obtain ⟨_, ⟨r, hr, h2⟩, h3, _⟩ := h
    rw [← h3, ← h2]
    have := calculateStepInterval_counts hr
    exact this
  | setTempo b =>
    simp only [applyOp, setTempo, Option.map_eq_some', Prod.mk.injEq] at h
    obtain ⟨_, hr, h3, _⟩ := h
    rw [← h3]
    have := calculateStepInterval_counts hr
    exact this
  | adjustSwing d =>
    simp only [applyOp, adjustSwing, Option.map_eq_some', Prod.mk.injEq] at h
    obtain ⟨_, hr, h3, _⟩ := h
    rw [← h3]
    split at hr
    · cases hr
    · have := calculateStepInterval_counts hr
      exact this
  | setPosition st =>
    simp only [applyOp, setPosition, Option.map_eq_some', Prod.mk.injEq] at h
    obtain ⟨_, hr, h3, _⟩ := h
    rw [← h3]
    split at hr
    · cases hr
    · cases hr; rfl
  | start now => simp only [applyOp, Option.some.injEq, Prod.mk.injEq] at h; rw [← h.1]; rfl
  | pause => simp only [applyOp, Option.some.injEq, Prod.mk.injEq] at h; rw [← h.1]; rfl
  | selectTrack t =>
    simp only [applyOp, Option.some.injEq, Prod.mk.injEq] at h
    rw [← h.1]
    unfold selectTrack
    split <;> rfl
  | loadPattern n => simp only [applyOp, Option.some.injEq, Prod.mk.injEq] at h; rw [← h.1]; rfl
  | savePattern n => simp only [applyOp, Option.some.injEq, Prod.mk.injEq] at h; rw [← h.1]; rfl
  | copyPattern a b => simp only [applyOp, Option.some.injEq, Prod.mk.injEq] at h; rw [← h.1]; rfl
  | clearPattern => simp only [applyOp, Option.some.injEq, Prod.mk.injEq] at h; rw [← h.1]; rfl
  | setFillMode e => simp only [applyOp, Option.some.injEq, Prod.mk.injEq] at h; rw [← h.1]; rfl
  | muteTrack t =>
    simp only [applyOp, muteTrack, Option.map_eq_some', Prod.mk.injEq] at h
    obtain ⟨_, hr, h3, _⟩ := h
    rw [← h3]; exact guarded_counts hr
  | unmuteTrack t =>
    simp only [applyOp, unmuteTrack, Option.map_eq_some', Prod.mk.injEq] at h
    obtain ⟨_, hr, h3, _⟩ := h
    rw [← h3]; exact guarded_counts hr
  | soloTrack t =>
    simp only [applyOp, soloTrack, Option.map_eq_some', Prod.mk.injEq] at h
    obtain ⟨_, hr, h3, _⟩ := h
    rw [← h3]; exact guarded_counts hr
  | unsoloTrack t =>
    simp only [applyOp, unsoloTrack, Option.map_eq_some', Prod.mk.injEq] at h
    obtain ⟨_, hr, h3, _⟩ := h
    rw [← h3]; exact guarded_counts hr
  | toggleStep st =>
    simp only [applyOp, toggleStep, Option.map_eq_some', Prod.mk.injEq] at h
    obtain ⟨_, hr, h3, _⟩ := h
    rw [← h3]; exact guarded_counts hr
  | setStep t st a =>
    simp only [applyOp, setStep, Option.map_eq_some', Prod.mk.injEq] at h
    obtain ⟨_, hr, h3, _⟩ := h
    rw [← h3]; exact guarded_counts hr
  | setTrigCondition t st c =>
    simp only [applyOp, setTrigCondition, Option.map_eq_some', Prod.mk.injEq] at h
    obtain ⟨_, hr, h3, _⟩ := h
    rw [← h3]; exact guarded_counts hr
  | clearAllParamLocks t st =>
    simp only [applyOp, clearAllParamLocks, Option.map_eq_some', Prod.mk.injEq] at h
    obtain ⟨_, hr, h3, _⟩ := h
    rw [← h3]; exact guarded_counts hr
  | setParamLock t st p v =>
    simp only [applyOp, setParamLock, Option.map_eq_some', Prod.mk.injEq] at h
    obtain ⟨_, hr, h3, _⟩ := h
    rw [← h3]
    split at hr
    · exact withPattern_counts hr
    · cases hr; rfl
  | clearParamLock t st p =>
    simp only [applyOp, clearParamLock, Option.map_eq_some', Prod.mk.injEq] at h
    obtain ⟨_, hr, h3, _⟩ := h
    rw [← h3]
    split at hr
    · exact withPattern_counts hr
    · cases hr; rfl


/-- C5 as stated fails: three ticks of the sample sequencer leave it at step 3
with the counter of track 0 at 2; `setPosition(0)` then moves `currentStep` to
0 and the counter is still 2. -/
theorem setPosition_zero_keeps_counters :
    (runOps sampleSeq (tickOps [(125, fun _ => 0), (250, fun _ => 0), (375, fun _ => 0)])).map
        (fun r => (r.1.currentStep, r.1.triggerCounts 0)) = some (3, 2) ∧
    (runOps sampleSeq
        (tickOps [(125, fun _ => 0), (250, fun _ => 0), (375, fun _ => 0)] ++
          [Op.setPosition 0])).map
        (fun r => (r.1.currentStep, r.1.triggerCounts 0)) = some (0, 2) := by
  decide

/-- C5, amended: the tick and transport operations return in every state whose
position and length are inside the table, and whenever a public operation
returns: `stop` and `reset` leave all counters zero; a tick that processes a
step and lands on position 0 (the pattern wrap) leaves all counters zero; a
tick that does not wrap leaves each counter below 255 unchanged or one higher;
every other operation, `setPosition` included even when it moves the position
to 0, leaves every counter as it was. -/
theorem counters_cleared_by_wrap_stop_reset (q : Sequencer) (op : Op) :
    (InBounds q → op.isTransport = true → ∃ r, applyOp q op = some r) ∧
    ∀ q1 evs, applyOp q op = some (q1, evs) →
      (op = Op.stop ∨ op = Op.reset → ∀ t, q1.triggerCounts t = 0) ∧
      (∀ now rnd, op = Op.update now rnd →
        (q.running = true → q.stepInterval ≤ elapsed q now → q1.currentStep = 0 →
          ∀ t, q1.triggerCounts t = 0) ∧
        (q.running = false ∨ elapsed q now < q.stepInterval ∨ q1.currentStep ≠ 0 →
          ∀ t, q.triggerCounts t < 255 →
            q1.triggerCounts t = q.triggerCounts t ∨
              q1.triggerCounts t = q.triggerCounts t + 1)) ∧
      (op ≠ Op.stop → op ≠ Op.reset → (∀ now rnd, op ≠ Op.update now rnd) →
        q1.triggerCounts = q.triggerCounts) := by
  constructor
  · intro hb ht
    cases op <;> simp only [Op.isTransport, Bool.false_eq_true] at ht
    case update now rnd =>
      obtain ⟨q1, evs, hup, _⟩ := update_inBounds q now rnd hb
      exact ⟨(q1, evs), hup⟩
    case setPosition st =>
      have hne : q.pattern.length ≠ 0 := by have := hb.1; omega
      exact ⟨_, by simp only [applyOp, setPosition, if_neg hne]; rfl⟩
    all_goals exact ⟨_, rfl⟩
  · intro q1 evs h
    refine ⟨?_, ?_, applyOp_keeps_counts q op q1 evs h⟩
    · rintro (hop | hop) <;> subst hop <;>
        simp only [applyOp, Option.some.injEq, Prod.mk.injEq] at h <;>
        intro t <;> rw [← h.1] <;> rfl
    · intro now rnd hop
      subst hop
      obtain ⟨hzero, hkeep⟩ := update_counts q now rnd q1 evs h
      refine ⟨hzero, ?_⟩
      intro hcase t hlt
      rcases hkeep hcase t with h1 | h1
      · exact Or.inl h1
      · right
        rw [h1]
        exact Nat.mod_eq_of_lt (show q.triggerCounts t + 1 < 256 by omega)

/-- Witness for C5: `setPosition(0)` on the sample sequencer at step 3 with the
counter of track 0 at 2. -/
theorem counters_cleared_by_wrap_stop_reset_witness :
    InBounds sampleSeqAt3 ∧
    applyOp sampleSeqAt3 (Op.setPosition 0) =
      some ({ sampleSeqAt3 with currentStep := 0 }, []) ∧
    ({ sampleSeqAt3 with currentStep := 0 } : Sequencer).triggerCounts =
      sampleSeqAt3.triggerCounts ∧
    ∃ r, applyOp sampleSeqAt3 (Op.setPosition 0) = some r :=
  ⟨by unfold InBounds; decide, rfl,
    ((counters_cleared_by_wrap_stop_reset sampleSeqAt3 (Op.setPosition 0)).2
      { sampleSeqAt3 with currentStep := 0 } [] rfl).2.2
      (by simp) (by simp) (by simp),
    (counters_cleared_by_wrap_stop_reset sampleSeqAt3 (Op.setPosition 0)).1
      (by unfold InBounds; decide) rfl⟩

/-! ## evaluateTrigCondition -/

/-- C6: an inactive step never fires, whatever its condition, the fill mode, the
random draw and the counters are, and the evaluation leaves the whole state,
every trigger counter included, unchanged. -/
theorem evaluateTrigCondition_inactive (q : Sequencer) (track : Fin MAX_TRACKS) (step : Int)
    (raw : Nat) (s : Step) (hs : stepAt q.pattern track step = some s)
    (ha : s.active = false) :
    evaluateTrigCondition q track step raw = some (false, q) := by
  simp [evaluateTrigCondition, hs, ha]

/-- Witness for C6 on step 7 of the sample track, an inactive `1ST` step. -/
theorem evaluateTrigCondition_inactive_witness :
    stepAt sampleSeq.pattern 0 7 = some (sampleSteps 7) ∧
    (sampleSteps 7).active = false ∧ (sampleSteps 7).condition = TRIG_1ST ∧
    evaluateTrigCondition sampleSeq 0 7 3 = some (false, sampleSeq) :=
  ⟨by decide, by decide, by decide,
    evaluateTrigCondition_inactive sampleSeq 0 7 3 (sampleSteps 7) (by decide) (by decide)⟩

/-- C7: on an active step, `ALWAYS` fires, `FILL` returns `fillMode`, `NOT_FILL`
returns its negation; in all three the state (so every trigger counter) is
unchanged, and the verdict is the same in any two states that have the same
pattern and fill mode, whatever their counters, position and random draw. -/
theorem evaluateTrigCondition_always_fill (q : Sequencer) (track : Fin MAX_TRACKS)
    (step : Int) (raw : Nat) (s : Step) (hs : stepAt q.pattern track step = some s)
    (ha : s.active = true) :
    (s.condition = TRIG_ALWAYS → evaluateTrigCondition q track step raw = some (true, q)) ∧
    (s.condition = TRIG_FILL →
      evaluateTrigCondition q track step raw = some (q.fillMode, q)) ∧
    (s.condition = TRIG_NOT_FILL →
      evaluateTrigCondition q track step raw = some (!q.fillMode, q)) ∧
    (s.condition = TRIG_ALWAYS ∨ s.condition = TRIG_FILL ∨ s.condition = TRIG_NOT_FILL →
      ∀ (q2 : Sequencer) (raw2 : Nat), q2.pattern = q.pattern → q2.fillMode = q.fillMode →
        (evaluateTrigCondition q2 track step raw2).map Prod.fst =
          (evaluateTrigCondition q track step raw).map Prod.fst) := by
  refine ⟨?_, ?_, ?_, ?_⟩
  · intro hc; simp [evaluateTrigCondition, hs, ha, hc]
  · intro hc; simp [evaluateTrigCondition, hs, ha, hc]
  · intro hc; simp [evaluateTrigCondition, hs, ha, hc]
  · intro hc q2 raw2 hp hf
    have hs2 : stepAt q2.pattern track step = some s := by rw [hp]; exact hs
    rcases hc with hc | hc | hc <;>
      simp [evaluateTrigCondition, hs, hs2, ha, hc, hf]

/-- Witness for C7 on step 3 of the sample track, an active `FILL` step. -/
theorem evaluateTrigCondition_always_fill_witness :
    stepAt sampleSeq.pattern 0 3 = some (sampleSteps 3) ∧
    (sampleSteps 3).active = true ∧ (sampleSteps 3).condition = TRIG_FILL ∧
    evaluateTrigCondition sampleSeq 0 3 0 = some (sampleSeq.fillMode, sampleSeq) :=
  ⟨by decide, by decide, by decide,
    (evaluateTrigCondition_always_fill sampleSeq 0 3 0 (sampleSteps 3)
      (by decide) (by decide)).2.1 (by decide)⟩

/-- C8: an active `PRE` or `NEI` step at index `step` fires exactly when
`step > 0` and the step at `step - 1` of the same track is active; at step 0 it
never fires (the last step of the pattern is not consulted); the state is
unchanged and the verdict does not depend on counters, fill mode or draw. -/
theorem evaluateTrigCondition_pre_nei (q : Sequencer) (track : Fin MAX_TRACKS)
    (step : Int) (raw : Nat) (s : Step) (hs : stepAt q.pattern track step = some s)
    (ha : s.active = true) (hc : s.condition = TRIG_PRE ∨ s.condition = TRIG_NEI) :
    ∃ fire : Bool, evaluateTrigCondition q track step raw = some (fire, q) ∧
      (fire = true ↔
        0 < step ∧ ∃ prev, stepAt q.pattern track (step - 1) = some prev ∧ prev.active = true) ∧
      (step = 0 → fire = false) := by
  obtain ⟨h0, h1⟩ := stepAt_some_bounds hs
  by_cases hpos : 0 < step
  · obtain ⟨prev, hprev⟩ := stepAt_of_bounds q.pattern track (step - 1) (by omega) (by omega)
    have hne : step ≠ 0 := by omega
    refine ⟨prev.active, ?_, ?_, ?_⟩
    · rcases hc with hc | hc <;>
        simp [evaluateTrigCondition, hs, ha, hc, hpos, hne, hprev]
    · simp [hpos, hprev]
    · intro hz; omega
  · have hz : step = 0 := by omega
    subst hz
    refine ⟨false, ?_, ?_, ?_⟩
    · rcases hc with hc | hc <;>
        simp [evaluateTrigCondition, hs, ha, hc]
    · simp
    · intro _; rfl

/-- Witness for C8 on step 5 of the sample track, an active `NEI` step whose
predecessor, step 4, is active. -/
theorem evaluateTrigCondition_pre_nei_witness :
    stepAt sampleSeq.pattern 0 5 = some (sampleSteps 5) ∧
    (sampleSteps 5).active = true ∧ (sampleSteps 5).condition = TRIG_NEI ∧
    ∃ fire : Bool, evaluateTrigCondition sampleSeq 0 5 0 = some (fire, sampleSeq) ∧
      (fire = true ↔
        (0 : Int) < 5 ∧
          ∃ prev, stepAt sampleSeq.pattern 0 (5 - 1) = some prev ∧ prev.active = true) ∧
      ((5 : Int) = 0 → fire = false) :=
  ⟨by decide, by decide, by decide,
    evaluateTrigCondition_pre_nei sampleSeq 0 5 0 (sampleSteps 5)
      (by decide) (by decide) (Or.inr (by decide))⟩

/-- C3: evaluating an active step whose condition is the `k`-th ordinal
increments the 8-bit counter of its track by one (to `c + 1`, which is
`(c + 1) % 256` in `uint8_t`), whether or not it fires, leaves the counters of
all other tracks and the rest of the state unchanged, and fires exactly when
the incremented counter equals `k`. The counter is indexed by the track only,
so all steps of a track share it. -/
theorem evaluateTrigCondition_ordinal (q : Sequencer) (track : Fin MAX_TRACKS)
    (step : Int) (raw : Nat) (s : Step) (k : Nat)
    (hs : stepAt q.pattern track step = some s) (ha : s.active = true)
    (hk : ordinalOf s.condition = some k) :
    ∃ (fire : Bool) (q1 : Sequencer),
      evaluateTrigCondition q track step raw = some (fire, q1) ∧
      q1.triggerCounts track = (q.triggerCounts track + 1) % U8_MOD ∧
      (q.triggerCounts track < 255 → q1.triggerCounts track = q.triggerCounts track + 1) ∧
      (∀ t, t ≠ track → q1.triggerCounts t = q.triggerCounts t) ∧
      (fire = true ↔ q1.triggerCounts track = k) ∧
      q1 = { q with triggerCounts := q1.triggerCounts } := by
  have hb : (bumpCount q track).triggerCounts track = (q.triggerCounts track + 1) % U8_MOD := by
    simp [bumpCount]
  have hframe : ∀ fire : Bool,
      evaluateTrigCondition q track step raw = some (fire, bumpCount q track) →
      (fire = true ↔ (bumpCount q track).triggerCounts track = k) →
      ∃ (fire : Bool) (q1 : Sequencer),
        evaluateTrigCondition q track step raw = some (fire, q1) ∧
        q1.triggerCounts track = (q.triggerCounts track + 1) % U8_MOD ∧
        (q.triggerCounts track < 255 → q1.triggerCounts track = q.triggerCounts track + 1) ∧
        (∀ t, t ≠ track → q1.triggerCounts t = q.triggerCounts t) ∧
        (fire = true ↔ q1.triggerCounts track = k) ∧
        q1 = { q with triggerCounts := q1.triggerCounts } := by
    intro fire he hf
    refine ⟨fire, bumpCount q track, he, hb, ?_, ?_, hf, rfl⟩
    · intro hlt
      rw [hb]
      exact Nat.mod_eq_of_lt (show q.triggerCounts track + 1 < 256 by omega)
    · intro t ht
      simp [bumpCount, Function.update_noteq ht]
  cases hcond : s.condition <;> rw [hcond] at hk <;> simp [ordinalOf] at hk
  all_goals
    refine hframe (decide ((bumpCount q track).triggerCounts track = k)) ?_ ?_
    · simp [evaluateTrigCondition, hs, ha, hcond, ← hk]
    · simp

/-- Witness for C3 on step 1 of the sample track, an active `2ND` step, with
the counter of track 0 at zero: the counter becomes 1 and the step stays quiet. -/
theorem evaluateTrigCondition_ordinal_witness :
    stepAt sampleSeq.pattern 0 1 = some (sampleSteps 1) ∧
    (sampleSteps 1).active = true ∧ ordinalOf (sampleSteps 1).condition = some 2 ∧
    ∃ (fire : Bool) (q1 : Sequencer),
      evaluateTrigCondition sampleSeq 0 1 0 = some (fire, q1) ∧
      q1.triggerCounts 0 = (sampleSeq.triggerCounts 0 + 1) % U8_MOD ∧
      (sampleSeq.triggerCounts 0 < 255 → q1.triggerCounts 0 = sampleSeq.triggerCounts 0 + 1) ∧
      (∀ t, t ≠ 0 → q1.triggerCounts t = sampleSeq.triggerCounts t) ∧
      (fire = true ↔ q1.triggerCounts 0 = 2) ∧
      q1 = { sampleSeq with triggerCounts := q1.triggerCounts } :=
  ⟨by decide, by decide, by decide,
    evaluateTrigCondition_ordinal sampleSeq 0 1 0 (sampleSteps 1) 2
      (by decide) (by decide) (by decide)⟩

/-! ## Reset, editing guards and query defaults -/

/-- C11: `reset` sets the position to 0 and every trigger counter to 0 and
changes no other member: `running`, the pattern, the selected track, the fill
mode, the global and effective tempo, the step interval, the last-step time
and the pattern number are what they were. -/
theorem reset_frame (q : Sequencer) :
    reset q = { q with currentStep := 0, triggerCounts := fun _ => 0 } ∧
    (reset q).currentStep = 0 ∧ (∀ t, (reset q).triggerCounts t = 0) ∧
    (reset q).running = q.running ∧ (reset q).pattern = q.pattern ∧
    (reset q).selectedTrack = q.selectedTrack ∧ (reset q).fillMode = q.fillMode ∧
    (reset q).globalBpm = q.globalBpm ∧ getTempo (reset q) = getTempo q ∧
    (reset q).stepInterval = q.stepInterval ∧ (reset q).lastStepTime = q.lastStepTime ∧
    (reset q).currentPatternNumber = q.currentPatternNumber :=
  ⟨rfl, rfl, fun _ => rfl, rfl, rfl, rfl, rfl, rfl, rfl, rfl, rfl, rfl⟩

/-- C19: an editing operation called with an out-of-range index returns the
state it was given. The track operations do so for a track outside
`0..MAX_TRACKS-1`; `toggleStep` for a step outside `0..length-1`; `setStep`,
`setTrigCondition` and `clearAllParamLocks` for such a track or such a step;
`setParamLock` and `clearParamLock` also for a parameter kind outside
`0..PARAM_COUNT-1`. -/
theorem edit_out_of_range_noop (q : Sequencer) :
    (∀ track : Int, track < 0 ∨ (MAX_TRACKS : Int) ≤ track →
      selectTrack q track = q ∧ muteTrack q track = some q ∧ unmuteTrack q track = some q ∧
      soloTrack q track = some q ∧ unsoloTrack q track = some q) ∧
    (∀ step : Int, step < 0 ∨ (q.pattern.length : Int) ≤ step →
      toggleStep q step = some q) ∧
    (∀ (track step : Int) (active : Bool) (condition : TrigCondition),
      (track < 0 ∨ (MAX_TRACKS : Int) ≤ track) ∨ (step < 0 ∨ (q.pattern.length : Int) ≤ step) →
      setStep q track step active = some q ∧
      setTrigCondition q track step condition = some q ∧
      clearAllParamLocks q track step = some q) ∧
    (∀ (track step param : Int) (value : Rat),
      (track < 0 ∨ (MAX_TRACKS : Int) ≤ track) ∨ (step < 0 ∨ (q.pattern.length : Int) ≤ step) ∨
        (param < 0 ∨ (PARAM_COUNT : Int) ≤ param) →
      setParamLock q track step param value = some q ∧
      clearParamLock q track step param = some q) := by
  refine ⟨?_, ?_, ?_, ?_⟩
  · intro track h
    have hno : ¬ trackOk track := by unfold trackOk; omega
    simp [selectTrack, muteTrack, unmuteTrack, soloTrack, unsoloTrack, hno]
  · intro step h
    have hno : ¬ stepOk q step := by unfold stepOk; omega
    simp [toggleStep, hno]
  · intro track step active condition h
    have hno : ¬ (trackOk track ∧ stepOk q step) := by unfold trackOk stepOk; omega
    simp [setStep, setTrigCondition, clearAllParamLocks, hno]
  · intro track step param value h
    have hno : ¬ (trackOk track ∧ stepOk q step ∧ paramOk param) := by
      unfold trackOk stepOk paramOk; omega
    simp [setParamLock, clearParamLock, hno]

/-- Witness for C19 on the constructed sequencer: track 8, track -1, step 16
and parameter kind 9 are each one past the valid range. -/
theorem edit_out_of_range_noop_witness :
    (selectTrack construct 8 = construct ∧ muteTrack construct 8 = some construct ∧
      unmuteTrack construct 8 = some construct ∧ soloTrack construct 8 = some construct ∧
      unsoloTrack construct 8 = some construct) ∧
    toggleStep construct 16 = some construct ∧
    (setStep construct (-1) 0 true = some construct ∧
      setTrigCondition construct (-1) 0 TRIG_FILL = some construct ∧
      clearAllParamLocks construct (-1) 0 = some construct) ∧
    (setParamLock construct 0 0 9 (1 / 2) = some construct ∧
      clearParamLock construct 0 0 9 = some construct) :=
  ⟨(edit_out_of_range_noop construct).1 8 (Or.inr (by decide)),
    (edit_out_of_range_noop construct).2.1 16 (Or.inr (by decide)),
    (edit_out_of_range_noop construct).2.2.1 (-1) 0 true TRIG_FILL (Or.inl (Or.inl (by decide))),
    (edit_out_of_range_noop construct).2.2.2 0 0 9 (1 / 2)
      (Or.inr (Or.inr (Or.inr (by decide))))⟩

/-- C20: a bounds-checked query called with an out-of-range index returns its
default: `isTrackMuted` and `isTrackSoloed` return false for a track outside
`0..MAX_TRACKS-1`; `getStep` returns false and `getTrigCondition` returns
`TRIG_ALWAYS` for such a track or a step outside `0..length-1`; `hasParamLock`
returns false and `getParamLock` returns 0 for such a track, such a step or a
parameter kind outside `0..PARAM_COUNT-1`. The queries are functions of the
state: they return no new state. -/
theorem query_out_of_range_default (q : Sequencer) :
    (∀ track : Int, track < 0 ∨ (MAX_TRACKS : Int) ≤ track →
      isTrackMuted q track = false ∧ isTrackSoloed q track = false) ∧
    (∀ track step : Int,
      (track < 0 ∨ (MAX_TRACKS : Int) ≤ track) ∨ (step < 0 ∨ (q.pattern.length : Int) ≤ step) →
      getStep q track step = some false ∧ getTrigCondition q track step = some TRIG_ALWAYS) ∧
    (∀ track step param : Int,
      (track < 0 ∨ (MAX_TRACKS : Int) ≤ track) ∨ (step < 0 ∨ (q.pattern.length : Int) ≤ step) ∨
        (param < 0 ∨ (PARAM_COUNT : Int) ≤ param) →
      hasParamLock q track step param = some false ∧
      getParamLock q track step param = some 0) := by
  refine ⟨?_, ?_, ?_⟩
  · intro track h
    have hno : ¬ (0 ≤ track ∧ track < (MAX_TRACKS : Int)) := by omega
    unfold isTrackMuted isTrackSoloed
    rw [dif_neg hno, dif_neg hno]
    exact ⟨rfl, rfl⟩
  · intro track step h
    have hno : ¬ (trackOk track ∧ stepOk q step) := by unfold trackOk stepOk; omega
    simp [getStep, getTrigCondition, hno]
  · intro track step param h
    have hno : ¬ (trackOk track ∧ stepOk q step ∧ paramOk param) := by
      unfold trackOk stepOk paramOk; omega
    simp [hasParamLock, getParamLock, hno]

/-- Witness for C20 on the sample sequencer, whose track 0 has active steps:
track 8, step 16 and parameter kind -1 are outside the valid ranges. -/
theorem query_out_of_range_default_witness :
    (isTrackMuted sampleSeq 8 = false ∧ isTrackSoloed sampleSeq 8 = false) ∧
    (getStep sampleSeq 0 16 = some false ∧
      getTrigCondition sampleSeq 0 16 = some TRIG_ALWAYS) ∧
    (hasParamLock sampleSeq 0 0 (-1) = some false ∧
      getParamLock sampleSeq 0 0 (-1) = some 0) :=
  ⟨(query_out_of_range_default sampleSeq).1 8 (Or.inr (by decide)),
    (query_out_of_range_default sampleSeq).2.1 0 16 (Or.inr (Or.inr (by decide))),
    (query_out_of_range_default sampleSeq).2.2 0 0 (-1)
      (Or.inr (Or.inr (Or.inl (by decide))))⟩

/-! ## Parameter locks -/

theorem modifyStep_some (p : Pattern) (track step : Int) (f : Step → Step)
    (ht0 : 0 ≤ track) (ht1 : track < (MAX_TRACKS : Int))
    (hs0 : 0 ≤ step) (hs1 : step < (MAX_STEPS : Int)) :
    ∃ p1, modifyStep p track step f = some p1 ∧
      p1.length = p.length ∧ p1.swing = p.swing ∧ p1.bpm = p.bpm ∧
      (∀ t, (p1.tracks t).muted = (p.tracks t).muted ∧
        (p1.tracks t).soloed = (p.tracks t).soloed ∧
        (p1.tracks t).sourceSlot = (p.tracks t).sourceSlot ∧
        (p1.tracks t).volume = (p.tracks t).volume ∧ (p1.tracks t).pan = (p.tracks t).pan) ∧
      (∀ t' s' : Int, stepAtInt p1 t' s' =
        if t' = track ∧ s' = step then (stepAtInt p t' s').map f else stepAtInt p t' s') := by
  unfold modifyStep modifyTrack
  rw [dif_pos ⟨hs0, hs1⟩]
  simp only []
  rw [dif_pos ⟨ht0, ht1⟩]
  refine ⟨_, rfl, rfl, rfl, rfl, ?_, ?_⟩
  · intro t
    by_cases ht : t = ⟨track.toNat, by omega⟩
    · subst ht; simp
    · simp [Function.update_noteq ht]
  · intro t' s'
    unfold stepAtInt stepAt
    by_cases hT : 0 ≤ t' ∧ t' < (MAX_TRACKS : Int)
    · by_cases hS : 0 ≤ s' ∧ s' < (MAX_STEPS : Int)
      · rw [dif_pos hT, dif_pos hT, dif_pos hS, dif_pos hS]
        by_cases ht : t' = track
        · subst ht
          by_cases hs : s' = step
          · subst hs; simp
          · have hne : (⟨s'.toNat, by omega⟩ : Fin MAX_STEPS) ≠ ⟨step.toNat, by omega⟩ := by
              intro h
              have := congrArg Fin.val h
              simp only [] at this
              omega
            simp [hs, Function.update_noteq hne]
        · have hne : (⟨t'.toNat, by omega⟩ : Fin MAX_TRACKS) ≠ ⟨track.toNat, by omega⟩ := by
            intro h
            have := congrArg Fin.val h
            simp only [] at this
            omega
          simp [ht, Function.update_noteq hne]
      · rw [dif_pos hT, dif_pos hT, dif_neg hS, dif_neg hS]
        simp
    · rw [dif_neg hT, dif_neg hT]
      simp

theorem stepAtInt_of_bounds (p : Pattern) (track step : Int)
    (ht0 : 0 ≤ track) (ht1 : track < (MAX_TRACKS : Int))
    (hs0 : 0 ≤ step) (hs1 : step < (MAX_STEPS : Int)) :
    ∃ s, stepAtInt p track step = some s := by
  unfold stepAtInt
  rw [dif_pos ⟨ht0, ht1⟩]
  exact stepAt_of_bounds p _ step hs0 hs1

theorem editStep_spec (q : Sequencer) (track step : Int) (f : Step → Step)
    (ht0 : 0 ≤ track) (ht1 : track < (MAX_TRACKS : Int))
    (hs0 : 0 ≤ step) (hs1 : step < (MAX_STEPS : Int)) :
    ∃ q1, withPattern q (modifyStep q.pattern track step f) = some q1 ∧
      q1 = { q with pattern := q1.pattern } ∧
      q1.pattern.length = q.pattern.length ∧ q1.pattern.swing = q.pattern.swing ∧
      q1.pattern.bpm = q.pattern.bpm ∧
      (∀ t' s' : Int, stepAtInt q1.pattern t' s' =
        if t' = track ∧ s' = step then (stepAtInt q.pattern t' s').map f
        else stepAtInt q.pattern t' s') := by
  obtain ⟨p1, hp1, hlen, hsw, hbpm, _, hsteps⟩ :=
    modifyStep_some q.pattern track step f ht0 ht1 hs0 hs1
  exact ⟨{ q with pattern := p1 }, by simp [withPattern, hp1], rfl, hlen, hsw, hbpm, hsteps⟩

theorem hasParamLock_eq (q : Sequencer) (track step param : Int)
    (h : trackOk track ∧ stepOk q step ∧ paramOk param) (k : Fin PARAM_COUNT)
    (hk : k.val = param.toNat) :
    hasParamLock q track step param =
      (stepAtInt q.pattern track step).map fun s => s.hasParamLock k := by
  unfold hasParamLock
  rw [dif_pos h]
  have : (⟨param.toNat, by omega⟩ : Fin PARAM_COUNT) = k := Fin.ext hk.symm
  simp only [this]

theorem getParamLock_eq (q : Sequencer) (track step param : Int)
    (h : trackOk track ∧ stepOk q step ∧ paramOk param) (k : Fin PARAM_COUNT)
    (hk : k.val = param.toNat) :
    getParamLock q track step param =
      (stepAtInt q.pattern track step).map fun s => s.paramLocks k := by
  unfold getParamLock
  rw [dif_pos h]
  have : (⟨param.toNat, by omega⟩ : Fin PARAM_COUNT) = k := Fin.ext hk.symm
  simp only [this]

theorem setParamLock_eq (q : Sequencer) (track step param : Int) (v : Rat)
    (h : trackOk track ∧ stepOk q step ∧ paramOk param) (k : Fin PARAM_COUNT)
    (hk : k.val = param.toNat) :
    setParamLock q track step param v =
      withPattern q (modifyStep q.pattern track step fun s =>
        { s with paramLocks := Function.update s.paramLocks k v,
                 hasParamLock := Function.update s.hasParamLock k true }) := by
  unfold setParamLock
  rw [dif_pos h]
  have : (⟨param.toNat, by omega⟩ : Fin PARAM_COUNT) = k := Fin.ext hk.symm
  simp only [this]

theorem clearParamLock_eq (q : Sequencer) (track step param : Int)
    (h : trackOk track ∧ stepOk q step ∧ paramOk param) (k : Fin PARAM_COUNT)
    (hk : k.val = param.toNat) :
    clearParamLock q track step param =
      withPattern q (modifyStep q.pattern track step fun s =>
        { s with hasParamLock := Function.update s.hasParamLock k false }) := by
  unfold clearParamLock
  rw [dif_pos h]
  have : (⟨param.toNat, by omega⟩ : Fin PARAM_COUNT) = k := Fin.ext hk.symm
  simp only [this]

/-- C17: for a track in `0..MAX_TRACKS-1`, a step in `0..length-1` that lies in
the step table, a parameter kind in `0..PARAM_COUNT-1` and any value `v`,
`setParamLock` returns, and on its result `hasParamLock` answers true and
`getParamLock` answers `v` itself. -/
theorem paramLock_round_trip (q : Sequencer) (track step param : Int) (v : Rat)
    (ht0 : 0 ≤ track) (ht1 : track < (MAX_TRACKS : Int))
    (hs0 : 0 ≤ step) (hs1 : step < (q.pattern.length : Int)) (hs2 : step < (MAX_STEPS : Int))
    (hp0 : 0 ≤ param) (hp1 : param < (PARAM_COUNT : Int)) :
    ∃ q1, setParamLock q track step param v = some q1 ∧
      hasParamLock q1 track step param = some true ∧
      getParamLock q1 track step param = some v := by
  have hg : trackOk track ∧ stepOk q step ∧ paramOk param :=
    ⟨⟨ht0, ht1⟩, ⟨hs0, hs1⟩, ⟨hp0, hp1⟩⟩
  obtain ⟨s0, hs0'⟩ := stepAtInt_of_bounds q.pattern track step ht0 ht1 hs0 hs2
  obtain ⟨k, hk⟩ : ∃ k : Fin PARAM_COUNT, k.val = param.toNat :=
    ⟨⟨param.toNat, by omega⟩, rfl⟩
  obtain ⟨q1, hq1, _, hlen, _, _, hsteps⟩ :=
    editStep_spec q track step
      (fun s => { s with paramLocks := Function.update s.paramLocks k v,
                         hasParamLock := Function.update s.hasParamLock k true })
      ht0 ht1 hs0 hs2
  have hg1 : trackOk track ∧ stepOk q1 step ∧ paramOk param :=
    ⟨⟨ht0, ht1⟩, ⟨hs0, by rw [hlen]; exact hs1⟩, ⟨hp0, hp1⟩⟩
  have hread := hsteps track step
  rw [if_pos ⟨rfl, rfl⟩, hs0'] at hread
  refine ⟨q1, ?_, ?_, ?_⟩
  · rw [setParamLock_eq q track step param v hg k hk]
    exact hq1
  · rw [hasParamLock_eq q1 track step param hg1 k hk, hread]
    simp
  · rw [getParamLock_eq q1 track step param hg1 k hk, hread]
    simp

/-- Witness for C17: lock parameter kind 3 of step 5 of track 2 of the
constructed sequencer to the value -7/2. -/
theorem paramLock_round_trip_witness :
    ∃ q1, setParamLock construct 2 5 3 (-7 / 2) = some q1 ∧
      hasParamLock q1 2 5 3 = some true ∧
      getParamLock q1 2 5 3 = some (-7 / 2) :=
  paramLock_round_trip construct 2 5 3 (-7 / 2) (by decide) (by decide) (by decide)
    (by decide) (by decide) (by decide) (by decide)

/-- C18: for an in-range track, step (inside the step table) and parameter
kind, `clearParamLock` returns and on its result `hasParamLock` answers false
for that lock; `hasParamLock` and `getParamLock` answer as before for every
other parameter kind of the step and for every other step and track; every
step of the table keeps its active flag, condition, velocity, pitch offset and
slice (so `getStep` and `getTrigCondition` answer as before); and nothing
outside the pattern changes. -/
theorem clearParamLock_frame (q : Sequencer) (track step param : Int)
    (ht0 : 0 ≤ track) (ht1 : track < (MAX_TRACKS : Int))
    (hs0 : 0 ≤ step) (hs1 : step < (q.pattern.length : Int)) (hs2 : step < (MAX_STEPS : Int))
    (hp0 : 0 ≤ param) (hp1 : param < (PARAM_COUNT : Int)) :
    ∃ q1, clearParamLock q track step param = some q1 ∧
      hasParamLock q1 track step param = some false ∧
      (∀ t' s' p' : Int, ¬ (t' = track ∧ s' = step ∧ p' = param) →
        hasParamLock q1 t' s' p' = hasParamLock q t' s' p' ∧
        getParamLock q1 t' s' p' = getParamLock q t' s' p') ∧
      (∀ t' s' : Int,
        (stepAtInt q1.pattern t' s').map
            (fun s => (s.active, s.condition, s.velocity, s.pitchOffset, s.sampleSlice)) =
          (stepAtInt q.pattern t' s').map
            (fun s => (s.active, s.condition, s.velocity, s.pitchOffset, s.sampleSlice))) ∧
      (∀ t' s' : Int, getStep q1 t' s' = getStep q t' s' ∧
        getTrigCondition q1 t' s' = getTrigCondition q t' s') ∧
      q1 = { q with pattern := q1.pattern } ∧ q1.pattern.length = q.pattern.length := by
  have hg : trackOk track ∧ stepOk q step ∧ paramOk param :=
    ⟨⟨ht0, ht1⟩, ⟨hs0, hs1⟩, ⟨hp0, hp1⟩⟩
  obtain ⟨s0, hs0'⟩ := stepAtInt_of_bounds q.pattern track step ht0 ht1 hs0 hs2
  obtain ⟨k, hk⟩ : ∃ k : Fin PARAM_COUNT, k.val = param.toNat :=
    ⟨⟨param.toNat, by omega⟩, rfl⟩
  obtain ⟨q1, hq1, hframe, hlen, _, _, hsteps⟩ :=
    editStep_spec q track step
      (fun s => { s with hasParamLock := Function.update s.hasParamLock k false })
      ht0 ht1 hs0 hs2
  have hok : ∀ s' : Int, stepOk q1 s' ↔ stepOk q s' := by
    intro s'; unfold stepOk; rw [hlen]
  have hfields : ∀ t' s' : Int,
      (stepAtInt q1.pattern t' s').map
          (fun s => (s.active, s.condition, s.velocity, s.pitchOffset, s.sampleSlice)) =
        (stepAtInt q.pattern t' s').map
          (fun s => (s.active, s.condition, s.velocity, s.pitchOffset, s.sampleSlice)) := by
    intro t' s'
    rw [hsteps t' s']
    split
    · cases stepAtInt q.pattern t' s' <;> simp
    · rfl
  refine ⟨q1, ?_, ?_, ?_, hfields, ?_, hframe, hlen⟩
  · rw [clearParamLock_eq q track step param hg k hk]
    exact hq1
  · have hg1 : trackOk track ∧ stepOk q1 step ∧ paramOk param :=
      ⟨hg.1, (hok step).2 hg.2.1, hg.2.2⟩
    rw [hasParamLock_eq q1 track step param hg1 k hk, hsteps track step,
      if_pos ⟨rfl, rfl⟩, hs0']
    simp
  · intro t' s' p' hne
    by_cases hg' : trackOk t' ∧ stepOk q s' ∧ paramOk p'
    · have hg1' : trackOk t' ∧ stepOk q1 s' ∧ paramOk p' :=
        ⟨hg'.1, (hok s').2 hg'.2.1, hg'.2.2⟩
      obtain ⟨k', hk'⟩ : ∃ k' : Fin PARAM_COUNT, k'.val = p'.toNat :=
        ⟨⟨p'.toNat, by have := hg'.2.2; unfold paramOk at this; omega⟩, rfl⟩
      rw [hasParamLock_eq q1 t' s' p' hg1' k' hk', hasParamLock_eq q t' s' p' hg' k' hk',
        getParamLock_eq q1 t' s' p' hg1' k' hk', getParamLock_eq q t' s' p' hg' k' hk',
        hsteps t' s']
      by_cases hts : t' = track ∧ s' = step
      · have hkk : k' ≠ k := by
          intro h
          have hv : p'.toNat = param.toNat := by rw [← hk', ← hk, h]
          have hp'0 := hg'.2.2.1
          exact hne ⟨hts.1, hts.2, by omega⟩
        rw [if_pos hts]
        cases stepAtInt q.pattern t' s' <;> simp [Function.update_noteq hkk]
      · rw [if_neg hts]
        exact ⟨rfl, rfl⟩
    · have hg1' : ¬ (trackOk t' ∧ stepOk q1 s' ∧ paramOk p') := by
        rw [hok s']; exact hg'
      unfold hasParamLock getParamLock
      rw [dif_neg hg', dif_neg hg1', dif_neg hg', dif_neg hg1']
      exact ⟨rfl, rfl⟩
  · intro t' s'
    have h5 := hfields t' s'
    unfold getStep getTrigCondition
    by_cases hg' : trackOk t' ∧ stepOk q s'
    · have hg1' : trackOk t' ∧ stepOk q1 s' := ⟨hg'.1, (hok s').2 hg'.2⟩
      rw [if_pos hg', if_pos hg1', if_pos hg', if_pos hg1']
      constructor
      · have := congrArg (Option.map fun x : Bool × TrigCondition × Nat × Int × Nat => x.1) h5
        simpa [Option.map_map, Function.comp_def] using this
      · have := congrArg (Option.map fun x : Bool × TrigCondition × Nat × Int × Nat => x.2.1) h5
        simpa [Option.map_map, Function.comp_def] using this
    · have hg1' : ¬ (trackOk t' ∧ stepOk q1 s') := by rw [hok s']; exact hg'
      rw [if_neg hg', if_neg hg1', if_neg hg', if_neg hg1']
      exact ⟨rfl, rfl⟩

/-- Witness for C18: clear lock 3 of step 5 of track 2 of the locked
sequencer, which holds locks 3 and 4 on that step. -/
theorem clearParamLock_frame_witness :
    hasParamLock lockedSeq 2 5 3 = some true ∧ hasParamLock lockedSeq 2 5 4 = some true ∧
    ∃ q1, clearParamLock lockedSeq 2 5 3 = some q1 ∧
      hasParamLock q1 2 5 3 = some false ∧
      (∀ t' s' p' : Int, ¬ (t' = 2 ∧ s' = 5 ∧ p' = 3) →
        hasParamLock q1 t' s' p' = hasParamLock lockedSeq t' s' p' ∧
        getParamLock q1 t' s' p' = getParamLock lockedSeq t' s' p') ∧
      (∀ t' s' : Int,
        (stepAtInt q1.pattern t' s').map
            (fun s => (s.active, s.condition, s.velocity, s.pitchOffset, s.sampleSlice)) =
          (stepAtInt lockedSeq.pattern t' s').map
            (fun s => (s.active, s.condition, s.velocity, s.pitchOffset, s.sampleSlice))) ∧
      (∀ t' s' : Int, getStep q1 t' s' = getStep lockedSeq t' s' ∧
        getTrigCondition q1 t' s' = getTrigCondition lockedSeq t' s') ∧
      q1 = { lockedSeq with pattern := q1.pattern } ∧
      q1.pattern.length = lockedSeq.pattern.length :=
  ⟨by decide, by decide,
    clearParamLock_frame lockedSeq 2 5 3 (by decide) (by decide) (by decide) (by decide)
      (by decide) (by decide) (by decide)⟩

/-! ## Conversion of a `float` to `unsigned long` -/

theorem floatToULong_of_nonneg (x : Rat) (h0 : 0 ≤ x) (h1 : x < 4294967296) :
    floatToULong x = some ⌊x⌋.toNat ∧ ((⌊x⌋.toNat : Nat) : Int) = ⌊x⌋ := by
  have hnum : 0 ≤ x.num := Rat.num_nonneg.2 h0
  have hden : (0 : Int) ≤ (x.den : Int) := Int.natCast_nonneg _
  have htd : Int.tdiv x.num (x.den : Int) = ⌊x⌋ := by
    rw [Int.tdiv_eq_ediv hnum hden, Rat.floor_def]
  have hf0 : 0 ≤ ⌊x⌋ := Int.floor_nonneg.2 h0
  have hf1 : ⌊x⌋ < (4294967296 : Int) := Int.floor_lt.2 (by exact_mod_cast h1)
  refine ⟨?_, Int.toNat_of_nonneg hf0⟩
  unfold floatToULong
  simp only [htd]
  rw [if_pos ⟨hf0, by exact_mod_cast hf1⟩]

theorem floatToULong_some_nonneg (x : Rat) (n : Nat) (h0 : 0 ≤ x)
    (h : floatToULong x = some n) : (n : Int) = ⌊x⌋ := by
  have hnum : 0 ≤ x.num := Rat.num_nonneg.2 h0
  have hden : (0 : Int) ≤ (x.den : Int) := Int.natCast_nonneg _
  have htd : Int.tdiv x.num (x.den : Int) = ⌊x⌋ := by
    rw [Int.tdiv_eq_ediv hnum hden, Rat.floor_def]
  have hf0 : 0 ≤ ⌊x⌋ := Int.floor_nonneg.2 h0
  unfold floatToULong at h
  simp only [htd] at h
  split at h
  · cases h
    exact Int.toNat_of_nonneg hf0
  · cases h

/-! ## Binary32 rounding -/

theorem roundHalfEven_bounds (y : Rat) :
    ⌊y⌋ ≤ roundHalfEven y ∧ roundHalfEven y ≤ ⌊y⌋ + 1 := by
  unfold roundHalfEven
  simp only []
  split_ifs <;> constructor <;> omega

theorem roundHalfEven_intCast (n : Int) : roundHalfEven (n : Rat) = n := by
  unfold roundHalfEven
  simp

theorem roundHalfEven_mono {x y : Rat} (h : x ≤ y) : roundHalfEven x ≤ roundHalfEven y := by
  have hf : ⌊x⌋ ≤ ⌊y⌋ := Int.floor_le_floor h
  rcases lt_or_eq_of_le hf with hlt | heq
  · have h1 := (roundHalfEven_bounds x).2
    have h2 := (roundHalfEven_bounds y).1
    omega
  · have hxy : x - (⌊y⌋ : Rat) ≤ y - (⌊y⌋ : Rat) := by linarith
    unfold roundHalfEven
    simp only []
    rw [heq]
    split_ifs <;> first | omega | (exfalso; linarith)

theorem f32_log_lt {x : Rat} {k : Int} (hk : 0 < k) (hx : |x| < (2 : Rat) ^ k) :
    Int.log 2 |x| < k := by
  rcases eq_or_lt_of_le (abs_nonneg x) with h0 | hpos
  · rw [← h0, Int.log_zero_right]
    exact hk
  · rw [← Int.lt_zpow_iff_log_lt (by norm_num) hpos]
    exact_mod_cast hx

theorem f32Ulp_fine (x : Rat) (j : Nat) (hj : j ≤ 23) (hx : |x| < (2 : Rat) ^ (24 - j)) :
    ∃ k : Nat, f32Ulp x = ((2 : Rat) ^ (j + k))⁻¹ := by
  have hlog : Int.log 2 |x| < ((24 - j : Nat) : Int) := by
    apply f32_log_lt (by omega)
    rw [zpow_natCast]
    exact hx
  have hE : max (Int.log 2 |x|) (-126) - 23 ≤ -(j : Int) := by
    rcases max_cases (Int.log 2 |x|) (-126) with ⟨h, _⟩ | ⟨h, _⟩ <;> rw [h] <;> omega
  refine ⟨(-(max (Int.log 2 |x|) (-126) - 23) - (j : Int)).toNat, ?_⟩
  unfold f32Ulp
  rw [← zpow_natCast, ← zpow_neg]
  congr 1
  push_cast
  rw [Int.toNat_of_nonneg (by omega)]
  ring

theorem f32Near_bracket (x : Rat) (j : Nat) (hj : j ≤ 23) (hx : |x| < (2 : Rat) ^ (24 - j))
    (a b : Int) (ha : (a : Rat) / 2 ^ j ≤ x) (hb : x ≤ (b : Rat) / 2 ^ j) :
    (a : Rat) / 2 ^ j ≤ f32Near x ∧ f32Near x ≤ (b : Rat) / 2 ^ j := by
  obtain ⟨k, hu⟩ := f32Ulp_fine x j hj hx
  have hj0 : (0 : Rat) < 2 ^ j := by positivity
  have hk0 : (0 : Rat) < 2 ^ k := by positivity
  have hjk : (2 : Rat) ^ (j + k) = 2 ^ j * 2 ^ k := pow_add 2 j k
  have hdiv : x / f32Ulp x = x * (2 ^ j * 2 ^ k) := by
    rw [hu, hjk, div_inv_eq_mul]
  have hlo : ((a * 2 ^ k : Int) : Rat) ≤ x / f32Ulp x := by
    rw [hdiv]
    push_cast
    have := (div_le_iff₀ hj0).1 ha
    nlinarith
  have hhi : x / f32Ulp x ≤ ((b * 2 ^ k : Int) : Rat) := by
    rw [hdiv]
    push_cast
    have := (le_div_iff₀ hj0).1 hb
    nlinarith
  have h1 := roundHalfEven_mono hlo
  have h2 := roundHalfEven_mono hhi
  rw [roundHalfEven_intCast] at h1 h2
  obtain ⟨r, hr⟩ : ∃ r : Int, r = roundHalfEven (x / f32Ulp x) := ⟨_, rfl⟩
  rw [← hr] at h1 h2
  have h1' : ((a * 2 ^ k : Int) : Rat) ≤ (r : Rat) := by exact_mod_cast h1
  have h2' : (r : Rat) ≤ ((b * 2 ^ k : Int) : Rat) := by exact_mod_cast h2
  have hupos : (0 : Rat) < ((2 : Rat) ^ j * 2 ^ k)⁻¹ := by positivity
  unfold f32Near
  rw [← hr, hu, hjk]
  constructor
  · have := mul_le_mul_of_nonneg_right h1' (le_of_lt hupos)
    calc (a : Rat) / 2 ^ j = ((a * 2 ^ k : Int) : Rat) * ((2 : Rat) ^ j * 2 ^ k)⁻¹ := by
          push_cast
          field_simp
          ring
      _ ≤ _ := this
  · have := mul_le_mul_of_nonneg_right h2' (le_of_lt hupos)
    calc _ ≤ ((b * 2 ^ k : Int) : Rat) * ((2 : Rat) ^ j * 2 ^ k)⁻¹ := this
      _ = (b : Rat) / 2 ^ j := by
          push_cast
          field_simp
          ring

theorem f32Round_small (x : Rat) (hx : |x| < 16777216) :
    f32Round x = some (f32Near x) ∧ |f32Near x| ≤ 16777216 := by
  have hx' : |x| < (2 : Rat) ^ (24 - 0) := by norm_num; exact hx
  obtain ⟨hlo, hhi⟩ := abs_lt.1 hx
  obtain ⟨h1, h2⟩ := f32Near_bracket x 0 (by norm_num) hx' (-16777216) 16777216
    (by norm_num; linarith) (by norm_num; linarith)
  norm_num at h1 h2
  have habs : |f32Near x| ≤ 16777216 := abs_le.2 ⟨h1, h2⟩
  refine ⟨?_, habs⟩
  unfold f32Round
  rw [if_pos (lt_of_le_of_lt habs (by norm_num))]

theorem f32Near_between (x : Rat) (hx : |x| < 16777216) (a b : Int)
    (ha : (a : Rat) ≤ x) (hb : x ≤ (b : Rat)) : (a : Rat) ≤ f32Near x ∧ f32Near x ≤ (b : Rat) := by
  have hx' : |x| < (2 : Rat) ^ (24 - 0) := by norm_num; exact hx
  have := f32Near_bracket x 0 (by norm_num) hx' a b (by simpa using ha) (by simpa using hb)
  simpa using this

/-- The two roundings of the step interval for a positive tempo whose quotient
`60000 / bpm` stays below `2 ^ 24`. -/
theorem stepIntervalOf_eq (bpm : Rat) (hb : 0 < bpm) (hy : 60000 / bpm < 16777216) :
    stepIntervalOf bpm = some ⌊f32Near (f32Near (60000 / bpm) / 4)⌋.toNat ∧
    0 ≤ f32Near (60000 / bpm) ∧ 0 ≤ f32Near (f32Near (60000 / bpm) / 4) := by
  have hy0 : (0 : Rat) < 60000 / bpm := by positivity
  have hyabs : |60000 / bpm| < 16777216 := by rw [abs_of_pos hy0]; exact hy
  obtain ⟨hr, _⟩ := f32Round_small _ hyabs
  obtain ⟨hr0, hr1⟩ := f32Near_between _ hyabs 0 16777216 (by simpa using le_of_lt hy0)
    (by simpa using le_of_lt hy)
  norm_num at hr0 hr1
  have hz0 : (0 : Rat) ≤ f32Near (60000 / bpm) / 4 := by positivity
  have hzabs : |f32Near (60000 / bpm) / 4| < 16777216 := by
    rw [abs_of_nonneg hz0]
    linarith
  obtain ⟨hw, _⟩ := f32Round_small _ hzabs
  obtain ⟨hw0, hw1⟩ := f32Near_between _ hzabs 0 4194304 (by simpa using hz0)
    (by norm_num; linarith)
  norm_num at hw0 hw1
  refine ⟨?_, hr0, hw0⟩
  unfold stepIntervalOf f32Div
  rw [if_neg (ne_of_gt hb), hr]
  simp only [Option.some_bind]
  rw [if_neg (by norm_num), hw]
  simp only [Option.some_bind]
  exact (floatToULong_of_nonneg _ hw0 (by linarith)).1

theorem stepIntervalOf_bounds (bpm : Rat) (hb : 0 < bpm) (hy : 60000 / bpm < 16777216) :
    ∃ n : Nat, stepIntervalOf bpm = some n ∧
      ⌊60000 / bpm / 4⌋ ≤ (n : Int) ∧ (n : Int) ≤ ⌊60000 / bpm / 4⌋ + 1 := by
  obtain ⟨heq, hr0, hw0⟩ := stepIntervalOf_eq bpm hb hy
  have hy0 : (0 : Rat) < 60000 / bpm := by positivity
  have hyabs : |60000 / bpm| < 16777216 := by rw [abs_of_pos hy0]; exact hy
  obtain ⟨m, hm⟩ : ∃ m : Int, m = ⌊60000 / bpm / 4⌋ := ⟨_, rfl⟩
  have hm0 : 0 ≤ m := by rw [hm]; exact Int.floor_nonneg.2 (by positivity)
  have hlo : (m : Rat) ≤ 60000 / bpm / 4 := by rw [hm]; exact Int.floor_le _
  have hhi : 60000 / bpm / 4 < (m : Rat) + 1 := by rw [hm]; exact Int.lt_floor_add_one _
  obtain ⟨hr1, hr2⟩ := f32Near_between _ hyabs (4 * m) (4 * m + 4)
    (by push_cast; linarith) (by push_cast; linarith)
  push_cast at hr1 hr2
  have hz0 : (0 : Rat) ≤ f32Near (60000 / bpm) / 4 := by positivity
  have hmsmall : (m : Rat) < 4194304 := by linarith
  have hzabs : |f32Near (60000 / bpm) / 4| < 16777216 := by
    rw [abs_of_nonneg hz0]
    linarith
  obtain ⟨hw1, hw2⟩ := f32Near_between _ hzabs m (m + 1) (by linarith)
    (by push_cast; linarith)
  push_cast at hw2
  refine ⟨_, heq, ?_, ?_⟩
  · rw [Int.toNat_of_nonneg (Int.floor_nonneg.2 hw0), ← hm]
    exact Int.le_floor.2 hw1
  · rw [Int.toNat_of_nonneg (Int.floor_nonneg.2 hw0), ← hm]
    have : ⌊f32Near (f32Near (60000 / bpm) / 4)⌋ ≤ ⌊((m + 1 : Int) : Rat)⌋ :=
      Int.floor_le_floor (by push_cast; exact hw2)
    rwa [Int.floor_intCast] at this

theorem stepIntervalOf_whole (bpm : Rat) (n : Nat) (hb : 0 < bpm)
    (hy : 60000 / bpm < 16777216) (h : 60000 / bpm / 4 = (n : Rat)) :
    stepIntervalOf bpm = some n := by
  obtain ⟨heq, _, _⟩ := stepIntervalOf_eq bpm hb hy
  have hy0 : (0 : Rat) < 60000 / bpm := by positivity
  have hyabs : |60000 / bpm| < 16777216 := by rw [abs_of_pos hy0]; exact hy
  have hy4 : 60000 / bpm = ((4 * n : Int) : Rat) := by push_cast; linarith
  obtain ⟨hr1, hr2⟩ := f32Near_between _ hyabs (4 * n) (4 * n)
    (le_of_eq hy4.symm) (le_of_eq hy4)
  have hr : f32Near (60000 / bpm) = ((4 * n : Int) : Rat) := le_antisymm hr2 hr1
  have hz : f32Near (60000 / bpm) / 4 = ((n : Int) : Rat) := by
    rw [hr]; push_cast; ring
  have hzabs : |((n : Int) : Rat)| < 16777216 := by
    rw [abs_of_nonneg (by positivity)]
    push_cast
    linarith
  obtain ⟨hw1, hw2⟩ := f32Near_between _ hzabs n n (le_refl _) (le_refl _)
  have hw : f32Near ((n : Int) : Rat) = ((n : Int) : Rat) := le_antisymm hw2 hw1
  rw [heq, hz, hw, Int.floor_intCast]
  rfl

/-- The tempo 10922667 / 262144 (the `float` 41.6666679...): the quotient
`60000 / bpm = 1439.99995...` rounds up to the `float` 1440. -/
theorem f32Near_rounds_up : f32Near (15728640000 / 10922667) = 1440 := by
  have habs : |(15728640000 / 10922667 : Rat)| = 15728640000 / 10922667 :=
    abs_of_pos (by norm_num)
  have hlog : Int.log 2 |(15728640000 / 10922667 : Rat)| = 10 := by
    rw [habs]
    apply le_antisymm
    · have : Int.log 2 (15728640000 / 10922667 : Rat) < 11 := by
        rw [← Int.lt_zpow_iff_log_lt (by norm_num) (by norm_num)]
        norm_num
      omega
    · rw [← Int.zpow_le_iff_le_log (by norm_num) (by norm_num)]
      norm_num
  have hu : f32Ulp (15728640000 / 10922667) = 1 / 8192 := by
    unfold f32Ulp
    rw [hlog]
    norm_num
  have hfl : ⌊(15728640000 / 10922667 : Rat) / (1 / 8192)⌋ = 11796479 := by
    rw [Int.floor_eq_iff]
    constructor <;> norm_num
  unfold f32Near
  rw [hu]
  unfold roundHalfEven
  simp only [hfl]
  norm_num
theorem stepIntervalOf_exact (bpm : Rat) (n : Nat) (hb : 0 < bpm) (hn : n < 1000000)
    (hlo : (4 * n : Rat) ≤ 60000 / bpm) (hhi : 60000 / bpm ≤ 4 * n + 3) :
    stepIntervalOf bpm = some n := by
  have hnq : (n : Rat) < 1000000 := by exact_mod_cast hn
  have hn0 : (0 : Rat) ≤ (n : Rat) := Nat.cast_nonneg n
  have hy : 60000 / bpm < 16777216 := by linarith
  obtain ⟨heq, _, hw0⟩ := stepIntervalOf_eq bpm hb hy
  have hy0 : (0 : Rat) < 60000 / bpm := by positivity
  have hyabs : |60000 / bpm| < 16777216 := by rw [abs_of_pos hy0]; exact hy
  obtain ⟨hr1, hr2⟩ := f32Near_between _ hyabs (4 * n) (4 * n + 3)
    (by push_cast; exact hlo) (by push_cast; exact hhi)
  push_cast at hr1 hr2
  have hz0 : (0 : Rat) ≤ f32Near (60000 / bpm) / 4 := by linarith
  have hz' : |f32Near (60000 / bpm) / 4| < (2 : Rat) ^ (24 - 2) := by
    rw [abs_of_nonneg hz0]
    norm_num
    linarith
  obtain ⟨hw1, hw2⟩ := f32Near_bracket _ 2 (by norm_num) hz' (4 * n) (4 * n + 3)
    (by push_cast; linarith) (by push_cast; linarith)
  push_cast at hw1 hw2
  have hfl : ⌊f32Near (f32Near (60000 / bpm) / 4)⌋ = (n : Int) := by
    rw [Int.floor_eq_iff]
    push_cast
    constructor <;> linarith
  rw [heq, hfl]
  rfl

theorem f32Near_tempo_exact : f32Near (10922667 / 262144) = 10922667 / 262144 := by
  have habs : |(10922667 / 262144 : Rat)| = 10922667 / 262144 := abs_of_pos (by norm_num)
  have hlog : Int.log 2 |(10922667 / 262144 : Rat)| = 5 := by
    rw [habs]
    apply le_antisymm
    · have : Int.log 2 (10922667 / 262144 : Rat) < 6 := by
        rw [← Int.lt_zpow_iff_log_lt (by norm_num) (by norm_num)]
        norm_num
      omega
    · rw [← Int.zpow_le_iff_le_log (by norm_num) (by norm_num)]
      norm_num
  have hu : f32Ulp (10922667 / 262144) = 1 / 262144 := by
    unfold f32Ulp
    rw [hlog]
    norm_num
  have hq : (10922667 / 262144 : Rat) / (1 / 262144) = ((10922667 : Int) : Rat) := by
    norm_num
  unfold f32Near
  rw [hu, hq, roundHalfEven_intCast]
  norm_num

theorem stepIntervalOf_rounds_up : stepIntervalOf (10922667 / 262144) = some 360 := by
  obtain ⟨heq, _, _⟩ := stepIntervalOf_eq (10922667 / 262144) (by norm_num) (by norm_num)
  have hy : (60000 : Rat) / (10922667 / 262144) = 15728640000 / 10922667 := by norm_num
  have hz : (1440 : Rat) / 4 = ((360 : Int) : Rat) := by norm_num
  obtain ⟨h1, h2⟩ := f32Near_between ((360 : Int) : Rat) (by norm_num) 360 360
    (le_refl _) (le_refl _)
  have hw : f32Near ((360 : Int) : Rat) = ((360 : Int) : Rat) := le_antisymm h2 h1
  rw [heq, hy, f32Near_rounds_up, hz, hw, Int.floor_intCast]
  rfl

/-! ## Tempo and step interval -/

theorem calculateStepInterval_eq (q : Sequencer) :
    calculateStepInterval q =
      (stepIntervalOf (getTempo q)).map fun n => { q with stepInterval := n } :=
  rfl

theorem calculateStepInterval_of_some (q : Sequencer) (n : Nat)
    (h : stepIntervalOf (getTempo q) = some n) :
    calculateStepInterval q = some { q with stepInterval := n } := by
  rw [calculateStepInterval_eq, h]
  rfl

theorem calculateStepInterval_some (q q1 : Sequencer) (h : calculateStepInterval q = some q1) :
    q1 = { q with stepInterval := q1.stepInterval } ∧
      stepIntervalOf (getTempo q) = some q1.stepInterval := by
  rw [calculateStepInterval_eq] at h
  simp only [Option.map_eq_some'] at h
  obtain ⟨n, hn, hq⟩ := h
  subst hq
  exact ⟨rfl, hn⟩

theorem tempo_range_base (b : Rat) (h40 : 40 ≤ b) (_h300 : b ≤ 300) :
    0 < b ∧ 60000 / b < 16777216 := by
  have hb : (0 : Rat) < b := by linarith
  refine ⟨hb, ?_⟩
  rw [div_lt_iff₀ hb]
  nlinarith

theorem constrain_tempo (bpm : Rat) :
    constrain bpm 40 300 = (if bpm < 40 then 40 else if bpm > 300 then 300 else bpm) ∧
      40 ≤ constrain bpm 40 300 ∧ constrain bpm 40 300 ≤ 300 := by
  unfold constrain
  refine ⟨rfl, ?_, ?_⟩
  · split
    · norm_num
    · split
      · norm_num
      · linarith
  · split
    · norm_num
    · split
      · norm_num
      · linarith

theorem setTempo_returns (q : Sequencer) (bpm : Rat) (hov : q.pattern.bpm ≤ 0) :
    getTempo { q with globalBpm := constrain bpm 40 300 } = constrain bpm 40 300 ∧
    ∃ n, stepIntervalOf (constrain bpm 40 300) = some n ∧
      setTempo q bpm =
        some { q with globalBpm := constrain bpm 40 300, stepInterval := n } := by
  have hg : getTempo { q with globalBpm := constrain bpm 40 300 } = constrain bpm 40 300 := by
    unfold getTempo
    rw [if_neg (not_lt.2 hov)]
  obtain ⟨_, h40, h300⟩ := constrain_tempo bpm
  obtain ⟨hpos, hbase⟩ := tempo_range_base _ h40 h300
  obtain ⟨n, hn, _⟩ := stepIntervalOf_bounds _ hpos hbase
  refine ⟨hg, n, hn, ?_⟩
  unfold setTempo
  exact calculateStepInterval_of_some _ n (by rw [hg]; exact hn)

/-- C12: whenever `setTempo(bpm)` returns, the global tempo is 40 if
`bpm < 40`, 300 if `bpm > 300` and `bpm` otherwise, so it lies in [40, 300];
with no pattern tempo override `setTempo` does return and `getTempo` then
answers that clamped value. -/
theorem setTempo_clamps (q : Sequencer) (bpm : Rat) :
    (∀ q1, setTempo q bpm = some q1 →
      q1.globalBpm = (if bpm < 40 then 40 else if bpm > 300 then 300 else bpm) ∧
      40 ≤ q1.globalBpm ∧ q1.globalBpm ≤ 300) ∧
    (q.pattern.bpm ≤ 0 →
      ∃ q1, setTempo q bpm = some q1 ∧
        q1.globalBpm = (if bpm < 40 then 40 else if bpm > 300 then 300 else bpm) ∧
        getTempo q1 = q1.globalBpm ∧ 40 ≤ getTempo q1 ∧ getTempo q1 ≤ 300) := by
  obtain ⟨hc, h40, h300⟩ := constrain_tempo bpm
  constructor
  · intro q1 h
    unfold setTempo at h
    obtain ⟨hq, _⟩ := calculateStepInterval_some _ _ h
    rw [hq]
    exact ⟨hc, h40, h300⟩
  · intro hov
    obtain ⟨_, n, _, hset⟩ := setTempo_returns q bpm hov
    refine ⟨_, hset, hc, ?_, ?_, ?_⟩
    · unfold getTempo
      rw [if_neg (not_lt.2 hov)]
    · unfold getTempo
      rw [if_neg (not_lt.2 hov)]
      exact h40
    · unfold getTempo
      rw [if_neg (not_lt.2 hov)]
      exact h300

/-- Witness for C12: `setTempo(1000)` on the constructed sequencer, which has
no pattern tempo override. -/
theorem setTempo_clamps_witness :
    construct.pattern.bpm ≤ 0 ∧
    ∃ q1, setTempo construct 1000 = some q1 ∧
      q1.globalBpm = (if (1000 : Rat) < 40 then 40 else if (1000 : Rat) > 300 then 300 else 1000) ∧
      getTempo q1 = q1.globalBpm ∧ 40 ≤ getTempo q1 ∧ getTempo q1 ≤ 300 :=
  ⟨le_refl _, (setTempo_clamps construct 1000).2 (le_refl _)⟩

theorem effectiveBpm_eq_getTempo (q : Sequencer) (h : 0 ≤ q.pattern.bpm) :
    effectiveBpm q = getTempo q := by
  unfold effectiveBpm getTempo
  by_cases hz : q.pattern.bpm = 0
  · simp [hz]
  · have hpos : q.pattern.bpm > 0 := lt_of_le_of_ne h (Ne.symm hz)
    simp [hz, hpos]

theorem recomputed_calc (q q1 : Sequencer) (h : Recomputed q q1) :
    ∃ q0 q2, calculateStepInterval q0 = some q2 ∧ getTempo q2 = getTempo q0 ∧
      getTempo q1 = getTempo q2 ∧ q1.stepInterval = q2.stepInterval ∧
      q1.pattern.bpm = q0.pattern.bpm := by
  have key : ∀ q0 q2, calculateStepInterval q0 = some q2 →
      getTempo q2 = getTempo q0 ∧ q2.pattern.bpm = q0.pattern.bpm := by
    intro q0 q2 h2
    obtain ⟨hq, _⟩ := calculateStepInterval_some q0 q2 h2
    rw [hq]
    exact ⟨rfl, rfl⟩
  rcases h with ⟨bpm, h⟩ | ⟨delta, h⟩ | ⟨b, h⟩
  · unfold setTempo at h
    exact ⟨_, q1, h, (key _ _ h).1, rfl, rfl, (key _ _ h).2⟩
  · unfold adjustSwing at h
    simp only [] at h
    split at h
    · cases h
    · exact ⟨_, q1, h, (key _ _ h).1, rfl, rfl, (key _ _ h).2⟩
  · unfold begin at h
    simp only [Option.map_eq_some'] at h
    obtain ⟨q2, h2, hq⟩ := h
    subst hq
    exact ⟨_, q2, h2, (key _ _ h2).1, rfl, rfl, (key _ _ h2).2⟩

/-- C13 as stated fails. The tempo 10922667 / 262144 (the `float`
41.6666679...) is a binary32 value in [40, 300]; `60000 / bpm / 4` is
359.99998..., whose whole milliseconds are 359, but the `float` division
rounds `60000 / bpm` up to 1440 and `setTempo` stores the interval 360. -/
theorem stepInterval_rounds_up :
    f32Near (10922667 / 262144) = 10922667 / 262144 ∧
    (setTempo construct (10922667 / 262144)).map (fun r => (effectiveBpm r, r.stepInterval)) =
      some (10922667 / 262144, 360) ∧
    (60000 : Rat) / (10922667 / 262144) / 4 < 360 ∧
    ⌊(60000 : Rat) / (10922667 / 262144) / 4⌋ = 359 := by
  refine ⟨f32Near_tempo_exact, ?_, by norm_num, ?_⟩
  · obtain ⟨_, n, hn, hset⟩ := setTempo_returns construct (10922667 / 262144) (le_refl _)
    have hc : constrain (10922667 / 262144 : Rat) 40 300 = 10922667 / 262144 := by
      norm_num [constrain]
    rw [hc, stepIntervalOf_rounds_up] at hn
    have hn360 : n = 360 := (Option.some.inj hn).symm
    rw [hset, hc, hn360]
    simp [effectiveBpm, construct, defaultPattern]
  · rw [Int.floor_eq_iff]
    constructor <;> norm_num

/-- C13, amended: after `setTempo`, `adjustSwing` or `begin`, for a tempo
override that is not negative, the step interval is the value of
`(unsigned long)(60000.0f / effective_bpm / 4.0f)` computed in `float`: the
quotient of the two rounded divisions cut to whole milliseconds. For a positive
effective tempo (the override when nonzero, the global tempo otherwise) whose
quotient `60000 / effective_bpm` is below `2 ^ 24`, it is the whole
milliseconds of the exact `60000 / effective_bpm / 4` or one more, equal to
the exact quotient whenever that is whole, and exactly 125 at 120 BPM. With no
override and a tempo in [40, 300] the three operations return. -/
theorem stepInterval_after_recompute :
    (∀ q q1 : Sequencer, Recomputed q q1 → 0 ≤ q1.pattern.bpm →
      stepIntervalOf (effectiveBpm q1) = some q1.stepInterval ∧
      (0 < effectiveBpm q1 → 60000 / effectiveBpm q1 < 16777216 →
        (q1.stepInterval : Int) = ⌊f32Near (f32Near (60000 / effectiveBpm q1) / 4)⌋ ∧
        ⌊60000 / effectiveBpm q1 / 4⌋ ≤ (q1.stepInterval : Int) ∧
        (q1.stepInterval : Int) ≤ ⌊60000 / effectiveBpm q1 / 4⌋ + 1 ∧
        (∀ n : Nat, 60000 / effectiveBpm q1 / 4 = (n : Rat) → q1.stepInterval = n) ∧
        (effectiveBpm q1 = 120 → q1.stepInterval = 125))) ∧
    (∀ (q : Sequencer) (bpm : Rat), q.pattern.bpm = 0 → ∃ q1, setTempo q bpm = some q1) ∧
    (∀ (q : Sequencer) (delta : Int), q.pattern.bpm = 0 → 40 ≤ q.globalBpm →
      q.globalBpm ≤ 300 → -2147483648 ≤ (q.pattern.swing : Int) + delta →
      (q.pattern.swing : Int) + delta ≤ 2147483647 → ∃ q1, adjustSwing q delta = some q1) ∧
    (∀ (q : Sequencer) (initialBpm : Rat), q.pattern.bpm = 0 → 40 ≤ initialBpm →
      initialBpm ≤ 300 → ∃ q1, begin q initialBpm = some q1) := by
  refine ⟨?_, ?_, ?_, ?_⟩
  · intro q q1 hrec hov
    obtain ⟨q0, q2, hcalc, ht2, ht1, hsi, hbpm⟩ := recomputed_calc q q1 hrec
    rw [effectiveBpm_eq_getTempo q1 hov, ht1, ht2, hsi]
    obtain ⟨_, hstep⟩ := calculateStepInterval_some q0 q2 hcalc
    refine ⟨hstep, ?_⟩
    intro heff hy
    obtain ⟨heq, _, hw0⟩ := stepIntervalOf_eq _ heff hy
    obtain ⟨n, hn, hlo, hhi⟩ := stepIntervalOf_bounds _ heff hy
    rw [hstep] at hn heq
    have hnq : q2.stepInterval = n := Option.some.inj hn
    have hwhole : ∀ m : Nat, 60000 / getTempo q0 / 4 = (m : Rat) → q2.stepInterval = m := by
      intro m hm
      have := stepIntervalOf_whole _ m heff hy hm
      rw [hstep] at this
      exact Option.some.inj this
    refine ⟨?_, by rw [hnq]; exact hlo, by rw [hnq]; exact hhi, hwhole, ?_⟩
    · rw [Option.some.inj heq]
      exact Int.toNat_of_nonneg (Int.floor_nonneg.2 hw0)
    · intro h120
      exact hwhole 125 (by rw [h120]; norm_num)
  · intro q bpm hov
    obtain ⟨_, n, _, hset⟩ := setTempo_returns q bpm (le_of_eq hov)
    exact ⟨_, hset⟩
  · intro q delta hov h40 h300 hlo hhi
    have hg : ∀ s : Nat,
        getTempo { q with pattern := { q.pattern with swing := s } } = q.globalBpm := by
      intro s
      unfold getTempo
      simp [hov]
    obtain ⟨hpos, hbase⟩ := tempo_range_base _ h40 h300
    obtain ⟨n, hn, _⟩ := stepIntervalOf_bounds _ hpos hbase
    unfold adjustSwing
    simp only []
    rw [if_neg (by omega)]
    exact ⟨_, calculateStepInterval_of_some _ n (by rw [hg]; exact hn)⟩
  · intro q b hov h40 h300
    have hg : getTempo { q with globalBpm := b } = b := by
      unfold getTempo
      simp [hov]
    obtain ⟨hpos, hbase⟩ := tempo_range_base _ h40 h300
    obtain ⟨n, hn, _⟩ := stepIntervalOf_bounds _ hpos hbase
    unfold begin
    rw [calculateStepInterval_of_some _ n (by rw [hg]; exact hn)]
    exact ⟨_, rfl⟩
/-- Witness for C13 on the constructed sequencer: `setTempo(120)` gives the
interval 125, and `begin(130)` gives 115, the whole milliseconds of
`60000 / 130 / 4 = 115.38...`. -/
theorem stepInterval_after_recompute_witness :
    construct.pattern.bpm = 0 ∧
    (∃ q1, setTempo construct 120 = some q1 ∧ effectiveBpm q1 = 120 ∧
      q1.stepInterval = 125) ∧
    (∃ q1, begin construct 130 = some q1 ∧ effectiveBpm q1 = 130 ∧
      q1.stepInterval = 115) := by
  refine ⟨rfl, ?_, ?_⟩
  · obtain ⟨q1, h⟩ := stepInterval_after_recompute.2.1 construct 120 rfl
    obtain ⟨_, n, _, hset⟩ := setTempo_returns construct 120 (le_refl _)
    rw [h] at hset
    have hq1 := Option.some.inj hset
    have hpat : q1.pattern.bpm = 0 := by rw [hq1]; rfl
    have heff : effectiveBpm q1 = 120 := by
      unfold effectiveBpm
      rw [hpat, hq1]
      norm_num [constrain]
    exact ⟨q1, h, heff,
      ((stepInterval_after_recompute.1 construct q1 (Or.inl ⟨120, h⟩)
        (le_of_eq hpat.symm)).2 (by rw [heff]; norm_num) (by rw [heff]; norm_num)).2.2.2.2
          heff⟩
  · obtain ⟨q1, h⟩ :=
      stepInterval_after_recompute.2.2.2 construct 130 rfl (by norm_num) (by norm_num)
    have hfields : q1.pattern.bpm = 0 ∧ q1.globalBpm = 130 := by
      unfold begin at h
      simp only [Option.map_eq_some'] at h
      obtain ⟨q2, h2, hq⟩ := h
      obtain ⟨hq2, _⟩ := calculateStepInterval_some _ _ h2
      rw [← hq, hq2]
      exact ⟨rfl, rfl⟩
    obtain ⟨hpat, hglob⟩ := hfields
    have heff : effectiveBpm q1 = 130 := by
      unfold effectiveBpm
      rw [hpat, hglob]
      norm_num
    have hstep := (stepInterval_after_recompute.1 construct q1 (Or.inr (Or.inr ⟨130, h⟩))
      (le_of_eq hpat.symm)).1
    rw [heff, stepIntervalOf_exact 130 115 (by norm_num) (by norm_num) (by norm_num)
      (by norm_num)] at hstep
    exact ⟨q1, h, heff, (Option.some.inj hstep).symm⟩

theorem calculateStepInterval_idem (q q1 : Sequencer)
    (h : calculateStepInterval q = some q1) :
    calculateStepInterval q1 = some q1 ∧ getTempo q1 = getTempo q ∧
      q1.pattern = q.pattern := by
  obtain ⟨hq, hstep⟩ := calculateStepInterval_some q q1 h
  have ht : getTempo q1 = getTempo q := by rw [hq]; rfl
  refine ⟨?_, ht, by rw [hq]⟩
  rw [calculateStepInterval_eq, ht, hstep]
  rfl

/-- C15: when the `int` sum `swing + delta` does not overflow, whenever
`adjustSwing(delta)` returns `getSwing` answers the sum clamped to 0..100 (0
below 0, 100 above 100), the tempo is untouched and the step interval is the
one `calculateStepInterval` derives from the effective tempo: the value of
`(unsigned long)(60000.0f / tempo / 4.0f)`, so recomputing it changes nothing.
For a positive tempo whose quotient `60000 / tempo` is below `2 ^ 24`,
`adjustSwing` returns. -/
theorem adjustSwing_clamps (q : Sequencer) (delta : Int)
    (hlo : -2147483648 ≤ (q.pattern.swing : Int) + delta)
    (hhi : (q.pattern.swing : Int) + delta ≤ 2147483647) :
    (∀ q1, adjustSwing q delta = some q1 →
      (getSwing q1 : Int) =
        (if (q.pattern.swing : Int) + delta < 0 then 0
         else if (q.pattern.swing : Int) + delta > 100 then 100
         else (q.pattern.swing : Int) + delta) ∧
      getSwing q1 ≤ 100 ∧
      getTempo q1 = getTempo q ∧
      calculateStepInterval q1 = some q1 ∧
      stepIntervalOf (getTempo q1) = some q1.stepInterval) ∧
    (0 < getTempo q → 60000 / getTempo q < 16777216 →
      ∃ q1, adjustSwing q delta = some q1) := by
  have hnov : ¬ ((q.pattern.swing : Int) + delta < -2147483648 ∨
      2147483647 < (q.pattern.swing : Int) + delta) := by omega
  have hclamp : ((constrain ((q.pattern.swing : Int) + delta) 0 100).toNat % U8_MOD : Nat) =
      (constrain ((q.pattern.swing : Int) + delta) 0 100).toNat := by
    apply Nat.mod_eq_of_lt
    show _ < 256
    unfold constrain
    split
    · simp
    · split
      · simp
      · omega
  constructor
  · intro q1 h
    unfold adjustSwing at h
    simp only [] at h
    rw [if_neg hnov] at h
    obtain ⟨hidem, htempo, hpat⟩ := calculateStepInterval_idem _ _ h
    have hswing : q1.pattern.swing =
        (constrain ((q.pattern.swing : Int) + delta) 0 100).toNat := by
      rw [hpat]
      exact hclamp
    refine ⟨?_, ?_, htempo, hidem, ?_⟩
    · unfold getSwing
      rw [hswing]
      unfold constrain
      split
      · simp
      · split
        · simp
        · rw [Int.toNat_of_nonneg (by omega)]
    · unfold getSwing
      rw [hswing]
      unfold constrain
      split
      · simp
      · split
        · simp
        · omega
    · exact (calculateStepInterval_some _ _ hidem).2
  · intro hpos hbase
    obtain ⟨n, hn, _⟩ := stepIntervalOf_bounds _ hpos hbase
    unfold adjustSwing
    simp only []
    rw [if_neg hnov]
    exact ⟨_, calculateStepInterval_of_some _ n hn⟩

/-- Witness for C15: `adjustSwing(250)` on the constructed sequencer (swing 0,
120 BPM) leaves the swing at 100 and the step interval at 125. -/
theorem adjustSwing_clamps_witness :
    -2147483648 ≤ (construct.pattern.swing : Int) + 250 ∧
    (construct.pattern.swing : Int) + 250 ≤ 2147483647 ∧
    ∃ q1, adjustSwing construct 250 = some q1 ∧ getSwing q1 = 100 ∧
      getTempo q1 = 120 ∧ q1.stepInterval = 125 := by
  have hlo : -2147483648 ≤ (construct.pattern.swing : Int) + 250 := by decide
  have hhi : (construct.pattern.swing : Int) + 250 ≤ 2147483647 := by decide
  have ht : getTempo construct = 120 := by
    simp [getTempo, construct, defaultPattern]
  obtain ⟨q1, h⟩ := (adjustSwing_clamps construct 250 hlo hhi).2
    (by rw [ht]; norm_num) (by rw [ht]; norm_num)
  obtain ⟨hsw, _, htempo, _, hstep⟩ := (adjustSwing_clamps construct 250 hlo hhi).1 q1 h
  have hs0 : (construct.pattern.swing : Int) = 0 := by decide
  rw [hs0] at hsw
  norm_num at hsw
  rw [ht] at htempo
  rw [htempo, stepIntervalOf_whole 120 125 (by norm_num) (by norm_num) (by norm_num)] at hstep
  exact ⟨hlo, hhi, q1, h, by exact_mod_cast hsw, htempo, (Option.some.inj hstep).symm⟩
/-- C16: the swing has no effect on timing. The interval that
`calculateStepInterval` derives is the same for every swing value, and after
`adjustSwing` it is the interval of swing 0, so the offset that swing adds to
any step is zero: constant (hence non-decreasing) in swing and bounded. A
running sequencer processes the step at any position exactly when
`stepInterval` (a natural number, never negative) has elapsed since the last
step, and the tick leaves `stepInterval` as it was, so every step waits the
same interval. -/
theorem swing_has_no_timing_effect (q : Sequencer) :
    (∀ s : Nat,
      (calculateStepInterval { q with pattern := { q.pattern with swing := s } }).map
          (fun r => r.stepInterval) =
        (calculateStepInterval q).map (fun r => r.stepInterval)) ∧
    (∀ (delta : Int) (q1 : Sequencer), adjustSwing q delta = some q1 →
      (calculateStepInterval { q with pattern := { q.pattern with swing := 0 } }).map
          (fun r => r.stepInterval) = some q1.stepInterval) ∧
    (∀ (now : Nat) (rnd : Nat → Nat), InBounds q → q.running = true →
      ∃ q1 evs, update q now rnd = some (q1, evs) ∧ q1.stepInterval = q.stepInterval ∧
        (q.stepInterval ≤ elapsed q now →
          q1.currentStep = (q.currentStep + 1) % (q.pattern.length : Int) ∧
          q1.lastStepTime = now % ULONG_MOD) ∧
        (elapsed q now < q.stepInterval → q1 = q ∧ evs = [])) := by
  have hany : ∀ s : Nat,
      (calculateStepInterval { q with pattern := { q.pattern with swing := s } }).map
          (fun r => r.stepInterval) =
        stepIntervalOf (getTempo q) := by
    intro s
    rw [calculateStepInterval_eq]
    have hg : getTempo { q with pattern := { q.pattern with swing := s } } = getTempo q := rfl
    rw [hg]
    cases stepIntervalOf (getTempo q) <;> rfl
  have hself : (calculateStepInterval q).map (fun r => r.stepInterval) =
      stepIntervalOf (getTempo q) := by
    rw [calculateStepInterval_eq]
    cases stepIntervalOf (getTempo q) <;> rfl
  refine ⟨fun s => (hany s).trans hself.symm, ?_, ?_⟩
  · intro delta q1 h
    unfold adjustSwing at h
    simp only [] at h
    split at h
    · cases h
    · rw [hany 0, ← hany ((constrain ((q.pattern.swing : Int) + delta) 0 100).toNat % U8_MOD), h]
      rfl
  · intro now rnd hb hrun
    by_cases hdue : q.stepInterval ≤ elapsed q now
    · obtain ⟨hlen, hmax, h0, h1⟩ := hb
      have h16 : q.currentStep < (MAX_STEPS : Int) := by
        have : (q.pattern.length : Int) ≤ (MAX_STEPS : Int) := by exact_mod_cast hmax
        omega
      obtain ⟨_, q3, evs, _, _, hup, hq3, _, hnext, _, _, _⟩ :=
        update_due_spec q now rnd hrun hdue h0 h16 hlen
      refine ⟨q3, evs, hup, by rw [hq3], fun _ => ⟨hnext, by rw [hq3]⟩, ?_⟩
      intro hlt
      omega
    · have hlt : elapsed q now < q.stepInterval := Nat.lt_of_not_le hdue
      exact ⟨q, [], update_idle q now rnd (Or.inr hlt), rfl, fun h => absurd h hdue,
        fun _ => ⟨rfl, rfl⟩⟩

/-- Witness for C16: the sample sequencer (interval 125) ticked when its step
is due and one millisecond early. -/
theorem swing_has_no_timing_effect_witness :
    InBounds sampleSeq ∧ sampleSeq.running = true ∧
    (∃ q1 evs, update sampleSeq 125 (fun _ => 0) = some (q1, evs) ∧
      q1.stepInterval = sampleSeq.stepInterval ∧
      (sampleSeq.stepInterval ≤ elapsed sampleSeq 125 →
        q1.currentStep = (sampleSeq.currentStep + 1) % (sampleSeq.pattern.length : Int) ∧
        q1.lastStepTime = 125 % ULONG_MOD) ∧
      (elapsed sampleSeq 125 < sampleSeq.stepInterval → q1 = sampleSeq ∧ evs = [])) ∧
    (∃ q1 evs, update sampleSeq 124 (fun _ => 0) = some (q1, evs) ∧
      q1.stepInterval = sampleSeq.stepInterval ∧
      (sampleSeq.stepInterval ≤ elapsed sampleSeq 124 →
        q1.currentStep = (sampleSeq.currentStep + 1) % (sampleSeq.pattern.length : Int) ∧
        q1.lastStepTime = 124 % ULONG_MOD) ∧
      (elapsed sampleSeq 124 < sampleSeq.stepInterval → q1 = sampleSeq ∧ evs = [])) :=
  ⟨by unfold InBounds; decide, by decide,
    (swing_has_no_timing_effect sampleSeq).2.2 125 (fun _ => 0)
      (by unfold InBounds; decide) (by decide),
    (swing_has_no_timing_effect sampleSeq).2.2 124 (fun _ => 0)
      (by unfold InBounds; decide) (by decide)⟩

/-! ## Pattern management, entry points and the unguarded query -/

/-- C27: `clearPattern` writes the default into every field of the pattern,
whatever the state was: length `MAX_STEPS`, swing 0, no tempo override, every
track unmuted and unsoloed with its own index as source slot (volume 1, pan
0), and each of the `MAX_STEPS` steps of each track inactive with condition
`ALWAYS`, velocity 127, pitch offset 0, slice 0, lock values 0 and no lock
present. Nothing outside the pattern changes, and clearing twice equals
clearing once. -/
theorem clearPattern_defaults (q : Sequencer) :
    (clearPattern q).pattern.length = MAX_STEPS ∧ (clearPattern q).pattern.swing = 0 ∧
    (clearPattern q).pattern.bpm = 0 ∧
    (∀ t : Fin MAX_TRACKS,
      ((clearPattern q).pattern.tracks t).muted = false ∧
      ((clearPattern q).pattern.tracks t).soloed = false ∧
      ((clearPattern q).pattern.tracks t).sourceSlot = t.val ∧
      ((clearPattern q).pattern.tracks t).volume = 1 ∧
      ((clearPattern q).pattern.tracks t).pan = 0 ∧
      ∀ i : Fin MAX_STEPS,
        (((clearPattern q).pattern.tracks t).steps i).active = false ∧
        (((clearPattern q).pattern.tracks t).steps i).condition = TRIG_ALWAYS ∧
        (((clearPattern q).pattern.tracks t).steps i).velocity = 127 ∧
        (((clearPattern q).pattern.tracks t).steps i).pitchOffset = 0 ∧
        (((clearPattern q).pattern.tracks t).steps i).sampleSlice = 0 ∧
        ∀ k : Fin PARAM_COUNT,
          (((clearPattern q).pattern.tracks t).steps i).paramLocks k = 0 ∧
          (((clearPattern q).pattern.tracks t).steps i).hasParamLock k = false) ∧
    clearPattern q = { q with pattern := (clearPattern q).pattern } ∧
    clearPattern (clearPattern q) = clearPattern q :=
  ⟨rfl, rfl, rfl,
    fun _ => ⟨rfl, rfl, rfl, rfl, rfl, fun _ => ⟨rfl, rfl, rfl, rfl, rfl, fun _ => ⟨rfl, rfl⟩⟩⟩,
    rfl, rfl⟩

/-- C26 as stated fails: slot -1 and slot 1000 are outside `0..MAX_PATTERNS`,
yet after `loadPattern` of either `getCurrentPattern` answers the requested
number and not the slot 0 that was current. -/
theorem loadPattern_records_any_slot :
    getCurrentPattern construct = 0 ∧
    getCurrentPattern (loadPattern construct (-1)) = -1 ∧
    getCurrentPattern (loadPattern construct 1000) = 1000 := by
  decide

/-- C26, amended: for every slot number, loadable or not, `loadPattern` leaves
the pattern and every other member unchanged except the current pattern
number, which it sets to the requested number; `getCurrentPattern` then
answers that number. -/
theorem loadPattern_frame (q : Sequencer) (patternNumber : Int) :
    (loadPattern q patternNumber).pattern = q.pattern ∧
    getCurrentPattern (loadPattern q patternNumber) = patternNumber ∧
    loadPattern q patternNumber = { q with currentPatternNumber := patternNumber } :=
  ⟨rfl, rfl, rfl⟩

theorem begin_returns (q : Sequencer) (b : Rat) (n : Nat) (hov : q.pattern.bpm ≤ 0)
    (hn : stepIntervalOf b = some n) :
    begin q b = some (loadPattern { q with globalBpm := b, stepInterval := n } 0) := by
  have hg : getTempo { q with globalBpm := b } = b := by
    unfold getTempo
    rw [if_neg (not_lt.2 hov)]
  unfold begin
  rw [calculateStepInterval_of_some _ n (by rw [hg]; exact hn)]
  rfl

/-- C25 fails on the code: `begin(20)` on the constructed sequencer stores the
global tempo 20, outside [40, 300], with the interval 750 derived from it,
where `setTempo(20)` stores 40 with the interval 375; and `begin(0)` divides
by zero, so the conversion of the quotient to `unsigned long` is undefined. -/
theorem begin_does_not_clamp :
    (begin construct 20).map (fun r => (r.globalBpm, r.stepInterval)) = some (20, 750) ∧
    (setTempo construct 20).map (fun r => (r.globalBpm, r.stepInterval)) = some (40, 375) ∧
    begin construct 0 = none := by
  refine ⟨?_, ?_, ?_⟩
  · rw [begin_returns construct 20 750 (le_refl _)
      (stepIntervalOf_whole 20 750 (by norm_num) (by norm_num) (by norm_num))]
    rfl
  · obtain ⟨_, n, hn, hset⟩ := setTempo_returns construct 20 (le_refl _)
    have hc : constrain (20 : Rat) 40 300 = 40 := by norm_num [constrain]
    rw [hc, stepIntervalOf_whole 40 375 (by norm_num) (by norm_num) (by norm_num)] at hn
    rw [hset, hc, ← Option.some.inj hn]
    rfl
  · unfold begin
    rw [calculateStepInterval_eq]
    have hg : getTempo { construct with globalBpm := 0 } = 0 := by
      simp [getTempo, construct, defaultPattern]
    have hz : stepIntervalOf 0 = none := by
      simp [stepIntervalOf, f32Div]
    rw [hg, hz]
    rfl

/-- C21 fails on the code: `hasStep` reads `steps[step]` with no range test,
so for step 16 and step -1 the read is outside the 16-entry table (undefined),
where the guarded sibling `getStep` answers false; inside the table `hasStep`
answers whether some track has the step active. -/
theorem hasStep_reads_outside_table :
    hasStep construct 16 = none ∧ hasStep construct (-1) = none ∧
    getStep construct 0 16 = some false ∧ getStep construct 0 (-1) = some false ∧
    hasStep sampleSeq 0 = some true ∧ hasStep sampleSeq 9 = some false := by
  decide

/-- C22 fails on the code: after construction `setPosition(-1)` leaves
`currentStep = -1` (the C++ remainder of a negative number is negative), which
is not in `0..length-1`; after `start`, the next due tick reads `steps[-1]`,
outside the step table. A target above the length does wrap:
`setPosition(20)` gives 4. -/
theorem setPosition_negative_escapes :
    (runOps construct [Op.setPosition (-1)]).map (fun r => r.1.currentStep) = some (-1) ∧
    (runOps construct [Op.setPosition (-1), Op.start 0, Op.update 125 (fun _ => 0)]).isNone
      = true ∧
    (runOps construct [Op.setPosition 20]).map (fun r => r.1.currentStep) = some 4 := by
  decide

/-! ## What a tick and a step edit leave alone -/

theorem advanceStep_frame (q q3 : Sequencer) (h : advanceStep q = some q3) :
    q3 = { q with currentStep := q3.currentStep, triggerCounts := q3.triggerCounts } := by
  unfold advanceStep at h
  split at h
  · cases h
  · simp only [] at h
    by_cases hz : Int.tmod (q.currentStep + 1) (q.pattern.length : Int) = 0
    · rw [if_pos hz] at h
      cases h
      rfl
    · rw [if_neg hz] at h
      cases h
      rfl

theorem update_frame (q : Sequencer) (now : Nat) (rnd : Nat → Nat) (q1 : Sequencer)
    (evs : List Event) (h : update q now rnd = some (q1, evs)) :
    q1 = { q with currentStep := q1.currentStep, lastStepTime := q1.lastStepTime,
                  triggerCounts := q1.triggerCounts } := by
  by_cases hgo : q.running = true ∧ q.stepInterval ≤ elapsed q now
  · unfold update at h
    have hr : (!q.running) = false := by simp [hgo.1]
    have hd : elapsed q now ≥ q.stepInterval := hgo.2
    rw [hr, if_neg (by simp), if_pos hd] at h
    simp only [] at h
    cases hps : processTracks rnd (List.finRange MAX_TRACKS)
        { q with lastStepTime := now % ULONG_MOD } with
    | none => rw [hps] at h; cases h
    | some r =>
      obtain ⟨q2, e2⟩ := r
      rw [hps] at h
      simp only [Option.map_eq_some'] at h
      obtain ⟨q3, hadv, hq3⟩ := h
      cases hq3
      obtain ⟨hsame, _⟩ := processTracks_frame rnd _ finRange_tracks_nodup _ q2 _ hps
      have h3 := advanceStep_frame q2 q1 hadv
      unfold sameButCounts at hsame
      rw [h3, hsame]
  · have hidle : q.running = false ∨ elapsed q now < q.stepInterval := by
      by_cases hr : q.running = true
      · right
        exact Nat.lt_of_not_le fun h => hgo ⟨hr, h⟩
      · left; simpa using hr
    rw [update_idle q now rnd hidle] at h
    cases h
    rfl

/-- C30: whenever `update` returns, whether or not a step fired, the state it
returns is the one it was given with at most `currentStep`, `lastStepTime` and
`triggerCounts` replaced: the whole pattern (length, swing, tempo override,
every track member, every step with its lock values and lock flags) and every
other member are unchanged. In a state whose position and length are inside
the table `update` does return. -/
theorem update_keeps_pattern (q : Sequencer) (now : Nat) (rnd : Nat → Nat) :
    (InBounds q → ∃ r, update q now rnd = some r) ∧
    ∀ q1 evs, update q now rnd = some (q1, evs) →
      q1.pattern = q.pattern ∧
      q1 = { q with currentStep := q1.currentStep, lastStepTime := q1.lastStepTime,
                    triggerCounts := q1.triggerCounts } := by
  constructor
  · intro hb
    obtain ⟨q1, evs, hup, _⟩ := update_inBounds q now rnd hb
    exact ⟨(q1, evs), hup⟩
  · intro q1 evs h
    have hf := update_frame q now rnd q1 evs h
    exact ⟨by rw [hf], hf⟩

/-- Witness for C30: a due tick of the locked sequencer standing on its
locked `FILL` step with the fill mode on; the tick logs the two lock lines and
then the trigger of track 2 at step 5. -/
theorem update_keeps_pattern_witness :
    InBounds lockedRun ∧
    (update lockedRun 125 (fun _ => 0)).map
        (fun r => r.2.map fun e => (e.isTriggerOf 2, e.stepOf)) =
      some [(false, none), (false, none), (true, some 5)] ∧
    ∃ r, update lockedRun 125 (fun _ => 0) = some r :=
  ⟨by unfold InBounds; decide, by decide,
    (update_keeps_pattern lockedRun 125 (fun _ => 0)).1 (by unfold InBounds; decide)⟩

theorem modifyStep_involutive (p : Pattern) (track step : Int) (f : Step → Step)
    (hf : ∀ x, f (f x) = x) (p1 : Pattern) (h : modifyStep p track step f = some p1) :
    modifyStep p1 track step f = some p := by
  unfold modifyStep modifyTrack at h ⊢
  by_cases hs : 0 ≤ step ∧ step < (MAX_STEPS : Int)
  · rw [dif_pos hs] at h ⊢
    simp only [] at h ⊢
    by_cases ht : 0 ≤ track ∧ track < (MAX_TRACKS : Int)
    · rw [dif_pos ht] at h ⊢
      cases h
      simp [Function.update_same, Function.update_idem, hf, Function.update_eq_self]
    · rw [dif_neg ht] at h
      cases h
  · rw [dif_neg hs] at h
    cases h

/-- C28: with the selected track in `0..MAX_TRACKS-1` and a step in
`0..length-1` that lies in the step table, `toggleStep` returns a state that
differs from the given one only in the pattern, and there only in the step at
(selected track, step), whose active flag is negated while its other fields
stay; applied again it returns the original state. `setStep(track, step, a)`
for an in-range track returns a state on which `getStep(track, step)` answers
`a`. -/
theorem toggleStep_spec (q : Sequencer) (step : Int)
    (hsel0 : 0 ≤ q.selectedTrack) (hsel1 : q.selectedTrack < (MAX_TRACKS : Int))
    (hs0 : 0 ≤ step) (hs1 : step < (q.pattern.length : Int)) (hs2 : step < (MAX_STEPS : Int)) :
    (∃ q1, toggleStep q step = some q1 ∧
      q1 = { q with pattern := q1.pattern } ∧
      q1.pattern.length = q.pattern.length ∧ q1.pattern.swing = q.pattern.swing ∧
      q1.pattern.bpm = q.pattern.bpm ∧
      (∀ t, (q1.pattern.tracks t).muted = (q.pattern.tracks t).muted ∧
        (q1.pattern.tracks t).soloed = (q.pattern.tracks t).soloed ∧
        (q1.pattern.tracks t).sourceSlot = (q.pattern.tracks t).sourceSlot ∧
        (q1.pattern.tracks t).volume = (q.pattern.tracks t).volume ∧
        (q1.pattern.tracks t).pan = (q.pattern.tracks t).pan) ∧
      (∀ t' s' : Int, stepAtInt q1.pattern t' s' =
        if t' = q.selectedTrack ∧ s' = step then
          (stepAtInt q.pattern t' s').map fun s => { s with active := !s.active }
        else stepAtInt q.pattern t' s') ∧
      toggleStep q1 step = some q) ∧
    (∀ (track : Int) (a : Bool), 0 ≤ track → track < (MAX_TRACKS : Int) →
      ∃ q2, setStep q track step a = some q2 ∧ getStep q2 track step = some a) := by
  have hok : stepOk q step := ⟨hs0, hs1⟩
  constructor
  · obtain ⟨p1, hp1, hlen, hsw, hbpm, htr, hsteps⟩ :=
      modifyStep_some q.pattern q.selectedTrack step (fun s => { s with active := !s.active })
        hsel0 hsel1 hs0 hs2
    have hback := modifyStep_involutive q.pattern q.selectedTrack step
      (fun s => { s with active := !s.active }) (by intro x; simp) p1 hp1
    refine ⟨{ q with pattern := p1 }, ?_, rfl, hlen, hsw, hbpm, htr, hsteps, ?_⟩
    · unfold toggleStep
      rw [if_pos hok, hp1]
      rfl
    · have hok1 : stepOk { q with pattern := p1 } step := by
        unfold stepOk
        exact ⟨hs0, by show step < (p1.length : Int); rw [hlen]; exact hs1⟩
      unfold toggleStep
      rw [if_pos hok1]
      show withPattern _ (modifyStep p1 q.selectedTrack step _) = _
      rw [hback]
      rfl
  · intro track a ht0 ht1
    obtain ⟨s0, hs0'⟩ := stepAtInt_of_bounds q.pattern track step ht0 ht1 hs0 hs2
    obtain ⟨q2, hq2, _, hlen, _, _, hsteps⟩ :=
      editStep_spec q track step (fun s => { s with active := a }) ht0 ht1 hs0 hs2
    refine ⟨q2, ?_, ?_⟩
    · unfold setStep
      rw [if_pos ⟨⟨ht0, ht1⟩, hok⟩]
      exact hq2
    · have hg : trackOk track ∧ stepOk q2 step :=
        ⟨⟨ht0, ht1⟩, ⟨hs0, by rw [hlen]; exact hs1⟩⟩
      unfold getStep
      rw [if_pos hg, hsteps track step, if_pos ⟨rfl, rfl⟩, hs0']
      rfl

/-- Witness for C28: toggle step 1 of the selected track 0 of the sample
sequencer, an active `2ND` step, and set step 1 of track 3. -/
theorem toggleStep_spec_witness :
    getStep sampleSeq 0 1 = some true ∧
    (toggleStep sampleSeq 1).bind (fun r => getStep r 0 1) = some false ∧
    (toggleStep sampleSeq 1).bind (fun r => getTrigCondition r 0 1) = some TRIG_2ND ∧
    (∃ q1, toggleStep sampleSeq 1 = some q1 ∧ toggleStep q1 1 = some sampleSeq) ∧
    (∃ q2, setStep sampleSeq 3 1 true = some q2 ∧ getStep q2 3 1 = some true) := by
  obtain ⟨⟨q1, h1, _, _, _, _, _, _, hback⟩, hset⟩ :=
    toggleStep_spec sampleSeq 1 (by decide) (by decide) (by decide) (by decide) (by decide)
  exact ⟨by decide, by decide, by decide, ⟨q1, h1, hback⟩, hset 3 true (by decide) (by decide)⟩

/-! ## The exact log of a tick -/

theorem firesNow_iff (q : Sequencer) (rnd : Nat → Nat) (t : Fin MAX_TRACKS) :
    firesNow q rnd t = true ↔ fires q rnd t := by
  unfold firesNow fires
  simp

theorem triggerStep_eq (q : Sequencer) (t : Fin MAX_TRACKS) (st : Int) (s : Step)
    (hs : stepAt q.pattern t st = some s) :
    triggerStep q t st =
      some (lockEvents s ++ [Event.trigger t.val st s.velocity s.pitchOffset]) := by
  simp [triggerStep, applyParamLocks, hs, lockEvents]

theorem trackLog_congr {q q1 : Sequencer} (rnd : Nat → Nat) (u : Fin MAX_TRACKS)
    (hsame : sameButCounts q q1) (hc : q1.triggerCounts u = q.triggerCounts u) :
    trackLog q1 rnd u = trackLog q rnd u := by
  have hf : firesNow q1 rnd u = firesNow q rnd u := by
    have := fires_congr rnd u hsame hc
    rw [← firesNow_iff, ← firesNow_iff] at this
    exact Bool.eq_iff_iff.2 this
  unfold trackLog
  rw [hf, sameButCounts_pattern hsame, sameButCounts_currentStep hsame]

theorem processTrack_log (q : Sequencer) (rnd : Nat → Nat) (t : Fin MAX_TRACKS)
    (h0 : 0 ≤ q.currentStep) (h1 : q.currentStep < (MAX_STEPS : Int)) :
    ∃ q1, processTrack q rnd t = some (q1, trackLog q rnd t) ∧ sameButCounts q q1 ∧
      (∀ u, u ≠ t → q1.triggerCounts u = q.triggerCounts u) := by
  obtain ⟨s, hs⟩ := stepAt_of_bounds q.pattern t q.currentStep h0 h1
  by_cases hev : evaluated q.pattern t = true
  · obtain ⟨fire, q1, he, hsame, hoth, _⟩ :=
      evaluateTrigCondition_spec q t q.currentStep (rnd t.val) s hs
    have hm : (q.pattern.tracks t).muted = false := by
      simp [evaluated] at hev; exact hev.1
    have hsolo : (anySoloed q.pattern && !(q.pattern.tracks t).soloed) = false := by
      simp [evaluated] at hev
      rcases hev.2 with h | h <;> simp [h]
    refine ⟨q1, ?_, hsame, hoth⟩
    cases fire
    · have hlog : trackLog q rnd t = [] := by simp [trackLog, firesNow, he]
      rw [hlog]
      simp [processTrack, hm, hsolo, he]
    · have hlog : trackLog q rnd t =
          lockEvents s ++ [Event.trigger t.val q.currentStep s.velocity s.pitchOffset] := by
        simp [trackLog, firesNow, he, hev, hs]
      have hs1 : stepAt q1.pattern t q1.currentStep = some s := by
        rw [sameButCounts_pattern hsame, sameButCounts_currentStep hsame]; exact hs
      have hts := triggerStep_eq q1 t q1.currentStep s hs1
      rw [sameButCounts_currentStep hsame] at hts
      rw [hlog]
      simp [processTrack, hm, hsolo, he, sameButCounts_currentStep hsame, hts]
  · have hev2 : evaluated q.pattern t = false := by simpa using hev
    have hlog : trackLog q rnd t = [] := by simp [trackLog, firesNow, hev2]
    have hskip : processTrack q rnd t = some (q, []) := by
      unfold processTrack
      simp [evaluated] at hev2
      by_cases hm : (q.pattern.tracks t).muted = true
      · simp [hm]
      · have hm2 : (q.pattern.tracks t).muted = false := by simpa using hm
        have := hev2 hm2
        simp [hm2, this.1, this.2]
    rw [hlog]
    exact ⟨q, hskip, sameButCounts_refl q, fun _ _ => rfl⟩

theorem processTracks_log (rnd : Nat → Nat) (ts : List (Fin MAX_TRACKS)) :
    ts.Nodup → ∀ q : Sequencer, 0 ≤ q.currentStep → q.currentStep < (MAX_STEPS : Int) →
    ∃ q2, processTracks rnd ts q = some (q2, (ts.map (trackLog q rnd)).flatten) ∧
      sameButCounts q q2 ∧ (∀ u, u ∉ ts → q2.triggerCounts u = q.triggerCounts u) := by
  induction ts with
  | nil =>
    intro _ q _ _
    exact ⟨q, rfl, sameButCounts_refl q, fun _ _ => rfl⟩
  | cons t ts ih =>
    intro hnd q h0 h1
    have hnot : t ∉ ts := (List.nodup_cons.1 hnd).1
    obtain ⟨q1, hp, hsame1, hoth1⟩ := processTrack_log q rnd t h0 h1
    have hcs : q1.currentStep = q.currentStep := sameButCounts_currentStep hsame1
    obtain ⟨q2, hps, hsame2, hout2⟩ :=
      ih (List.nodup_cons.1 hnd).2 q1 (by rw [hcs]; exact h0) (by rw [hcs]; exact h1)
    have hmap : ts.map (trackLog q1 rnd) = ts.map (trackLog q rnd) := by
      apply List.map_congr_left
      intro u hu
      have hut : u ≠ t := fun e => hnot (e ▸ hu)
      exact trackLog_congr rnd u hsame1 (hoth1 u hut)
    refine ⟨q2, ?_, sameButCounts_trans hsame1 hsame2, ?_⟩
    · rw [hmap] at hps
      simp [processTracks, hp, hps]
    · intro u hu
      have hut : u ≠ t := fun h => hu (h ▸ List.mem_cons_self _ _)
      have hu2 : u ∉ ts := fun h => hu (List.mem_cons_of_mem _ h)
      rw [hout2 u hu2, hoth1 u hut]

theorem update_log (q : Sequencer) (now : Nat) (rnd : Nat → Nat)
    (hrun : q.running = true) (hdue : q.stepInterval ≤ elapsed q now)
    (h0 : 0 ≤ q.currentStep) (h1 : q.currentStep < (MAX_STEPS : Int))
    (hlen : 0 < q.pattern.length) :
    ∃ q1, update q now rnd =
      some (q1, ((List.finRange MAX_TRACKS).map (trackLog q rnd)).flatten) := by
  obtain ⟨q2, q3, evs, hps, _, hup, _⟩ := update_due_spec q now rnd hrun hdue h0 h1 hlen
  obtain ⟨q2', hps', _, _⟩ :=
    processTracks_log rnd (List.finRange MAX_TRACKS) finRange_tracks_nodup
      { q with lastStepTime := now % ULONG_MOD } h0 h1
  rw [hps] at hps'
  have hevs : evs = ((List.finRange MAX_TRACKS).map
      (trackLog { q with lastStepTime := now % ULONG_MOD } rnd)).flatten := by
    have := Option.some.inj hps'
    exact (Prod.mk.inj this).2
  have hmap : (List.finRange MAX_TRACKS).map
      (trackLog { q with lastStepTime := now % ULONG_MOD } rnd) =
      (List.finRange MAX_TRACKS).map (trackLog q rnd) := by
    apply List.map_congr_left
    intro u _
    unfold trackLog firesNow
    rw [evaluateTrigCondition_verdict_congr q { q with lastStepTime := now % ULONG_MOD } u
      q.currentStep (rnd u.val) rfl rfl rfl]
  rw [hmap] at hevs
  exact ⟨q3, by rw [hup, hevs]⟩

theorem lockEvents_no_trigger (s : Step) :
    (lockEvents s).filterMap Event.triggerTrack = [] := by
  unfold lockEvents
  rw [List.filterMap_eq_nil_iff]
  intro e he
  simp only [List.mem_filterMap] at he
  obtain ⟨p, _, hp⟩ := he
  by_cases hl : s.hasParamLock p = true
  · simp [hl] at hp
    subst hp
    rfl
  · simp [hl] at hp

theorem trackLog_shape (q : Sequencer) (rnd : Nat → Nat) (t : Fin MAX_TRACKS)
    (h0 : 0 ≤ q.currentStep) (h1 : q.currentStep < (MAX_STEPS : Int)) :
    (firesNow q rnd t = true →
      ∃ s, stepAt q.pattern t q.currentStep = some s ∧
        trackLog q rnd t =
          lockEvents s ++ [Event.trigger t.val q.currentStep s.velocity s.pitchOffset]) ∧
    (firesNow q rnd t = false → trackLog q rnd t = []) := by
  obtain ⟨s, hs⟩ := stepAt_of_bounds q.pattern t q.currentStep h0 h1
  constructor
  · intro hf
    exact ⟨s, hs, by simp [trackLog, hf, hs]⟩
  · intro hf
    simp [trackLog, hf]

theorem trackLog_triggers (q : Sequencer) (rnd : Nat → Nat)
    (h0 : 0 ≤ q.currentStep) (h1 : q.currentStep < (MAX_STEPS : Int))
    (ts : List (Fin MAX_TRACKS)) :
    ((ts.map (trackLog q rnd)).flatten).filterMap Event.triggerTrack =
      (ts.filter (firesNow q rnd)).map Fin.val := by
  induction ts with
  | nil => rfl
  | cons t ts ih =>
    rw [List.map_cons, List.flatten_cons, List.filterMap_append, ih, List.filter_cons]
    obtain ⟨hyes, hno⟩ := trackLog_shape q rnd t h0 h1
    by_cases hf : firesNow q rnd t = true
    · obtain ⟨s, _, hlog⟩ := hyes hf
      rw [hlog, List.filterMap_append, lockEvents_no_trigger, if_pos hf]
      rfl
    · have hf2 : firesNow q rnd t = false := by simpa using hf
      rw [hno hf2, if_neg hf]
      rfl

theorem trackLog_steps (q : Sequencer) (rnd : Nat → Nat) (t : Fin MAX_TRACKS) :
    ∀ e ∈ trackLog q rnd t, e.stepOf = none ∨ e.stepOf = some q.currentStep := by
  intro e he
  unfold trackLog at he
  split at he
  · split at he
    · rcases List.mem_append.1 he with h | h
      · left
        unfold lockEvents at h
        simp only [List.mem_filterMap] at h
        obtain ⟨p, _, hp⟩ := h
        split at hp
        · cases hp; rfl
        · cases hp
      · simp at h
        subst h
        right; rfl
    · cases he
  · cases he

/-- C24: a running sequencer whose step is due logs, for the tracks
0..MAX_TRACKS-1 in this order, nothing for a track that does not fire and, for
a track that fires, the parameter-lock lines of its current step followed by
its trigger line. So every trigger names the position before the advance, the
tracks of the triggers are strictly ascending (each track at most once), and
the locks of a firing step come before its trigger. -/
theorem update_trigger_order (q : Sequencer) (now : Nat) (rnd : Nat → Nat)
    (hrun : q.running = true) (hdue : q.stepInterval ≤ elapsed q now)
    (h0 : 0 ≤ q.currentStep) (h1 : q.currentStep < (MAX_STEPS : Int))
    (hlen : 0 < q.pattern.length) :
    ∃ q1 evs, update q now rnd = some (q1, evs) ∧
      evs = ((List.finRange MAX_TRACKS).map (trackLog q rnd)).flatten ∧
      (∀ t : Fin MAX_TRACKS,
        (firesNow q rnd t = true →
          ∃ s, stepAt q.pattern t q.currentStep = some s ∧
            trackLog q rnd t =
              lockEvents s ++ [Event.trigger t.val q.currentStep s.velocity s.pitchOffset]) ∧
        (firesNow q rnd t = false → trackLog q rnd t = [])) ∧
      (∀ e ∈ evs, e.stepOf = none ∨ e.stepOf = some q.currentStep) ∧
      evs.filterMap Event.triggerTrack =
        ((List.finRange MAX_TRACKS).filter (firesNow q rnd)).map Fin.val ∧
      List.Pairwise (fun a b => a < b) (evs.filterMap Event.triggerTrack) := by
  obtain ⟨q1, hup⟩ := update_log q now rnd hrun hdue h0 h1 hlen
  have htr := trackLog_triggers q rnd h0 h1 (List.finRange MAX_TRACKS)
  refine ⟨q1, _, hup, rfl, fun t => trackLog_shape q rnd t h0 h1, ?_, htr, ?_⟩
  · intro e he
    rw [List.mem_flatten] at he
    obtain ⟨l, hl, hel⟩ := he
    rw [List.mem_map] at hl
    obtain ⟨t, _, rfl⟩ := hl
    exact trackLog_steps q rnd t e hel
  · rw [htr]
    exact List.Pairwise.map Fin.val (fun a b h => h)
      (List.Pairwise.filter _ (List.pairwise_lt_finRange MAX_TRACKS))

/-- Witness for C24: a due tick of the two-voice sequencer, where tracks 1 and
4 both fire at step 0 and track 4 holds a lock: the log is the trigger of track
1, then the lock line and the trigger of track 4. -/
theorem update_trigger_order_witness :
    twoVoiceSeq.running = true ∧ twoVoiceSeq.stepInterval ≤ elapsed twoVoiceSeq 125 ∧
    (update twoVoiceSeq 125 (fun _ => 0)).map
        (fun r => r.2.map fun e => (e.triggerTrack, e.stepOf)) =
      some [(some 1, some 0), (none, none), (some 4, some 0)] ∧
    ∃ q1 evs, update twoVoiceSeq 125 (fun _ => 0) = some (q1, evs) ∧
      evs = ((List.finRange MAX_TRACKS).map (trackLog twoVoiceSeq (fun _ => 0))).flatten ∧
      (∀ t : Fin MAX_TRACKS,
        (firesNow twoVoiceSeq (fun _ => 0) t = true →
          ∃ s, stepAt twoVoiceSeq.pattern t twoVoiceSeq.currentStep = some s ∧
            trackLog twoVoiceSeq (fun _ => 0) t =
              lockEvents s ++
                [Event.trigger t.val twoVoiceSeq.currentStep s.velocity s.pitchOffset]) ∧
        (firesNow twoVoiceSeq (fun _ => 0) t = false →
          trackLog twoVoiceSeq (fun _ => 0) t = [])) ∧
      (∀ e ∈ evs, e.stepOf = none ∨ e.stepOf = some twoVoiceSeq.currentStep) ∧
      evs.filterMap Event.triggerTrack =
        ((List.finRange MAX_TRACKS).filter (firesNow twoVoiceSeq (fun _ => 0))).map Fin.val ∧
      List.Pairwise (fun a b => a < b) (evs.filterMap Event.triggerTrack) :=
  ⟨by decide, by decide, by decide,
    update_trigger_order twoVoiceSeq 125 (fun _ => 0) (by decide) (by decide) (by decide)
      (by decide) (by decide)⟩

/-! ## The one-minute scenario -/

theorem scenario_step (u : Fin MAX_TRACKS) (c : Int) (h0 : 0 ≤ c)
    (h1 : c < (MAX_STEPS : Int)) :
    ∃ s, stepAt scenarioPattern u c = some s ∧ s.condition = TRIG_ALWAYS ∧
      (s.active = true ↔ u = 0 ∧ c = 0) := by
  unfold stepAt
  rw [dif_pos ⟨h0, h1⟩]
  refine ⟨_, rfl, ?_, ?_⟩
  · unfold scenarioPattern
    by_cases hu : u = 0
    · simp only [hu, if_true]
      split <;> rfl
    · simp only [hu, if_false]
      rfl
  · unfold scenarioPattern
    by_cases hu : u = 0
    · simp only [hu, if_true, true_and]
      by_cases hc : c = 0
      · subst hc
        simp
      · have hne : (⟨c.toNat, by omega⟩ : Fin MAX_STEPS) ≠ 0 := by
          intro h
          have := congrArg Fin.val h
          simp at this
          omega
        simp only [hne, if_false, hc, iff_false]
        simp [defaultStep]
    · simp only [hu, if_false, false_and, iff_false]
      simp [defaultTrack, defaultStep]

theorem scenario_evaluated (u : Fin MAX_TRACKS) : evaluated scenarioPattern u = true := by
  revert u
  decide

theorem scenario_fires (q : Sequencer) (rnd : Nat → Nat) (u : Fin MAX_TRACKS)
    (hpat : q.pattern = scenarioPattern) (h0 : 0 ≤ q.currentStep)
    (h1 : q.currentStep < (MAX_STEPS : Int)) :
    fires q rnd u ↔ u = 0 ∧ q.currentStep = 0 := by
  obtain ⟨s, hs, hc, ha⟩ := scenario_step u q.currentStep h0 h1
  have hs' : stepAt q.pattern u q.currentStep = some s := by rw [hpat]; exact hs
  unfold fires
  rw [hpat, scenario_evaluated u]
  by_cases hact : s.active = true
  · have hev : evaluateTrigCondition q u q.currentStep (rnd u.val) = some (true, q) := by
      simp [evaluateTrigCondition, hs', hact, hc]
    rw [hev]
    simp [ha.1 hact]
  · have hact2 : s.active = false := by simpa using hact
    have hno : ¬ (u = 0 ∧ q.currentStep = 0) := fun h => hact (ha.2 h)
    have hev : evaluateTrigCondition q u q.currentStep (rnd u.val) = some (false, q) := by
      simp [evaluateTrigCondition, hs', hact2]
    rw [hev]
    simp [hno]

theorem scenario_tick (t0 k : Nat) (q : Sequencer) (rnd : Nat → Nat)
    (hinv : ScenarioInv t0 q k) :
    ∃ q1 evs, update q (t0 + k + 1) rnd = some (q1, evs) ∧ ScenarioInv t0 q1 (k + 1) ∧
      (stepDue q (t0 + k + 1) = true ↔ (k + 1) % 125 = 0) ∧
      q.currentStep = (((k / 125) % 16 : Nat) : Int) ∧
      ScenarioRecord { due := stepDue q (t0 + k + 1), before := q.currentStep,
                       after := q1.currentStep, events := evs } := by
  obtain ⟨hpat, hint, hrun, hlast, hcs⟩ := hinv
  have hel : elapsed q (t0 + k + 1) = k % 125 + 1 := by
    unfold elapsed ulongSub
    rw [hlast]
    show ((t0 + k + 1) % 4294967296 +
      (4294967296 - (t0 + 125 * (k / 125)) % 4294967296 % 4294967296)) % 4294967296 = _
    omega
  have hdue : stepDue q (t0 + k + 1) = true ↔ (k + 1) % 125 = 0 := by
    unfold stepDue
    rw [hrun, hint, hel]
    simp only [Bool.true_and, decide_eq_true_eq]
    omega
  have h0 : 0 ≤ q.currentStep := by rw [hcs]; exact Int.natCast_nonneg _
  have h16 : q.currentStep < (MAX_STEPS : Int) := by
    rw [hcs]
    show (((k / 125) % 16 : Nat) : Int) < ((16 : Nat) : Int)
    omega
  have hlen : q.pattern.length = 16 := by rw [hpat]; rfl
  by_cases hd : (k + 1) % 125 = 0
  · have hdue' : q.stepInterval ≤ elapsed q (t0 + k + 1) := by
      rw [hint, hel]; omega
    obtain ⟨_, q3, evs, _, _, hup, hq3, _, hnext, _, _, hiff⟩ :=
      update_due_spec q (t0 + k + 1) rnd hrun hdue' h0 h16 (by rw [hlen]; norm_num)
    have hnext' : q3.currentStep = (q.currentStep + 1) % 16 := by
      rw [hnext, hlen]; rfl
    have hany : ∀ u : Fin MAX_TRACKS,
        evs.any (Event.isTriggerOf u.val) = true ↔ u = 0 ∧ q.currentStep = 0 := by
      intro u
      rw [List.any_eq_true, ← scenario_fires q rnd u hpat h0 h16, ← hiff u]
    refine ⟨q3, evs, hup, ⟨?_, ?_, ?_, ?_, ?_⟩, hdue, hcs, ?_⟩
    · rw [hq3]; exact hpat
    · rw [hq3]; exact hint
    · rw [hq3]; exact hrun
    · rw [hq3]
      show (t0 + k + 1) % 4294967296 = (t0 + 125 * ((k + 1) / 125)) % 4294967296
      omega
    · rw [hnext', hcs]
      omega
    · refine ⟨?_, ?_, ?_, ?_⟩
      · show evs.any (Event.isTriggerOf 0) = true ↔ _
        have := hany 0
        simp only [true_and] at this
        rw [show ((0 : Fin MAX_TRACKS) : Nat) = 0 from rfl] at this
        rw [this, hdue.2 hd]
        simp
      · intro u hu
        have := hany u
        by_contra hne
        have ht : evs.any (Event.isTriggerOf u.val) = true := by simpa using hne
        exact hu (this.1 ht).1
      · intro _
        exact hnext'
      · intro hf
        rw [hdue.2 hd] at hf
        cases hf
  · have hidle : q.running = false ∨ elapsed q (t0 + k + 1) < q.stepInterval := by
      right
      rw [hint, hel]
      omega
    have hnd : stepDue q (t0 + k + 1) = false := by
      cases hsd : stepDue q (t0 + k + 1)
      · rfl
      · exact absurd (hdue.1 hsd) hd
    refine ⟨q, [], update_idle q _ rnd hidle, ⟨hpat, hint, hrun, ?_, ?_⟩, hdue, hcs, ?_⟩
    · rw [hlast]
      show (t0 + 125 * (k / 125)) % 4294967296 = (t0 + 125 * ((k + 1) / 125)) % 4294967296
      have : (k + 1) / 125 = k / 125 := by omega
      rw [this]
    · rw [hcs]
      have : (k + 1) / 125 = k / 125 := by omega
      rw [this]
    · rw [hnd]
      refine ⟨?_, ?_, ?_, ?_⟩
      · simp
      · intro u _
        rfl
      · intro hf
        cases hf
      · intro _
        exact ⟨rfl, rfl⟩

theorem scenario_trace (t0 : Nat) (rnd : Nat → Nat → Nat) :
    ∀ (m k : Nat) (q : Sequencer), ScenarioInv t0 q k →
      ∃ q1 recs, traceTicks q (msTicks t0 rnd k m) = some (q1, recs) ∧
        ScenarioInv t0 q1 (k + m) ∧ recs.length = m ∧
        k / 125 + advanceCount recs = (k + m) / 125 ∧
        (k / 125 + 15) / 16 + triggerCount 0 recs = ((k + m) / 125 + 15) / 16 ∧
        ∀ r ∈ recs, ScenarioRecord r := by
  intro m
  induction m with
  | zero =>
    intro k q hinv
    exact ⟨q, [], rfl, hinv, rfl, rfl, rfl, by simp⟩
  | succ m ih =>
    intro k q hinv
    obtain ⟨q1, evs, hup, hinv1, hdue, hcs, hrec⟩ := scenario_tick t0 k q (rnd k) hinv
    obtain ⟨q2, recs, htr, hinv2, hlen, hadv, htrig, hall⟩ := ih (k + 1) q1 hinv1
    refine ⟨q2, { due := stepDue q (t0 + k + 1), before := q.currentStep,
                  after := q1.currentStep, events := evs } :: recs, ?_, ?_, ?_, ?_, ?_, ?_⟩
    · simp only [msTicks, traceTicks, hup, htr]
    · have : k + (m + 1) = k + 1 + m := by omega
      rw [this]; exact hinv2
    · simp [hlen]
    · have hk : k + (m + 1) = k + 1 + m := by omega
      rw [hk, ← hadv]
      unfold advanceCount
      rw [List.filter_cons]
      by_cases hd : stepDue q (t0 + k + 1) = true
      · have := hdue.1 hd
        simp only [hd, if_true, List.length_cons]
        omega
      · have hnd : ¬ (k + 1) % 125 = 0 := fun h => hd (hdue.2 h)
        have hd2 : stepDue q (t0 + k + 1) = false := by simpa using hd
        simp only [hd2, Bool.false_eq_true, if_false]
        omega
    · have hk : k + (m + 1) = k + 1 + m := by omega
      rw [hk, ← htrig]
      unfold triggerCount
      rw [List.filter_cons]
      have hany := hrec.1
      simp only [] at hany
      by_cases ht : evs.any (Event.isTriggerOf 0) = true
      · obtain ⟨hd, hb⟩ := hany.1 ht
        have h1 := hdue.1 hd
        have h2 : (k / 125) % 16 = 0 := by
          rw [hcs] at hb
          exact_mod_cast hb
        simp only [ht, if_true, List.length_cons]
        omega
      · have hno : ¬ ((k + 1) % 125 = 0 ∧ (k / 125) % 16 = 0) := by
          intro h
          apply ht
          apply hany.2
          refine ⟨hdue.2 h.1, ?_⟩
          rw [hcs]
          exact_mod_cast h.2
        have ht2 : evs.any (Event.isTriggerOf 0) = false := by simpa using ht
        simp only [ht2, Bool.false_eq_true, if_false]
        omega
    · intro r hr
      rcases List.mem_cons.1 hr with h | h
      · rw [h]; exact hrec
      · exact hall r h

/-- C23: take a sequencer that holds the scenario pattern (default pattern of
length 16, only step 0 of track 0 armed, with `ALWAYS`), has the step interval
125 ms of 120 BPM and stands at position 0; `start` it at any `t0` and tick it
once per millisecond for 60000 ms, with any draws. The run returns; exactly
480 ticks process a step, each advancing the position by one modulo 16;
exactly 30 ticks log a trigger of track 0, and a tick does so exactly when it
processes a step at position 0; no tick logs a trigger of another track. -/
theorem one_minute_scenario (q : Sequencer) (t0 : Nat) (rnd : Nat → Nat → Nat)
    (hpat : q.pattern = scenarioPattern) (hint : q.stepInterval = 125)
    (hcs : q.currentStep = 0) :
    ∃ q1 recs, traceTicks (start q t0) (msTicks t0 rnd 0 60000) = some (q1, recs) ∧
      recs.length = 60000 ∧ advanceCount recs = 480 ∧ triggerCount 0 recs = 30 ∧
      (∀ r ∈ recs, ScenarioRecord r) ∧ q1.currentStep = 0 := by
  have hinv : ScenarioInv t0 (start q t0) 0 := by
    refine ⟨hpat, hint, rfl, ?_, ?_⟩
    · show t0 % ULONG_MOD = (t0 + 125 * (0 / 125)) % ULONG_MOD
      simp
    · show q.currentStep = _
      rw [hcs]
      rfl
  obtain ⟨q1, recs, htr, hinv1, hlen, hadv, htrig, hall⟩ :=
    scenario_trace t0 rnd 60000 0 (start q t0) hinv
  refine ⟨q1, recs, htr, hlen, ?_, ?_, hall, ?_⟩
  · omega
  · omega
  · rw [hinv1.2.2.2.2]
    rfl

/-- Witness for C23: the scenario sequencer started at `t0 = 1000`. -/
theorem one_minute_scenario_witness :
    scenarioSeq.pattern = scenarioPattern ∧ scenarioSeq.stepInterval = 125 ∧
    scenarioSeq.currentStep = 0 ∧ getTempo scenarioSeq = 120 ∧
    (traceTicks (start scenarioSeq 1000) (msTicks 1000 (fun _ _ => 0) 0 125)).map
        (fun r => (r.1.currentStep, advanceCount r.2, triggerCount 0 r.2)) = some (1, 1, 1) ∧
    ∃ q1 recs,
      traceTicks (start scenarioSeq 1000) (msTicks 1000 (fun _ _ => 0) 0 60000) =
        some (q1, recs) ∧
      recs.length = 60000 ∧ advanceCount recs = 480 ∧ triggerCount 0 recs = 30 ∧
      (∀ r ∈ recs, ScenarioRecord r) ∧ q1.currentStep = 0 :=
  ⟨rfl, rfl, rfl, by simp [getTempo, scenarioSeq, construct, scenarioPattern, defaultPattern],
    by decide,
    one_minute_scenario scenarioSeq 1000 (fun _ _ => 0) rfl rfl rfl⟩

/-! ## Loops of a pattern without probability conditions -/

theorem stepAt_condition_noProb {p : Pattern} (hnp : NoProbability p) {t : Fin MAX_TRACKS}
    {c : Int} {s : Step} (hs : stepAt p t c = some s) :
    s.condition ≠ TRIG_PROB_25 ∧ s.condition ≠ TRIG_PROB_50 ∧ s.condition ≠ TRIG_PROB_75 := by
  unfold stepAt at hs
  split at hs
  · cases hs
    exact hnp t _
  · cases hs

theorem verdict_raw_indep (q : Sequencer) (t : Fin MAX_TRACKS) (c : Int) (raw raw2 : Nat)
    (hnp : NoProbability q.pattern) :
    (evaluateTrigCondition q t c raw).map Prod.fst =
      (evaluateTrigCondition q t c raw2).map Prod.fst := by
  unfold evaluateTrigCondition
  cases hs : stepAt q.pattern t c with
  | none => rfl
  | some s =>
    obtain ⟨h1, h2, h3⟩ := stepAt_condition_noProb hnp hs
    cases ha : s.active
    · simp [ha]
    · cases hcond : s.condition <;> simp [ha, hcond] <;> simp_all

theorem trackLog_agree {qa qb : Sequencer} (rnda rndb : Nat → Nat) (t : Fin MAX_TRACKS)
    (hag : LoopAgree qa qb) (hnp : NoProbability qa.pattern) :
    trackLog qa rnda t = trackLog qb rndb t := by
  obtain ⟨hp, hf, hc, hk⟩ := hag
  have hv : (evaluateTrigCondition qa t qa.currentStep (rnda t.val)).map Prod.fst =
      (evaluateTrigCondition qb t qb.currentStep (rndb t.val)).map Prod.fst := by
    rw [verdict_raw_indep qa t qa.currentStep (rnda t.val) (rndb t.val) hnp, ← hc]
    exact (evaluateTrigCondition_verdict_congr qa qb t qa.currentStep (rndb t.val)
      hp.symm hf.symm (by rw [hk])).symm
  unfold trackLog firesNow
  rw [hv, hp, hc]

theorem tick_agree (qa qb : Sequencer) (nowa nowb : Nat) (rnda rndb : Nat → Nat)
    (hag : LoopAgree qa qb) (hb : InBounds qa) (hnp : NoProbability qa.pattern)
    (hda : stepDue qa nowa = true) (hdb : stepDue qb nowb = true) :
    ∃ qa1 qb1 evs, update qa nowa rnda = some (qa1, evs) ∧
      update qb nowb rndb = some (qb1, evs) ∧ LoopAgree qa1 qb1 ∧ InBounds qa1 ∧
      qa1.pattern = qa.pattern ∧ qa1.fillMode = qa.fillMode ∧
      qa1.currentStep = (qa.currentStep + 1) % (qa.pattern.length : Int) ∧
      (qa1.currentStep = 0 → ∀ t, qa1.triggerCounts t = 0) := by
  obtain ⟨hp, hf, hc, hk⟩ := hag
  obtain ⟨hlen, hmax, h0, h1⟩ := hb
  have h16 : qa.currentStep < (MAX_STEPS : Int) := by
    have : (qa.pattern.length : Int) ≤ (MAX_STEPS : Int) := by exact_mod_cast hmax
    omega
  unfold stepDue at hda hdb
  simp only [Bool.and_eq_true, decide_eq_true_eq] at hda hdb
  obtain ⟨_, qa3, ea, _, _, hupa, hqa3, _, hnexta, hcnta, _, _⟩ :=
    update_due_spec qa nowa rnda hda.1 hda.2 h0 h16 hlen
  obtain ⟨_, qb3, eb, _, _, hupb, hqb3, _, hnextb, hcntb, _, _⟩ :=
    update_due_spec qb nowb rndb hdb.1 hdb.2 (by rw [← hc]; exact h0)
      (by rw [← hc]; exact h16) (by rw [← hp]; exact hlen)
  obtain ⟨qa1', hloga⟩ := update_log qa nowa rnda hda.1 hda.2 h0 h16 hlen
  obtain ⟨qb1', hlogb⟩ := update_log qb nowb rndb hdb.1 hdb.2 (by rw [← hc]; exact h0)
      (by rw [← hc]; exact h16) (by rw [← hp]; exact hlen)
  have hmap : (List.finRange MAX_TRACKS).map (trackLog qa rnda) =
      (List.finRange MAX_TRACKS).map (trackLog qb rndb) := by
    apply List.map_congr_left
    intro u _
    exact trackLog_agree rnda rndb u ⟨hp, hf, hc, hk⟩ hnp
  have hea : ea = ((List.finRange MAX_TRACKS).map (trackLog qa rnda)).flatten := by
    rw [hupa] at hloga
    exact (Prod.mk.inj (Option.some.inj hloga)).2
  have heb : eb = ((List.finRange MAX_TRACKS).map (trackLog qa rnda)).flatten := by
    rw [hupb] at hlogb
    rw [hmap]
    exact (Prod.mk.inj (Option.some.inj hlogb)).2
  have hcs : qa3.currentStep = qb3.currentStep := by
    rw [hnexta, hnextb, hp, hc]
  have hpa : qa3.pattern = qa.pattern := by rw [hqa3]
  have hpb : qb3.pattern = qb.pattern := by rw [hqb3]
  have hzero : qa3.currentStep = 0 → ∀ t, qa3.triggerCounts t = 0 := by
    intro hz t
    obtain ⟨s, hs⟩ := stepAt_of_bounds qa.pattern t qa.currentStep h0 h16
    rw [hcnta t s hs, if_pos hz]
  refine ⟨qa3, qb3, ea, hupa, by rw [hupb, heb, hea], ⟨?_, ?_, hcs, ?_⟩, ⟨?_, ?_, ?_, ?_⟩,
    hpa, by rw [hqa3], hnexta, hzero⟩
  · rw [hpa, hpb, hp]
  · rw [hqa3, hqb3]; exact hf
  · funext t
    obtain ⟨s, hs⟩ := stepAt_of_bounds qa.pattern t qa.currentStep h0 h16
    have hsb : stepAt qb.pattern t qb.currentStep = some s := by rw [← hp, ← hc]; exact hs
    rw [hcnta t s hs, hcntb t s hsb, hcs, hp, hk]
  · rw [hpa]; exact hlen
  · rw [hpa]; exact hmax
  · rw [hnexta]; exact Int.emod_nonneg _ (by omega)
  · rw [hnexta, hpa]; exact Int.emod_lt_of_pos _ (by omega)

theorem allDue_cons {q : Sequencer} {tk : Nat × (Nat → Nat)} {rest : List (Nat × (Nat → Nat))}
    (h : allDue q (tk :: rest) = true) {q1 : Sequencer} {evs : List Event}
    (hup : update q tk.1 tk.2 = some (q1, evs)) :
    stepDue q tk.1 = true ∧ allDue q1 rest = true := by
  unfold allDue at h
  rw [hup] at h
  simpa using h

theorem loop_agree :
    ∀ (ta tb : List (Nat × (Nat → Nat))) (qa qb : Sequencer), ta.length = tb.length →
      LoopAgree qa qb → InBounds qa → NoProbability qa.pattern →
      allDue qa ta = true → allDue qb tb = true →
      ∃ qa1 qb1 evs, runOps qa (tickOps ta) = some (qa1, evs) ∧
        runOps qb (tickOps tb) = some (qb1, evs) ∧ LoopAgree qa1 qb1 ∧ InBounds qa1 ∧
        qa1.pattern = qa.pattern ∧ qa1.fillMode = qa.fillMode ∧
        qa1.currentStep =
          (qa.currentStep + (ta.length : Int)) % (qa.pattern.length : Int) ∧
        (ta ≠ [] → qa1.currentStep = 0 → ∀ t, qa1.triggerCounts t = 0) := by
  intro ta
  induction ta with
  | nil =>
    intro tb qa qb hlen hag hb _ _ _
    have htb : tb = [] := List.length_eq_zero.1 hlen.symm
    subst htb
    refine ⟨qa, qb, [], rfl, rfl, hag, hb, rfl, rfl, ?_, fun h => absurd rfl h⟩
    obtain ⟨hl, _, h0, h1⟩ := hb
    simp only [List.length_nil, Int.natCast_zero, add_zero]
    exact (Int.emod_eq_of_lt h0 h1).symm
  | cons tka resta ih =>
    intro tb qa qb hlen hag hb hnp hda hdb
    cases tb with
    | nil => simp at hlen
    | cons tkb restb =>
      have hda1 : stepDue qa tka.1 = true := by
        unfold allDue at hda
        simp only [Bool.and_eq_true] at hda
        exact hda.1
      have hdb1 : stepDue qb tkb.1 = true := by
        unfold allDue at hdb
        simp only [Bool.and_eq_true] at hdb
        exact hdb.1
      obtain ⟨qa1, qb1, e1, hupa, hupb, hag1, hb1, hpat1, hfill1, hcs1, hz1⟩ :=
        tick_agree qa qb tka.1 tkb.1 tka.2 tkb.2 hag hb hnp hda1 hdb1
      have hresta := (allDue_cons hda hupa).2
      have hrestb := (allDue_cons hdb hupb).2
      obtain ⟨qa2, qb2, e2, hra, hrb, hag2, hb2, hpat2, hfill2, hcs2, hz2⟩ :=
        ih restb qa1 qb1 (by simpa using hlen) hag1 hb1 (by rw [hpat1]; exact hnp)
          hresta hrestb
      have hra' : runOps qa1 (List.map (fun p => Op.update p.1 p.2) resta) = some (qa2, e2) :=
        hra
      have hrb' : runOps qb1 (List.map (fun p => Op.update p.1 p.2) restb) = some (qb2, e2) :=
        hrb
      refine ⟨qa2, qb2, e1 ++ e2, ?_, ?_, hag2, hb2, hpat2.trans hpat1, hfill2.trans hfill1,
        ?_, ?_⟩
      · simp [tickOps, runOps, applyOp, hupa, hra']
      · simp [tickOps, runOps, applyOp, hupb, hrb']
      · rw [hcs2, hcs1, hpat1]
        simp only [List.length_cons, Nat.cast_add, Nat.cast_one]
        rw [Int.emod_add_emod]
        congr 1
        ring
      · intro _ hzero
        by_cases hr : resta = []
        · subst hr
          simp only [tickOps, List.map_nil, runOps] at hra
          have hq : qa1 = qa2 := (Prod.mk.inj (Option.some.inj hra)).1
          rw [← hq] at hzero ⊢
          exact hz1 hzero
        · exact hz2 hr hzero

/-- C29: take a pattern without probability conditions and two states with
that pattern and the same fill mode, both at position 0 with all counters
zero (the first inside the table), and run each through `pattern.length`
ticks that all process a step, at any times and with any draws. Both runs
return, both end at position 0 with all counters zero and the pattern and fill
mode unchanged, and they log the same lines. The end state of a loop is again
such a start state, so every loop logs what the first loop logged. -/
theorem loops_identical (qa qb : Sequencer) (ta tb : List (Nat × (Nat → Nat)))
    (hb : InBounds qa) (hnp : NoProbability qa.pattern)
    (hpat : qb.pattern = qa.pattern) (hfill : qb.fillMode = qa.fillMode)
    (hca : qa.currentStep = 0) (hza : ∀ t, qa.triggerCounts t = 0)
    (hcb : qb.currentStep = 0) (hzb : ∀ t, qb.triggerCounts t = 0)
    (hla : ta.length = qa.pattern.length) (hlb : tb.length = qa.pattern.length)
    (hda : allDue qa ta = true) (hdb : allDue qb tb = true) :
    ∃ qa1 qb1 evs, runOps qa (tickOps ta) = some (qa1, evs) ∧
      runOps qb (tickOps tb) = some (qb1, evs) ∧
      qa1.currentStep = 0 ∧ (∀ t, qa1.triggerCounts t = 0) ∧
      qa1.pattern = qa.pattern ∧ qa1.fillMode = qa.fillMode ∧ InBounds qa1 ∧
      qb1.currentStep = 0 ∧ (∀ t, qb1.triggerCounts t = 0) ∧
      qb1.pattern = qa.pattern ∧ qb1.fillMode = qa.fillMode := by
  have hag : LoopAgree qa qb := by
    refine ⟨hpat.symm, hfill.symm, by rw [hca, hcb], ?_⟩
    funext t
    rw [hza t, hzb t]
  obtain ⟨qa1, qb1, evs, hra, hrb, hag1, hb1, hp1, hf1, hcs1, hz1⟩ :=
    loop_agree ta tb qa qb (by rw [hla, hlb]) hag hb hnp hda hdb
  have hne : ta ≠ [] := by
    intro h
    rw [h] at hla
    have := hb.1
    simp at hla
    omega
  have hzero : qa1.currentStep = 0 := by
    rw [hcs1, hca, hla]
    simp
  have hcounts := hz1 hne hzero
  obtain ⟨hp, hf, hc, hk⟩ := hag1
  refine ⟨qa1, qb1, evs, hra, hrb, hzero, hcounts, hp1, hf1, hb1, ?_, ?_, ?_, ?_⟩
  · rw [← hc]; exact hzero
  · intro t
    rw [← hk]; exact hcounts t
  · rw [← hp]; exact hp1
  · rw [← hf]; exact hf1

/-- Witness for C29: one loop of the sample sequencer, whose track 0 mixes
`ALWAYS`, ordinal, fill, `PRE` and `NEI` steps, against one loop of the same
pattern run later with other times and draws; the loop logs the triggers of
steps 0, 4, 5 and 6 of track 0. -/
theorem loops_identical_witness :
    InBounds sampleSeq ∧ NoProbability sampleSeq.pattern ∧
    allDue sampleSeq loopTicks = true ∧ allDue sampleSeqLater laterTicks = true ∧
    (runOps sampleSeq (tickOps loopTicks)).map
        (fun r => r.2.map fun e => (e.triggerTrack, e.stepOf)) =
      some [(some 0, some 0), (some 0, some 4), (some 0, some 5), (some 0, some 6)] ∧
    ∃ qa1 qb1 evs, runOps sampleSeq (tickOps loopTicks) = some (qa1, evs) ∧
      runOps sampleSeqLater (tickOps laterTicks) = some (qb1, evs) ∧
      qa1.currentStep = 0 ∧ (∀ t, qa1.triggerCounts t = 0) ∧
      qa1.pattern = sampleSeq.pattern ∧ qa1.fillMode = sampleSeq.fillMode ∧ InBounds qa1 ∧
      qb1.currentStep = 0 ∧ (∀ t, qb1.triggerCounts t = 0) ∧
      qb1.pattern = sampleSeq.pattern ∧ qb1.fillMode = sampleSeq.fillMode :=
  ⟨by unfold InBounds; decide, by unfold NoProbability; decide, by decide, by decide,
    by decide,
    loops_identical sampleSeq sampleSeqLater loopTicks laterTicks
      (by unfold InBounds; decide) (by unfold NoProbability; decide) rfl rfl rfl
      (fun _ => rfl) rfl (fun _ => rfl) (by decide) (by decide) (by decide) (by decide)⟩

/-! ## Frame of the public operations -/

theorem modifyTrack_length {p p1 : Pattern} {track : Int} {f : Track → Track}
    (h : modifyTrack p track f = some p1) : p1.length = p.length := by
  unfold modifyTrack at h
  split at h
  · simp only [Option.some.injEq] at h
    rw [← h]
  · cases h

theorem modifyStep_length {p p1 : Pattern} {track step : Int} {f : Step → Step}
    (h : modifyStep p track step f = some p1) : p1.length = p.length := by
  unfold modifyStep at h
  split at h
  · exact modifyTrack_length h
  · cases h

theorem samePlace_refl (q : Sequencer) : SamePlace q q := ⟨rfl, rfl, Or.inl rfl⟩

theorem withPattern_place {q q1 : Sequencer} {p : Option Pattern}
    (h : withPattern q p = some q1)
    (hlen : ∀ p1, p = some p1 → p1.length = q.pattern.length) : SamePlace q q1 := by
  unfold withPattern at h
  simp only [Option.map_eq_some'] at h
  obtain ⟨p1, hp, h2⟩ := h
  rw [← h2]
  exact ⟨rfl, rfl, Or.inl (hlen p1 hp)⟩

theorem trackEdit_place {c : Prop} [Decidable c] {q q1 : Sequencer} {track : Int}
    {f : Track → Track}
    (h : (if c then withPattern q (modifyTrack q.pattern track f) else some q) = some q1) :
    SamePlace q q1 := by
  split at h
  · exact withPattern_place h fun _ hp => modifyTrack_length hp
  · cases h; exact samePlace_refl q

theorem stepEdit_place {c : Prop} [Decidable c] {q q1 : Sequencer} {track step : Int}
    {f : Step → Step}
    (h : (if c then withPattern q (modifyStep q.pattern track step f) else some q) = some q1) :
    SamePlace q q1 := by
  split at h
  · exact withPattern_place h fun _ hp => modifyStep_length hp
  · cases h; exact samePlace_refl q

theorem calculateStepInterval_place {q q1 : Sequencer}
    (h : calculateStepInterval q = some q1) :
    q1.currentStep = q.currentStep ∧ q1.triggerCounts = q.triggerCounts ∧
      q1.pattern = q.pattern := by
  unfold calculateStepInterval at h
  simp only [Option.map_eq_some'] at h
  obtain ⟨_, _, h2⟩ := h
  rw [← h2]
  exact ⟨rfl, rfl, rfl⟩

theorem applyOp_place (q : Sequencer) (op : Op) (q1 : Sequencer) (evs : List Event)
    (h : applyOp q op = some (q1, evs)) (hstop : op ≠ Op.stop) (hreset : op ≠ Op.reset)
    (hupd : ∀ now rnd, op ≠ Op.update now rnd) (hpos : ∀ st, op ≠ Op.setPosition st) :
    SamePlace q q1 := by
  cases op with
  | update now rnd => exact absurd rfl (hupd now rnd)
  | stop => exact absurd rfl hstop
  | reset => exact absurd rfl hreset
  | setPosition st => exact absurd rfl (hpos st)
  | begin b =>
    simp only [applyOp, begin, Option.map_eq_some', Prod.mk.injEq] at h
    obtain ⟨_, ⟨r, hr, h2⟩, h3, _⟩ := h
    rw [← h3, ← h2]
    obtain ⟨hc, hk, hp⟩ := calculateStepInterval_place hr
    exact ⟨hc, hk, Or.inl (by show r.pattern.length = _; rw [hp])⟩
  | setTempo b =>
    simp only [applyOp, setTempo, Option.map_eq_some', Prod.mk.injEq] at h
    obtain ⟨_, hr, h3, _⟩ := h
    rw [← h3]
    obtain ⟨hc, hk, hp⟩ := calculateStepInterval_place hr
    exact ⟨hc, hk, Or.inl (by rw [hp])⟩
  | adjustSwing d =>
    simp only [applyOp, adjustSwing, Option.map_eq_some', Prod.mk.injEq] at h
    obtain ⟨_, hr, h3, _⟩ := h
    rw [← h3]
    split at hr
    · cases hr
    · obtain ⟨hc, hk, hp⟩ := calculateStepInterval_place hr
      exact ⟨hc, hk, Or.inl (by rw [hp])⟩
  | start now =>
    simp only [applyOp, Option.some.injEq, Prod.mk.injEq] at h
    rw [← h.1]; exact ⟨rfl, rfl, Or.inl rfl⟩
  | pause =>
    simp only [applyOp, Option.some.injEq, Prod.mk.injEq] at h
    rw [← h.1]; exact ⟨rfl, rfl, Or.inl rfl⟩
  | selectTrack t =>
    simp only [applyOp, Option.some.injEq, Prod.mk.injEq] at h
    rw [← h.1]
    unfold selectTrack
    split
    · exact ⟨rfl, rfl, Or.inl rfl⟩
    · exact samePlace_refl q
  | loadPattern n =>
    simp only [applyOp, Option.some.injEq, Prod.mk.injEq] at h
    rw [← h.1]; exact ⟨rfl, rfl, Or.inl rfl⟩
  | savePattern n =>
    simp only [applyOp, Option.some.injEq, Prod.mk.injEq] at h
    rw [← h.1]; exact samePlace_refl q
  | copyPattern a b =>
    simp only [applyOp, Option.some.injEq, Prod.mk.injEq] at h
    rw [← h.1]; exact samePlace_refl q
  | clearPattern =>
    simp only [applyOp, Option.some.injEq, Prod.mk.injEq] at h
    rw [← h.1]; exact ⟨rfl, rfl, Or.inr rfl⟩
  | setFillMode e =>
    simp only [applyOp, Option.some.injEq, Prod.mk.injEq] at h
    rw [← h.1]; exact ⟨rfl, rfl, Or.inl rfl⟩
  | muteTrack t =>
    simp only [applyOp, muteTrack, Option.map_eq_some', Prod.mk.injEq] at h
    obtain ⟨_, hr, h3, _⟩ := h
    rw [← h3]; exact trackEdit_place hr
  | unmuteTrack t =>
    simp only [applyOp, unmuteTrack, Option.map_eq_some', Prod.mk.injEq] at h
    obtain ⟨_, hr, h3, _⟩ := h
    rw [← h3]; exact trackEdit_place hr
  | soloTrack t =>
    simp only [applyOp, soloTrack, Option.map_eq_some', Prod.mk.injEq] at h
    obtain ⟨_, hr, h3, _⟩ := h
    rw [← h3]; exact trackEdit_place hr
  | unsoloTrack t =>
    simp only [applyOp, unsoloTrack, Option.map_eq_some', Prod.mk.injEq] at h
    obtain ⟨_, hr, h3, _⟩ := h
    rw [← h3]; exact trackEdit_place hr
  | toggleStep st =>
    simp only [applyOp, toggleStep, Option.map_eq_some', Prod.mk.injEq] at h
    obtain ⟨_, hr, h3, _⟩ := h
    rw [← h3]; exact stepEdit_place hr
  | setStep t st a =>
    simp only [applyOp, setStep, Option.map_eq_some', Prod.mk.injEq] at h
    obtain ⟨_, hr, h3, _⟩ := h
    rw [← h3]; exact stepEdit_place hr
  | setTrigCondition t st c =>
    simp only [applyOp, setTrigCondition, Option.map_eq_some', Prod.mk.injEq] at h
    obtain ⟨_, hr, h3, _⟩ := h
    rw [← h3]; exact stepEdit_place hr
  | clearAllParamLocks t st =>
    simp only [applyOp, clearAllParamLocks, Option.map_eq_some', Prod.mk.injEq] at h
    obtain ⟨_, hr, h3, _⟩ := h
    rw [← h3]; exact stepEdit_place hr
  | setParamLock t st p v =>
    simp only [applyOp, setParamLock, Option.map_eq_some', Prod.mk.injEq] at h
    obtain ⟨_, hr, h3, _⟩ := h
    rw [← h3]
    split at hr
    · exact withPattern_place hr fun _ hp => modifyStep_length hp
    · cases hr; exact samePlace_refl q
  | clearParamLock t st p =>
    simp only [applyOp, clearParamLock, Option.map_eq_some', Prod.mk.injEq] at h
    obtain ⟨_, hr, h3, _⟩ := h
    rw [← h3]
    split at hr
    · exact withPattern_place hr fun _ hp => modifyStep_length hp
    · cases hr; exact samePlace_refl q

theorem applyOp_length (q : Sequencer) (op : Op) (q1 : Sequencer) (evs : List Event)
    (h : applyOp q op = some (q1, evs)) :
    q1.pattern.length = q.pattern.length ∨ q1.pattern.length = MAX_STEPS := by
  by_cases hstop : op = Op.stop
  · subst hstop
    simp only [applyOp, Option.some.injEq, Prod.mk.injEq] at h
    rw [← h.1]; exact Or.inl rfl
  by_cases hreset : op = Op.reset
  · subst hreset
    simp only [applyOp, Option.some.injEq, Prod.mk.injEq] at h
    rw [← h.1]; exact Or.inl rfl
  by_cases hupd : ∃ now rnd, op = Op.update now rnd
  · obtain ⟨now, rnd, rfl⟩ := hupd
    have hf := update_frame q now rnd q1 evs h
    left
    rw [hf]
  by_cases hpos : ∃ st, op = Op.setPosition st
  · obtain ⟨st, rfl⟩ := hpos
    simp only [applyOp, setPosition, Option.map_eq_some', Prod.mk.injEq] at h
    obtain ⟨_, hr, h3, _⟩ := h
    rw [← h3]
    split at hr
    · cases hr
    · cases hr; exact Or.inl rfl
  exact (applyOp_place q op q1 evs h hstop hreset
    (fun now rnd he => hupd ⟨now, rnd, he⟩) (fun st he => hpos ⟨st, he⟩)).2.2

theorem runOps_length (n : Nat) :
    ∀ (ops : List Op) (q q1 : Sequencer) (evs : List Event),
      runOps q ops = some (q1, evs) →
      (q.pattern.length = n ∨ q.pattern.length = MAX_STEPS) →
      (q1.pattern.length = n ∨ q1.pattern.length = MAX_STEPS) := by
  intro ops
  induction ops with
  | nil =>
    intro q q1 evs h hq
    simp only [runOps, Option.some.injEq, Prod.mk.injEq] at h
    rw [← h.1]; exact hq
  | cons op ops ih =>
    intro q q1 evs h hq
    unfold runOps at h
    cases ha : applyOp q op with
    | none => simp [ha] at h
    | some r =>
      obtain ⟨q2, e2⟩ := r
      simp only [ha] at h
      cases hr : runOps q2 ops with
      | none => simp [hr] at h
      | some r2 =>
        obtain ⟨q3, e3⟩ := r2
        simp only [hr, Option.some.injEq, Prod.mk.injEq] at h
        rw [← h.1]
        refine ih q2 q3 e3 hr ?_
        rcases applyOp_length q op q2 e2 ha with h1 | h1
        · rw [h1]; exact hq
        · exact Or.inr h1

/-! ## Pattern length: claim -/

/-- C31: in every state that a sequence of public operations reaches from the
constructed sequencer, the pattern length is `MAX_STEPS` (no operation writes
it except `clearPattern`, which writes `MAX_STEPS`), so it lies in
1..`MAX_STEPS`; hence the modulo of the advance step of `update` and the modulo
of `setPosition` are defined, and every step index from 0 up to the length
lies inside the step table of every track. -/
theorem reachable_length_in_table (ops : List Op) (q : Sequencer) (evs : List Event)
    (hrun : runOps construct ops = some (q, evs)) :
    q.pattern.length = MAX_STEPS ∧
    1 ≤ q.pattern.length ∧ q.pattern.length ≤ MAX_STEPS ∧
    (∃ q3, advanceStep q = some q3) ∧
    (∀ step, ∃ q1, setPosition q step = some q1) ∧
    (∀ (t : Fin MAX_TRACKS) (i : Int), 0 ≤ i → i < (q.pattern.length : Int) →
      ∃ s, stepAt q.pattern t i = some s) := by
  have hlen : q.pattern.length = MAX_STEPS := by
    rcases runOps_length MAX_STEPS ops construct q evs hrun (Or.inl rfl) with h | h <;> exact h
  have hne : q.pattern.length ≠ 0 := by rw [hlen]; decide
  refine ⟨hlen, by rw [hlen]; decide, by rw [hlen], ?_, ?_, ?_⟩
  · unfold advanceStep
    rw [if_neg hne]
    simp only []
    split
    · exact ⟨_, rfl⟩
    · exact ⟨_, rfl⟩
  · intro step
    unfold setPosition
    rw [if_neg hne]
    exact ⟨_, rfl⟩
  · intro t i h0 h1
    rw [hlen] at h1
    exact stepAt_of_bounds q.pattern t i h0 h1

/-- Witness for C31: the editing and playing session runs from the
constructed sequencer and ends at step 10 with the length still 16. -/
theorem reachable_length_in_table_witness :
    (runOps construct sessionOps).map (fun r => (r.1.pattern.length, r.1.currentStep)) =
      some (16, 10) ∧
    ∃ q evs, runOps construct sessionOps = some (q, evs) ∧
      1 ≤ q.pattern.length ∧ q.pattern.length ≤ MAX_STEPS ∧
      (∃ q3, advanceStep q = some q3) ∧ (∀ step, ∃ q1, setPosition q step = some q1) := by
  refine ⟨by decide, ?_⟩
  obtain ⟨r, hr⟩ := Option.isSome_iff_exists.1
    (show (runOps construct sessionOps).isSome = true by decide)
  obtain ⟨q, evs⟩ := r
  have h := reachable_length_in_table sessionOps q evs hr
  exact ⟨q, evs, hr, h.2.1, h.2.2.1, h.2.2.2.1, h.2.2.2.2.1⟩

/-! ## Suppressed tracks -/

theorem evaluated_false_iff (p : Pattern) (t : Fin MAX_TRACKS) :
    evaluated p t = false ↔
      ((p.tracks t).muted = true ∨ (anySoloed p = true ∧ (p.tracks t).soloed = false)) := by
  unfold evaluated
  cases (p.tracks t).muted <;> cases anySoloed p <;> cases (p.tracks t).soloed <;> simp

theorem processTrack_skip (q : Sequencer) (rnd : Nat → Nat) (t : Fin MAX_TRACKS)
    (h : evaluated q.pattern t = false) : processTrack q rnd t = some (q, []) := by
  unfold processTrack
  rcases (evaluated_false_iff q.pattern t).1 h with hm | ⟨ha, hs⟩
  · simp [hm]
  · by_cases hm : (q.pattern.tracks t).muted = true
    · simp [hm]
    · simp [hm, ha, hs]

theorem processTrack_own (q : Sequencer) (rnd : Nat → Nat) (t : Fin MAX_TRACKS)
    (q1 : Sequencer) (evs : List Event) (h : processTrack q rnd t = some (q1, evs)) :
    ∀ e ∈ evs, ∀ u : Nat, e.isTriggerOf u = true → u = t.val := by
  by_cases hb : 0 ≤ q.currentStep ∧ q.currentStep < (MAX_STEPS : Int)
  · obtain ⟨q2, evs2, h2, _, _, _, _, hown, _⟩ := processTrack_spec q rnd t hb.1 hb.2
    rw [h] at h2
    simp only [Option.some.injEq, Prod.mk.injEq] at h2
    rw [h2.2]
    exact hown
  · by_cases hev : evaluated q.pattern t = false
    · rw [processTrack_skip q rnd t hev] at h
      simp only [Option.some.injEq, Prod.mk.injEq] at h
      rw [← h.2]
      simp
    · exfalso
      have hs : stepAt q.pattern t q.currentStep = none := by
        unfold stepAt
        rw [dif_neg hb]
      have hnone : evaluateTrigCondition q t q.currentStep (rnd t.val) = none := by
        simp [evaluateTrigCondition, hs]
      have hm : (q.pattern.tracks t).muted = false := by
        cases hmm : (q.pattern.tracks t).muted
        · rfl
        · exact absurd (evaluated_false_of_muted hmm) hev
      have hso : (anySoloed q.pattern && !(q.pattern.tracks t).soloed) = false := by
        cases ha : anySoloed q.pattern
        · rfl
        · cases hss : (q.pattern.tracks t).soloed
          · exact absurd (evaluated_false_of_solo ha hss) hev
          · rfl
      unfold processTrack at h
      rw [hm, hso, hnone] at h
      simp at h

theorem processTracks_suppressed (rnd : Nat → Nat) (t : Fin MAX_TRACKS) :
    ∀ (ts : List (Fin MAX_TRACKS)) (q q2 : Sequencer) (evs : List Event),
      processTracks rnd ts q = some (q2, evs) → evaluated q.pattern t = false →
      q2.triggerCounts t = q.triggerCounts t ∧ ∀ e ∈ evs, e.isTriggerOf t.val = false := by
  intro ts
  induction ts with
  | nil =>
    intro q q2 evs h _
    simp only [processTracks, Option.some.injEq, Prod.mk.injEq] at h
    rw [← h.1, ← h.2]
    exact ⟨rfl, by simp⟩
  | cons u ts ih =>
    intro q q2 evs h hsup
    unfold processTracks at h
    cases hp : processTrack q rnd u with
    | none => simp [hp] at h
    | some r =>
      obtain ⟨q1, e1⟩ := r
      simp only [hp] at h
      cases hr : processTracks rnd ts q1 with
      | none => simp [hr] at h
      | some r2 =>
        obtain ⟨q3, e3⟩ := r2
        simp only [hr, Option.some.injEq, Prod.mk.injEq] at h
        obtain ⟨hq, he⟩ := h
        subst hq
        subst he
        obtain ⟨hsame, hoth, _⟩ := processTrack_frame q rnd u q1 e1 hp
        have hpat : q1.pattern = q.pattern := sameButCounts_pattern hsame
        obtain ⟨hc3, he3⟩ := ih q1 q3 e3 hr (by rw [hpat]; exact hsup)
        have hc1 : q1.triggerCounts t = q.triggerCounts t ∧
            ∀ e ∈ e1, e.isTriggerOf t.val = false := by
          by_cases hut : u = t
          · subst hut
            rw [processTrack_skip q rnd u hsup] at hp
            simp only [Option.some.injEq, Prod.mk.injEq] at hp
            rw [← hp.1, ← hp.2]
            exact ⟨rfl, by simp⟩
          · refine ⟨hoth t (fun h => hut h.symm), ?_⟩
            intro e he
            cases hv : e.isTriggerOf t.val
            · rfl
            · exact absurd (Fin.ext (processTrack_own q rnd u q1 e1 hp e he t.val hv)).symm hut
        refine ⟨hc3.trans hc1.1, ?_⟩
        intro e he
        rcases List.mem_append.1 he with h1 | h1
        · exact hc1.2 e h1
        · exact he3 e h1

theorem processTracks_all_skipped (rnd : Nat → Nat) :
    ∀ (ts : List (Fin MAX_TRACKS)) (q : Sequencer),
      (∀ u ∈ ts, evaluated q.pattern u = false) → processTracks rnd ts q = some (q, []) := by
  intro ts
  induction ts with
  | nil => intro q _; rfl
  | cons u ts ih =>
    intro q h
    unfold processTracks
    rw [processTrack_skip q rnd u (h u (List.mem_cons_self u ts))]
    simp only []
    rw [ih q fun v hv => h v (List.mem_cons_of_mem u hv)]
    rfl

theorem stepDue_iff (q : Sequencer) (now : Nat) :
    stepDue q now = true ↔ q.running = true ∧ q.stepInterval ≤ elapsed q now := by
  simp [stepDue]

theorem update_of_due (q : Sequencer) (now : Nat) (rnd : Nat → Nat)
    (hd : stepDue q now = true) :
    update q now rnd =
      match processTracks rnd (List.finRange MAX_TRACKS)
          { q with lastStepTime := now % ULONG_MOD } with
      | none => none
      | some (q2, evs) => (advanceStep q2).map fun q3 => (q3, evs) := by
  obtain ⟨hrun, hdue⟩ := (stepDue_iff q now).1 hd
  unfold update
  have hr : (!q.running) = false := by simp [hrun]
  have hge : elapsed q now ≥ q.stepInterval := hdue
  rw [hr, if_neg (by simp), if_pos hge]

theorem update_not_due (q : Sequencer) (now : Nat) (rnd : Nat → Nat)
    (hd : stepDue q now = false) : update q now rnd = some (q, []) := by
  apply update_idle
  by_cases hr : q.running = true
  · right
    apply Nat.lt_of_not_le
    intro hle
    have := (stepDue_iff q now).2 ⟨hr, hle⟩
    rw [hd] at this
    cases this
  · left
    simpa using hr

theorem update_suppressed (q : Sequencer) (now : Nat) (rnd : Nat → Nat)
    (t : Fin MAX_TRACKS) (q1 : Sequencer) (evs : List Event)
    (hsup : evaluated q.pattern t = false) (h : update q now rnd = some (q1, evs)) :
    (∀ e ∈ evs, e.isTriggerOf t.val = false) ∧
    (q1.triggerCounts t = q.triggerCounts t ∨
      (stepDue q now = true ∧ q1.currentStep = 0 ∧ q1.triggerCounts t = 0)) := by
  cases hd : stepDue q now
  · rw [update_not_due q now rnd hd] at h
    simp only [Option.some.injEq, Prod.mk.injEq] at h
    rw [← h.1, ← h.2]
    exact ⟨by simp, Or.inl rfl⟩
  · rw [update_of_due q now rnd hd] at h
    cases hps : processTracks rnd (List.finRange MAX_TRACKS)
        { q with lastStepTime := now % ULONG_MOD } with
    | none => simp [hps] at h
    | some r =>
      obtain ⟨q2, e2⟩ := r
      simp only [hps, Option.map_eq_some', Prod.mk.injEq] at h
      obtain ⟨q3, hadv, hq3, he⟩ := h
      subst hq3
      subst he
      obtain ⟨hc, hev⟩ := processTracks_suppressed rnd t _ _ q2 e2 hps hsup
      refine ⟨hev, ?_⟩
      obtain ⟨hz, hnz⟩ := advanceStep_counts q2 q3 hadv
      by_cases h0 : q3.currentStep = 0
      · right
        exact ⟨rfl, h0, hz h0 t⟩
      · left
        rw [hnz h0]
        exact hc

/-! ## Mute and solo: claims -/

/-- C32: mute takes precedence over solo. A tick returns in every state whose
position and length are inside the table. Whenever a tick returns, in any
state at any step, it logs no trigger of a track that is both muted and
soloed. When some track is soloed and every soloed track is also muted, the
tick logs nothing at all: the muted tracks are skipped for being muted and all
others for not being soloed. -/
theorem mute_beats_solo (q : Sequencer) (now : Nat) (rnd : Nat → Nat) :
    (InBounds q → ∃ r, update q now rnd = some r) ∧
    (∀ (t : Fin MAX_TRACKS) (q1 : Sequencer) (evs : List Event),
      (q.pattern.tracks t).muted = true → (q.pattern.tracks t).soloed = true →
      update q now rnd = some (q1, evs) → ∀ e ∈ evs, e.isTriggerOf t.val = false) ∧
    ((∃ t, (q.pattern.tracks t).soloed = true) →
      (∀ t, (q.pattern.tracks t).soloed = true → (q.pattern.tracks t).muted = true) →
      q.pattern.length ≠ 0 → ∃ q1, update q now rnd = some (q1, [])) := by
  refine ⟨?_, ?_, ?_⟩
  · intro hb
    obtain ⟨q1, evs, hup, _⟩ := update_inBounds q now rnd hb
    exact ⟨(q1, evs), hup⟩
  · intro t q1 evs hm _ hup
    exact (update_suppressed q now rnd t q1 evs (evaluated_false_of_muted hm) hup).1
  · intro hex hall hlen
    obtain ⟨t0, ht0⟩ := hex
    have hany : anySoloed q.pattern = true := anySoloed_of_soloed t0 ht0
    have hsup : ∀ u : Fin MAX_TRACKS, evaluated q.pattern u = false := by
      intro u
      cases hs : (q.pattern.tracks u).soloed
      · exact evaluated_false_of_solo hany hs
      · exact evaluated_false_of_muted (hall u hs)
    cases hd : stepDue q now
    · exact ⟨q, update_not_due q now rnd hd⟩
    · rw [update_of_due q now rnd hd,
        processTracks_all_skipped rnd (List.finRange MAX_TRACKS)
          { q with lastStepTime := now % ULONG_MOD } (fun u _ => hsup u)]
      simp only []
      unfold advanceStep
      rw [if_neg hlen]
      simp only []
      split
      · exact ⟨_, rfl⟩
      · exact ⟨_, rfl⟩

/-- Witness for C32: track 0 is the only soloed track and is muted, and both
track 0 and track 1 stand on an active `ALWAYS` step. The due tick advances to
step 1 and logs nothing; once track 0 is unmuted the same tick logs the
trigger of track 0. -/
theorem mute_beats_solo_witness :
    InBounds mutedSoloSeq ∧ stepDue mutedSoloSeq 125 = true ∧
    (mutedSoloSeq.pattern.tracks 0).muted = true ∧
    (mutedSoloSeq.pattern.tracks 0).soloed = true ∧
    (update mutedSoloSeq 125 (fun _ => 0)).map (fun r => (r.1.currentStep, r.2.length)) =
      some (1, 0) ∧
    ((unmuteTrack mutedSoloSeq 0).bind fun q => update q 125 (fun _ => 0)).map
        (fun r => r.2.map fun e => (e.triggerTrack, e.stepOf)) = some [(some 0, some 0)] ∧
    (∃ r, update mutedSoloSeq 125 (fun _ => 0) = some r) ∧
    (∃ q1, update mutedSoloSeq 125 (fun _ => 0) = some (q1, [])) :=
  ⟨by unfold InBounds; decide, by decide, by decide, by decide, by decide, by decide,
    (mute_beats_solo mutedSoloSeq 125 (fun _ => 0)).1 (by unfold InBounds; decide),
    (mute_beats_solo mutedSoloSeq 125 (fun _ => 0)).2.2 ⟨0, by decide⟩ (by decide)
      (by decide)⟩

/-! ## Suppressed tracks and the ordinal counter -/

theorem modifyTrack_fin (p : Pattern) (t : Fin MAX_TRACKS) (f : Track → Track) :
    modifyTrack p (t.val : Int) f =
      some { p with tracks := Function.update p.tracks t (f (p.tracks t)) } := by
  have hlt : (t.val : Int) < (MAX_TRACKS : Int) := by exact_mod_cast t.isLt
  have h : 0 ≤ (t.val : Int) ∧ (t.val : Int) < (MAX_TRACKS : Int) := ⟨by omega, hlt⟩
  unfold modifyTrack
  rw [dif_pos h]
  have hi : (⟨(t.val : Int).toNat, by omega⟩ : Fin MAX_TRACKS) = t := Fin.ext (by simp)
  simp only [hi]

theorem trackOk_fin (t : Fin MAX_TRACKS) : trackOk (t.val : Int) := by
  have hlt : (t.val : Int) < (MAX_TRACKS : Int) := by exact_mod_cast t.isLt
  exact ⟨by omega, hlt⟩

theorem muteTrack_fin (q : Sequencer) (t : Fin MAX_TRACKS) :
    muteTrack q (t.val : Int) = some { q with pattern := withMuted q.pattern t true } := by
  unfold muteTrack
  rw [if_pos (trackOk_fin t), modifyTrack_fin]
  rfl

theorem unmuteTrack_fin (q : Sequencer) (t : Fin MAX_TRACKS) :
    unmuteTrack q (t.val : Int) = some { q with pattern := withMuted q.pattern t false } := by
  unfold unmuteTrack
  rw [if_pos (trackOk_fin t), modifyTrack_fin]
  rfl

theorem withMuted_undo (p : Pattern) (t : Fin MAX_TRACKS)
    (h : (p.tracks t).muted = false) : withMuted (withMuted p t true) t false = p := by
  obtain ⟨len, sw, bpm, tracks⟩ := p
  simp only [withMuted, Function.update_same, Function.update_idem]
  congr 1
  funext u
  by_cases hu : u = t
  · subst hu
    simp only [Function.update_same]
    simp only [] at h
    rw [← h]
  · simp only [Function.update_noteq hu]

theorem evaluated_withMuted (p : Pattern) (t : Fin MAX_TRACKS) :
    evaluated (withMuted p t true) t = false := by
  apply evaluated_false_of_muted
  simp [withMuted]

theorem ordinal_verdict (q : Sequencer) (t : Fin MAX_TRACKS) (st : Int) (raw : Nat)
    (s : Step) (k : Nat) (hs : stepAt q.pattern t st = some s) (ha : s.active = true)
    (hk : ordinalOf s.condition = some k) :
    (evaluateTrigCondition q t st raw).map Prod.fst =
      some (decide ((q.triggerCounts t + 1) % U8_MOD = k)) := by
  cases hcond : s.condition <;> rw [hcond] at hk <;> simp [ordinalOf] at hk
  all_goals simp [evaluateTrigCondition, hs, ha, hcond, bumpCount, ← hk]

/-- C33: a suppressed track is not evaluated. A tick returns in every state
whose position and length are inside the table. Whenever a tick returns and
the track is muted, or is not soloed while some track is soloed, the tick logs
no trigger of the track and leaves its counter as it was, whatever the step
under the position holds, unless the tick wraps to position 0, which zeroes
the counter. Consequently a mute changes the later ordinal steps: when an
evaluated track stands on an active ordinal step that does not end the loop,
the plain tick leaves its counter one higher than the same tick run between
`muteTrack` and `unmuteTrack`, with the same pattern and position afterwards,
so the next active ordinal step of the track is judged against different
counts in the two runs and cannot fire in both. -/
theorem suppressed_track_not_counted :
    (∀ (q : Sequencer) (now : Nat) (rnd : Nat → Nat) (t : Fin MAX_TRACKS),
      ((q.pattern.tracks t).muted = true ∨
        (anySoloed q.pattern = true ∧ (q.pattern.tracks t).soloed = false)) →
      (InBounds q → ∃ r, update q now rnd = some r) ∧
      ∀ q1 evs, update q now rnd = some (q1, evs) →
        (∀ e ∈ evs, e.isTriggerOf t.val = false) ∧
        (q1.triggerCounts t = q.triggerCounts t ∨
          (stepDue q now = true ∧ q1.currentStep = 0 ∧ q1.triggerCounts t = 0))) ∧
    (∀ (q : Sequencer) (now : Nat) (rnd : Nat → Nat) (t : Fin MAX_TRACKS) (s : Step),
      InBounds q → stepDue q now = true → evaluated q.pattern t = true →
      stepAt q.pattern t q.currentStep = some s → countsStep s = true →
      q.currentStep + 1 < (q.pattern.length : Int) →
      ∃ qa ea qb eb,
        runOps q [Op.update now rnd] = some (qa, ea) ∧
        runOps q [Op.muteTrack t.val, Op.update now rnd, Op.unmuteTrack t.val] =
          some (qb, eb) ∧
        qa.pattern = q.pattern ∧ qb.pattern = q.pattern ∧
        qa.currentStep = q.currentStep + 1 ∧ qb.currentStep = q.currentStep + 1 ∧
        qa.triggerCounts t = (q.triggerCounts t + 1) % U8_MOD ∧
        qb.triggerCounts t = q.triggerCounts t ∧
        (∀ e ∈ eb, e.isTriggerOf t.val = false) ∧
        ∀ (st : Int) (s2 : Step) (k raw : Nat),
          stepAt q.pattern t st = some s2 → s2.active = true →
          ordinalOf s2.condition = some k →
          (evaluateTrigCondition qa t st raw).map Prod.fst =
            some (decide (((q.triggerCounts t + 1) % U8_MOD + 1) % U8_MOD = k)) ∧
          (evaluateTrigCondition qb t st raw).map Prod.fst =
            some (decide ((q.triggerCounts t + 1) % U8_MOD = k)) ∧
          ((evaluateTrigCondition qa t st raw).map Prod.fst = some true →
            (evaluateTrigCondition qb t st raw).map Prod.fst = some false)) := by
  constructor
  · intro q now rnd t hsup
    constructor
    · intro hb
      obtain ⟨q1, evs, hup, _⟩ := update_inBounds q now rnd hb
      exact ⟨(q1, evs), hup⟩
    · intro q1 evs hup
      exact update_suppressed q now rnd t q1 evs ((evaluated_false_iff q.pattern t).2 hsup) hup
  · intro q now rnd t s hb hd hev hs hc hnw
    obtain ⟨hlen, hmax, h0, h1⟩ := hb
    obtain ⟨hrun, hdue⟩ := (stepDue_iff q now).1 hd
    have hmaxZ : (q.pattern.length : Int) ≤ 16 := by exact_mod_cast hmax
    have h16 : q.currentStep < (MAX_STEPS : Int) := by
      show q.currentStep < ((16 : Nat) : Int)
      omega
    have hmod : (q.currentStep + 1) % (q.pattern.length : Int) = q.currentStep + 1 :=
      Int.emod_eq_of_lt (by omega) hnw
    have hm : (q.pattern.tracks t).muted = false := by
      cases hmm : (q.pattern.tracks t).muted
      · rfl
      · rw [evaluated_false_of_muted hmm] at hev
        cases hev
    -- the plain tick
    obtain ⟨_, qa, ea, _, _, hupa, hqa, _, hnexta, hcnta, _, _⟩ :=
      update_due_spec q now rnd hrun hdue h0 h16 hlen
    have hcsa : qa.currentStep = q.currentStep + 1 := by rw [hnexta, hmod]
    have hnza : qa.currentStep ≠ 0 := by rw [hcsa]; omega
    have hka : qa.triggerCounts t = (q.triggerCounts t + 1) % U8_MOD := by
      rw [hcnta t s hs, if_neg hnza]
      simp [hev, hc]
    have hpa : qa.pattern = q.pattern := by rw [hqa]
    -- the muted tick
    obtain ⟨qm, hqm⟩ : ∃ qm : Sequencer, qm = { q with pattern := withMuted q.pattern t true } :=
      ⟨_, rfl⟩
    have hmute : muteTrack q (t.val : Int) = some qm := by rw [hqm]; exact muteTrack_fin q t
    have hcsm : qm.currentStep = q.currentStep := by rw [hqm]
    have hlenm : qm.pattern.length = q.pattern.length := by rw [hqm]; rfl
    have hkm : qm.triggerCounts = q.triggerCounts := by rw [hqm]
    have hpm : qm.pattern = withMuted q.pattern t true := by rw [hqm]
    have hrunm : qm.running = true := by rw [hqm]; exact hrun
    have hduem : qm.stepInterval ≤ elapsed qm now := by rw [hqm]; exact hdue
    obtain ⟨_, qb1, eb, _, _, hupb, hqb, _, hnextb, hcntb, _, hiffb⟩ :=
      update_due_spec qm now rnd hrunm hduem (by rw [hcsm]; exact h0) (by rw [hcsm]; exact h16)
        (by rw [hlenm]; exact hlen)
    have hcsb : qb1.currentStep = q.currentStep + 1 := by rw [hnextb, hcsm, hlenm, hmod]
    have hnzb : qb1.currentStep ≠ 0 := by rw [hcsb]; omega
    have hevm : evaluated qm.pattern t = false := by rw [hpm]; exact evaluated_withMuted _ t
    obtain ⟨sm, hsm⟩ := stepAt_of_bounds qm.pattern t qm.currentStep
      (by rw [hcsm]; exact h0) (by rw [hcsm]; exact h16)
    have hkb : qb1.triggerCounts t = q.triggerCounts t := by
      rw [hcntb t sm hsm, if_neg hnzb, hevm, hkm]
      simp
    have hpb1 : qb1.pattern = withMuted q.pattern t true := by rw [hqb]; exact hpm
    have hnotrig : ∀ e ∈ eb, e.isTriggerOf t.val = false := by
      intro e he
      cases hv : e.isTriggerOf t.val
      · rfl
      · have hf := (hiffb t).1 ⟨e, he, hv⟩
        rw [hf.1] at hevm
        cases hevm
    -- the unmute
    obtain ⟨qb, hqbdef⟩ :
        ∃ qb : Sequencer, qb = { qb1 with pattern := withMuted qb1.pattern t false } := ⟨_, rfl⟩
    have hunmute : unmuteTrack qb1 (t.val : Int) = some qb := by
      rw [hqbdef]; exact unmuteTrack_fin qb1 t
    have hpb : qb.pattern = q.pattern := by
      rw [hqbdef]
      show withMuted qb1.pattern t false = q.pattern
      rw [hpb1, withMuted_undo q.pattern t hm]
    have hcsb2 : qb.currentStep = q.currentStep + 1 := by rw [hqbdef]; exact hcsb
    have hkb2 : qb.triggerCounts t = q.triggerCounts t := by rw [hqbdef]; exact hkb
    refine ⟨qa, ea, qb, eb, ?_, ?_, hpa, hpb, hcsa, hcsb2, hka, hkb2, hnotrig, ?_⟩
    · simp [runOps, applyOp, hupa]
    · simp [runOps, applyOp, hmute, hupb, hunmute]
    · intro st s2 k raw hs2 ha2 hk2
      have hva := ordinal_verdict qa t st raw s2 k (by rw [hpa]; exact hs2) ha2 hk2
      have hvb := ordinal_verdict qb t st raw s2 k (by rw [hpb]; exact hs2) ha2 hk2
      rw [hka] at hva
      rw [hkb2] at hvb
      refine ⟨hva, hvb, ?_⟩
      intro hta
      rw [hvb]
      rw [hva] at hta
      have h1 : ((q.triggerCounts t + 1) % U8_MOD + 1) % U8_MOD = k := by simpa using hta
      have h2 : ¬ ((q.triggerCounts t + 1) % U8_MOD = k) := by
        intro h3
        have hx : ((q.triggerCounts t + 1) % 256 + 1) % 256 = k := h1
        have hy : (q.triggerCounts t + 1) % 256 = k := h3
        omega
      simp [h2]

/-- Witness for C33 on the ordinal track (steps 0 `1ST`, 1 `ALWAYS`, 2 `2ND`,
3 `2ND`). Muted, the due tick on step 0 leaves the counter at 0 and logs
nothing. Unmuted, one loop fires steps 0, 1 and 2; with track 0 muted for the
first tick only, the loop fires steps 1 and 3 instead. -/
theorem suppressed_track_not_counted_witness :
    (mutedOrdinalSeq.pattern.tracks 0).muted = true ∧
    (stepAt mutedOrdinalSeq.pattern 0 mutedOrdinalSeq.currentStep).map countsStep =
      some true ∧
    (update mutedOrdinalSeq 125 (fun _ => 0)).map
        (fun r => (r.1.currentStep, r.1.triggerCounts 0, r.2.length)) = some (1, 0, 0) ∧
    (runOps ordinalSeq (tickOps loopTicks)).map
        (fun r => r.2.map fun e => (e.triggerTrack, e.stepOf)) =
      some [(some 0, some 0), (some 0, some 1), (some 0, some 2)] ∧
    (runOps ordinalSeq
        ([Op.muteTrack 0, Op.update 125 (fun _ => 0), Op.unmuteTrack 0] ++
          tickOps (loopTicks.drop 1))).map
        (fun r => r.2.map fun e => (e.triggerTrack, e.stepOf)) =
      some [(some 0, some 1), (some 0, some 3)] ∧
    (∃ r, update mutedOrdinalSeq 125 (fun _ => 0) = some r) ∧
    (∃ qa ea qb eb,
      runOps ordinalSeq [Op.update 125 (fun _ => 0)] = some (qa, ea) ∧
      runOps ordinalSeq [Op.muteTrack 0, Op.update 125 (fun _ => 0), Op.unmuteTrack 0] =
        some (qb, eb) ∧
      qa.triggerCounts 0 = 1 ∧ qb.triggerCounts 0 = 0) := by
  refine ⟨by decide, by decide, by decide, by decide, by decide, ?_, ?_⟩
  · exact (suppressed_track_not_counted.1 mutedOrdinalSeq 125 (fun _ => 0) 0
      (Or.inl (by decide))).1 (by unfold InBounds; decide)
  · obtain ⟨qa, ea, qb, eb, ha, hb, _, _, _, _, hka, hkb, _⟩ :=
      suppressed_track_not_counted.2 ordinalSeq 125 (fun _ => 0) 0 (ordinalSteps 0)
        (by unfold InBounds; decide) (by decide) (by decide) (by rfl) (by decide) (by decide)
    exact ⟨qa, ea, qb, eb, ha, hb, hka, hkb⟩

/-! ## A lone ordinal step -/

theorem stepAt_fin (p : Pattern) (t : Fin MAX_TRACKS) (i : Fin MAX_STEPS) :
    stepAt p t (i.val : Int) = some ((p.tracks t).steps i) := by
  have hlt : (i.val : Int) < (MAX_STEPS : Int) := by exact_mod_cast i.isLt
  have h : 0 ≤ (i.val : Int) ∧ (i.val : Int) < (MAX_STEPS : Int) := ⟨by omega, hlt⟩
  unfold stepAt
  rw [dif_pos h]
  have hi : (⟨(i.val : Int).toNat, by omega⟩ : Fin MAX_STEPS) = i := Fin.ext (by simp)
  simp only [hi]

theorem ordinalEvals_lone (p : Pattern) (t : Fin MAX_TRACKS) (j : Fin MAX_STEPS)
    (hone : LoneOrdinal p t j) :
    ∀ n : Nat, n ≤ MAX_STEPS → ordinalEvals p t n = if j.val < n then 1 else 0 := by
  intro n
  induction n with
  | zero => intro _; simp [ordinalEvals]
  | succ n ih =>
    intro hn
    have hlt : n < MAX_STEPS := hn
    have hs := stepAt_fin p t ⟨n, hlt⟩
    simp only [] at hs
    unfold ordinalEvals
    rw [ih (Nat.le_of_lt hlt), hs]
    simp only []
    by_cases hc : countsStep ((p.tracks t).steps ⟨n, hlt⟩) = true
    · have hj : (⟨n, hlt⟩ : Fin MAX_STEPS) = j := hone.2 _ hc
      have hjn : j.val = n := by rw [← hj]
      rw [if_pos hc, if_neg (by omega), if_pos (by omega)]
    · rw [if_neg hc]
      have hjn : j.val ≠ n := by
        intro h
        apply hc
        have : (⟨n, hlt⟩ : Fin MAX_STEPS) = j := Fin.ext h.symm
        rw [this]
        exact hone.1
      by_cases hlt2 : j.val < n
      · rw [if_pos hlt2, if_pos (by omega)]
      · rw [if_neg hlt2, if_neg (by omega)]

/-- C34: ordinal conditions count evaluations within one loop, not passes of
the pattern. Let step `j` be the only active ordinal-condition step of track
`t`, with condition `2ND`, `3RD` or `4TH`, in a state at position 0 with all
counters zero and the length inside the table. Then every run of ticks,
however many loops it spans, returns, keeps the pattern, never lets the
counter of the track pass 1, and logs no trigger of track `t` at step `j`. -/
theorem lone_late_ordinal_never_fires (q : Sequencer) (t : Fin MAX_TRACKS)
    (j : Fin MAX_STEPS) (ticks : List (Nat × (Nat → Nat)))
    (hb : InBounds q) (hcs : q.currentStep = 0) (hz : ∀ u, q.triggerCounts u = 0)
    (hone : LoneOrdinal q.pattern t j)
    (hcond : ((q.pattern.tracks t).steps j).condition = TRIG_2ND ∨
      ((q.pattern.tracks t).steps j).condition = TRIG_3RD ∨
      ((q.pattern.tracks t).steps j).condition = TRIG_4TH) :
    ∃ q1 evs, runOps q (tickOps ticks) = some (q1, evs) ∧ q1.pattern = q.pattern ∧
      q1.triggerCounts t ≤ 1 ∧
      ∀ e ∈ evs, e.isTriggerOf t.val = true → e.stepOf ≠ some (j.val : Int) := by
  have hcount : ∀ q2 : Sequencer, InBounds q2 → q2.pattern = q.pattern → CountsInSync q2 →
      q2.triggerCounts t = if evaluated q.pattern t = true then
        (if (j.val : Int) < q2.currentStep then 1 else 0) else 0 := by
    intro q2 hb2 hp2 hs2
    obtain ⟨_, hmax, h0, h1⟩ := hb2
    have hmaxZ : (q2.pattern.length : Int) ≤ 16 := by exact_mod_cast hmax
    have hle : q2.currentStep.toNat ≤ MAX_STEPS := by
      show q2.currentStep.toNat ≤ 16
      omega
    rw [hs2 t, hp2, ordinalEvals_lone q.pattern t j hone _ hle]
    by_cases hev : evaluated q.pattern t = true
    · rw [if_pos hev, if_pos hev]
      by_cases hlt : (j.val : Int) < q2.currentStep
      · rw [if_pos hlt, if_pos (by omega)]
      · rw [if_neg hlt, if_neg (by omega)]
    · rw [if_neg hev, if_neg hev]
  obtain ⟨q1, evs, hrun, ⟨hb1, hp1, hs1⟩, hE⟩ :=
    runOps_ticks_induct
      (fun q2 => InBounds q2 ∧ q2.pattern = q.pattern ∧ CountsInSync q2)
      (fun e => e.isTriggerOf t.val = true → e.stepOf ≠ some (j.val : Int))
      (by
        intro q2 now rnd ⟨hb2, hp2, hs2⟩
        obtain ⟨q3, evs3, hup, hb3, hp3, hs3⟩ := update_countsInSync q2 now rnd hb2 hs2
        refine ⟨q3, evs3, hup, ⟨hb3, hp3.trans hp2, hs3⟩, ?_⟩
        intro e he htrig hstep
        cases hd : stepDue q2 now
        · rw [update_not_due q2 now rnd hd] at hup
          simp only [Option.some.injEq, Prod.mk.injEq] at hup
          rw [← hup.2] at he
          simp at he
        · obtain ⟨hrun2, hdue2⟩ := (stepDue_iff q2 now).1 hd
          have hk2 := hcount q2 hb2 hp2 hs2
          obtain ⟨hlen, hmax, h0, h1⟩ := hb2
          have hmaxZ : (q2.pattern.length : Int) ≤ 16 := by exact_mod_cast hmax
          have h16 : q2.currentStep < (MAX_STEPS : Int) := by
            show q2.currentStep < ((16 : Nat) : Int)
            omega
          obtain ⟨_, q4, evs4, _, _, hup4, _, _, _, _, hsteps, hiff⟩ :=
            update_due_spec q2 now rnd hrun2 hdue2 h0 h16 hlen
          rw [hup] at hup4
          simp only [Option.some.injEq, Prod.mk.injEq] at hup4
          rw [← hup4.2] at hsteps hiff
          have hpos : q2.currentStep = (j.val : Int) := by
            rcases hsteps e he with h | h
            · rw [h] at hstep
              cases hstep
            · rw [h] at hstep
              simp only [Option.some.injEq] at hstep
              exact hstep
          obtain ⟨hev, hfire⟩ := (hiff t).1 ⟨e, he, htrig⟩
          have hev2 : evaluated q.pattern t = true := by rw [← hp2]; exact hev
          have hzero : q2.triggerCounts t = 0 := by
            rw [hk2, if_pos hev2, if_neg (by omega)]
          have hsj : stepAt q2.pattern t q2.currentStep = some ((q.pattern.tracks t).steps j) := by
            rw [hpos, hp2]
            exact stepAt_fin q.pattern t j
          have hact : ((q.pattern.tracks t).steps j).active = true := by
            have := hone.1
            simp only [countsStep, Bool.and_eq_true] at this
            exact this.1
          have hverdict : ∀ k : Nat, ordinalOf ((q.pattern.tracks t).steps j).condition = some k →
              k ≠ 1 → False := by
            intro k hk hne
            have hv := ordinal_verdict q2 t q2.currentStep (rnd t.val) _ k hsj hact hk
            rw [hzero] at hv
            rw [hv] at hfire
            simp only [Option.some.injEq, decide_eq_true_eq] at hfire
            exact hne hfire.symm
          rcases hcond with hc | hc | hc
          · exact hverdict 2 (by rw [hc]; rfl) (by decide)
          · exact hverdict 3 (by rw [hc]; rfl) (by decide)
          · exact hverdict 4 (by rw [hc]; rfl) (by decide))
      ticks q ⟨hb, rfl, countsInSync_of_fresh q hcs hz⟩
  refine ⟨q1, evs, hrun, hp1, ?_, hE⟩
  rw [hcount q1 hb1 hp1 hs1]
  split
  · split <;> omega
  · omega

/-- Witness for C34: track 0 holds an active `ALWAYS` step 0 and a lone active
`2ND` step 3. Over two loops step 0 fires twice and step 3 never. -/
theorem lone_late_ordinal_never_fires_witness :
    InBounds loneSecondSeq ∧ LoneOrdinal loneSecondSeq.pattern 0 3 ∧
    ((loneSecondSeq.pattern.tracks 0).steps 3).condition = TRIG_2ND ∧
    (runOps loneSecondSeq (tickOps twoLoopTicks)).map
        (fun r => (r.1.currentStep, r.2.map fun e => (e.triggerTrack, e.stepOf))) =
      some (0, [(some 0, some 0), (some 0, some 0)]) ∧
    ∃ q1 evs, runOps loneSecondSeq (tickOps twoLoopTicks) = some (q1, evs) ∧
      q1.pattern = loneSecondSeq.pattern ∧ q1.triggerCounts 0 ≤ 1 ∧
      ∀ e ∈ evs, e.isTriggerOf 0 = true → e.stepOf ≠ some 3 :=
  ⟨by unfold InBounds; decide, by unfold LoneOrdinal; decide, by decide, by decide,
    lone_late_ordinal_never_fires loneSecondSeq 0 3 twoLoopTicks (by unfold InBounds; decide)
      rfl (fun _ => rfl) (by unfold LoneOrdinal; decide) (Or.inl (by decide))⟩

/-! ## The counters and the position -/

theorem runOps_append (a b : List Op) :
    ∀ q : Sequencer, runOps q (a ++ b) =
      match runOps q a with
      | none => none
      | some (q1, e1) =>
        match runOps q1 b with
        | none => none
        | some (q2, e2) => some (q2, e1 ++ e2) := by
  induction a with
  | nil =>
    intro q
    simp only [List.nil_append, runOps]
    cases runOps q b with
    | none => rfl
    | some r => simp
  | cons op a ih =>
    intro q
    simp only [List.cons_append, runOps]
    cases applyOp q op with
    | none => rfl
    | some r =>
      obtain ⟨q1, e1⟩ := r
      simp only []
      rw [show a.append b = a ++ b from rfl, ih q1]
      cases runOps q1 a with
      | none => rfl
      | some r2 =>
        obtain ⟨q2, e2⟩ := r2
        simp only []
        cases runOps q2 b with
        | none => rfl
        | some r3 => simp

theorem update_counterBound (q : Sequencer) (now : Nat) (rnd : Nat → Nat) (q1 : Sequencer)
    (evs : List Event) (hI : CounterBound q) (h : update q now rnd = some (q1, evs)) :
    CounterBound q1 := by
  obtain ⟨hlen, h0, h1, hk⟩ := hI
  cases hd : stepDue q now
  · rw [update_not_due q now rnd hd] at h
    simp only [Option.some.injEq, Prod.mk.injEq] at h
    rw [← h.1]
    exact ⟨hlen, h0, h1, hk⟩
  · obtain ⟨hrun, hdue⟩ := (stepDue_iff q now).1 hd
    have h16 : q.currentStep < (MAX_STEPS : Int) := by
      show q.currentStep < ((16 : Nat) : Int)
      have : q.currentStep ≤ ((16 : Nat) : Int) - 1 := h1
      omega
    obtain ⟨_, q3, evs3, _, _, hup, hq3, _, hnext, hcnt, _, _⟩ :=
      update_due_spec q now rnd hrun hdue h0 h16 (by rw [hlen]; decide)
    rw [h] at hup
    simp only [Option.some.injEq, Prod.mk.injEq] at hup
    rw [← hup.1] at hq3 hnext hcnt
    have hpat : q1.pattern = q.pattern := by rw [hq3]
    have hnext2 : q1.currentStep = (q.currentStep + 1) % 16 := by
      rw [hnext, hlen]
      rfl
    have h16b : q.currentStep < 16 := h16
    refine ⟨by rw [hpat]; exact hlen, by omega, ?_, ?_⟩
    · show q1.currentStep ≤ ((16 : Nat) : Int) - 1
      omega
    · intro t
      obtain ⟨s, hs⟩ := stepAt_of_bounds q.pattern t q.currentStep h0 h16
      rw [hcnt t s hs]
      by_cases hz : q1.currentStep = 0
      · rw [if_pos hz, hz]
        simp
      · rw [if_neg hz]
        have hcs : q1.currentStep = q.currentStep + 1 := by omega
        have hkt := hk t
        have hmod : (q.triggerCounts t + 1) % U8_MOD ≤ q.triggerCounts t + 1 :=
          Nat.mod_le _ _
        split
        · rw [hcs]
          have : (((q.triggerCounts t + 1) % U8_MOD : Nat) : Int) ≤
              ((q.triggerCounts t + 1 : Nat) : Int) := by exact_mod_cast hmod
          omega
        · omega

theorem applyOp_counterBound (q : Sequencer) (op : Op) (q1 : Sequencer) (evs : List Event)
    (hI : CounterBound q) (hno : op.isSetPosition = false)
    (h : applyOp q op = some (q1, evs)) : CounterBound q1 := by
  by_cases hstop : op = Op.stop
  · subst hstop
    simp only [applyOp, Option.some.injEq, Prod.mk.injEq] at h
    rw [← h.1]
    exact ⟨hI.1, le_refl _, (by decide : (0 : Int) ≤ ((16 : Nat) : Int) - 1),
      fun _ => le_refl _⟩
  by_cases hreset : op = Op.reset
  · subst hreset
    simp only [applyOp, Option.some.injEq, Prod.mk.injEq] at h
    rw [← h.1]
    exact ⟨hI.1, le_refl _, (by decide : (0 : Int) ≤ ((16 : Nat) : Int) - 1),
      fun _ => le_refl _⟩
  by_cases hupd : ∃ now rnd, op = Op.update now rnd
  · obtain ⟨now, rnd, rfl⟩ := hupd
    exact update_counterBound q now rnd q1 evs hI h
  have hpos : ∀ st, op ≠ Op.setPosition st := by
    intro st he
    rw [he] at hno
    cases hno
  obtain ⟨hcs, hk, hlen⟩ := applyOp_place q op q1 evs h hstop hreset
    (fun now rnd he => hupd ⟨now, rnd, he⟩) hpos
  obtain ⟨hl, h0, h1, hkq⟩ := hI
  refine ⟨?_, by rw [hcs]; exact h0, by rw [hcs]; exact h1, ?_⟩
  · rcases hlen with h2 | h2
    · rw [h2]; exact hl
    · exact h2
  · intro t
    rw [hcs, hk]
    exact hkq t

theorem runOps_counterBound :
    ∀ (ops : List Op) (q q1 : Sequencer) (evs : List Event),
      (∀ op ∈ ops, op.isSetPosition = false) → CounterBound q →
      runOps q ops = some (q1, evs) → CounterBound q1 := by
  intro ops
  induction ops with
  | nil =>
    intro q q1 evs _ hq h
    simp only [runOps, Option.some.injEq, Prod.mk.injEq] at h
    rw [← h.1]; exact hq
  | cons op ops ih =>
    intro q q1 evs hno hq h
    unfold runOps at h
    cases ha : applyOp q op with
    | none => simp [ha] at h
    | some r =>
      obtain ⟨q2, e2⟩ := r
      simp only [ha] at h
      cases hr : runOps q2 ops with
      | none => simp [hr] at h
      | some r2 =>
        obtain ⟨q3, e3⟩ := r2
        simp only [hr, Option.some.injEq, Prod.mk.injEq] at h
        rw [← h.1]
        exact ih q2 q3 e3 (fun o ho => hno o (List.mem_cons_of_mem op ho))
          (applyOp_counterBound q op q2 e2 hq (hno op (List.mem_cons_self op ops)) ha) hr

theorem counterBound_construct : CounterBound construct :=
  ⟨rfl, le_refl _, by decide, fun _ => le_refl _⟩

theorem lockEvents_nil (s : Step) (h : ∀ k : Fin PARAM_COUNT, s.hasParamLock k = false) :
    lockEvents s = [] := by
  unfold lockEvents
  rw [List.filterMap_eq_nil_iff]
  intro k _
  simp [h k]

theorem armed_evaluated {p : Pattern} (h : Armed p) (t : Fin MAX_TRACKS) :
    evaluated p t = true := by
  have hany : anySoloed p = false := by
    unfold anySoloed
    rw [List.any_eq_false]
    intro u _
    simp [(h.2.1 u).2]
  simp [evaluated, (h.2.1 t).1, hany]

theorem replay_trackLog_zero (k : Nat) (q : Sequencer) (rnd : Nat → Nat)
    (hI : ReplayInv k q) :
    trackLog q rnd 0 = if k % U8_MOD = 0 then [Event.trigger 0 0 127 0] else [] := by
  obtain ⟨hA, _, _, _, hcs, hc⟩ := hI
  have hs : stepAt q.pattern 0 q.currentStep = some ((q.pattern.tracks 0).steps 0) := by
    rw [hcs]
    exact stepAt_fin q.pattern 0 0
  have hev := armed_evaluated hA (0 : Fin MAX_TRACKS)
  obtain ⟨_, _, hact, hcond, hvel, hpitch, hlocks, _⟩ := hA
  have hv := ordinal_verdict q 0 q.currentStep (rnd (0 : Fin MAX_TRACKS).val) _ 1 hs hact
    (by rw [hcond]; rfl)
  unfold trackLog firesNow
  rw [hev, hv, hs, hc]
  simp only [Bool.true_and]
  by_cases hk : k % U8_MOD = 0
  · have h1 : (k % U8_MOD + 1) % U8_MOD = 1 := by
      have : k % 256 = 0 := hk
      show (k % 256 + 1) % 256 = 1
      omega
    rw [if_pos hk]
    simp [h1, lockEvents_nil _ hlocks, hvel, hpitch, hcs]
  · have h1 : ¬ ((k % U8_MOD + 1) % U8_MOD = 1) := by
      have : ¬ (k % 256 = 0) := hk
      show ¬ ((k % 256 + 1) % 256 = 1)
      omega
    have h2 : ¬ ((k + 1) % U8_MOD = 1) := by
      have : ¬ (k % 256 = 0) := hk
      show ¬ ((k + 1) % 256 = 1)
      omega
    rw [if_neg hk]
    simp [h1, h2]

theorem replay_trackLog_other (k : Nat) (q : Sequencer) (rnd : Nat → Nat)
    (hI : ReplayInv k q) (t : Fin MAX_TRACKS) (ht : t ≠ 0) : trackLog q rnd t = [] := by
  obtain ⟨hA, _, _, _, hcs, _⟩ := hI
  have hs : stepAt q.pattern t q.currentStep = some ((q.pattern.tracks t).steps 0) := by
    rw [hcs]
    exact stepAt_fin q.pattern t 0
  have hin : ((q.pattern.tracks t).steps 0).active = false := hA.2.2.2.2.2.2.2 t ht
  have hv : evaluateTrigCondition q t q.currentStep (rnd t.val) = some (false, q) := by
    simp [evaluateTrigCondition, hs, hin]
  unfold trackLog firesNow
  rw [hv]
  simp

theorem replay_round (k : Nat) (q : Sequencer) (hI : ReplayInv k q) :
    ∃ q1, runOps q (replayRound k) =
        some (q1, if k % U8_MOD = 0 then [Event.trigger 0 0 127 0] else []) ∧
      ReplayInv (k + 1) q1 := by
  have hI0 := hI
  obtain ⟨hA, hrun, hint, hlast, hcs, hc⟩ := hI
  have hdue : q.stepInterval ≤ elapsed q (125 * (k + 1)) := by
    rw [hint]
    unfold elapsed ulongSub
    rw [hlast]
    show 125 ≤ ((125 * (k + 1)) % 4294967296 +
      (4294967296 - (125 * k % 4294967296) % 4294967296)) % 4294967296
    omega
  have h0 : 0 ≤ q.currentStep := by rw [hcs]
  have h16 : q.currentStep < (MAX_STEPS : Int) := by rw [hcs]; decide
  have hlen : 0 < q.pattern.length := by rw [hA.1]; decide
  obtain ⟨_, q3, evs, _, _, hup, hq3, _, hnext, hcnt, _, _⟩ :=
    update_due_spec q (125 * (k + 1)) (fun _ => 0) hrun hdue h0 h16 hlen
  obtain ⟨q4, hlog⟩ := update_log q (125 * (k + 1)) (fun _ => 0) hrun hdue h0 h16 hlen
  rw [hup] at hlog
  simp only [Option.some.injEq, Prod.mk.injEq] at hlog
  have hevs : evs = if k % U8_MOD = 0 then [Event.trigger 0 0 127 0] else [] := by
    rw [hlog.2]
    have hfin : List.finRange MAX_TRACKS = [0, 1, 2, 3, 4, 5, 6, 7] := by decide
    have t0 := replay_trackLog_zero k q (fun _ => 0) hI0
    have t1 := replay_trackLog_other k q (fun _ => 0) hI0 1 (by decide)
    have t2 := replay_trackLog_other k q (fun _ => 0) hI0 2 (by decide)
    have t3 := replay_trackLog_other k q (fun _ => 0) hI0 3 (by decide)
    have t4 := replay_trackLog_other k q (fun _ => 0) hI0 4 (by decide)
    have t5 := replay_trackLog_other k q (fun _ => 0) hI0 5 (by decide)
    have t6 := replay_trackLog_other k q (fun _ => 0) hI0 6 (by decide)
    have t7 := replay_trackLog_other k q (fun _ => 0) hI0 7 (by decide)
    rw [hfin]
    simp only [List.map_cons, List.map_nil, List.flatten, t0, t1, t2, t3, t4, t5, t6, t7,
      List.append_nil]
  have hpat : q3.pattern = q.pattern := by rw [hq3]
  have hcs3 : q3.currentStep = 1 := by
    rw [hnext, hcs, hA.1]
    decide
  have hs : stepAt q.pattern 0 q.currentStep = some ((q.pattern.tracks 0).steps 0) := by
    rw [hcs]
    exact stepAt_fin q.pattern 0 0
  have hk3 : q3.triggerCounts 0 = (k + 1) % U8_MOD := by
    rw [hcnt 0 _ hs, if_neg (by rw [hcs3]; decide), armed_evaluated hA 0, hc]
    have hcount : countsStep ((q.pattern.tracks 0).steps 0) = true := by
      simp [countsStep, hA.2.2.1, hA.2.2.2.1, ordinalOf]
    rw [hcount]
    simp
  have hne : q3.pattern.length ≠ 0 := by rw [hpat, hA.1]; decide
  refine ⟨{ q3 with currentStep := 0 }, ?_, ?_⟩
  · have hset : setPosition q3 0 = some { q3 with currentStep := 0 } := by
      unfold setPosition
      rw [if_neg hne]
      simp
    simp [replayRound, runOps, applyOp, hup, hset, hevs]
  · refine ⟨by show Armed q3.pattern; rw [hpat]; exact hA, ?_, ?_, ?_, rfl, hk3⟩
    · show q3.running = true
      rw [hq3]; exact hrun
    · show q3.stepInterval = 125
      rw [hq3]; exact hint
    · show q3.lastStepTime = (125 * (k + 1)) % ULONG_MOD
      rw [hq3]

theorem replay_rounds :
    ∀ (n k : Nat) (q : Sequencer), ReplayInv k q →
      ∃ q1, runOps q (replayOps k n) = some (q1, replayLog k n) ∧ ReplayInv (k + n) q1 := by
  intro n
  induction n with
  | zero =>
    intro k q hI
    exact ⟨q, rfl, hI⟩
  | succ n ih =>
    intro k q hI
    obtain ⟨q1, hr1, hI1⟩ := replay_round k q hI
    obtain ⟨q2, hr2, hI2⟩ := ih (k + 1) q1 hI1
    have hk : k + 1 + n = k + (n + 1) := by omega
    rw [hk] at hI2
    refine ⟨q2, ?_, hI2⟩
    show runOps q (replayRound k ++ replayOps (k + 1) n) = _
    rw [runOps_append, hr1]
    simp only []
    rw [hr2]
    rfl

theorem replayLog_length :
    ∀ (n k : Nat), (replayLog k n).length + (k + 255) / 256 = (k + n + 255) / 256 := by
  intro n
  induction n with
  | zero => intro k; simp [replayLog]
  | succ n ih =>
    intro k
    have h := ih (k + 1)
    show ((if k % 256 = 0 then [Event.trigger 0 0 127 0] else []) ++
      replayLog (k + 1) n).length + (k + 255) / 256 = (k + (n + 1) + 255) / 256
    rw [List.length_append]
    by_cases hk : k % 256 = 0
    · rw [if_pos hk]
      simp only [List.length_cons, List.length_nil]
      omega
    · rw [if_neg hk]
      simp only [List.length_nil]
      omega

theorem arm_ready : ∃ q0, runOps construct armOps = some (q0, []) ∧ ReplayInv 0 q0 := by
  have h1 : (runOps construct armOps).map
      (fun r => (decide (Armed r.1.pattern), r.1.running, r.2.length)) =
      some (true, true, 0) := by decide
  have h2 : (runOps construct armOps).map
      (fun r => (r.1.stepInterval, r.1.lastStepTime, r.1.currentStep, r.1.triggerCounts 0)) =
      some (125, 0, 0, 0) := by decide
  cases hr : runOps construct armOps with
  | none =>
    rw [hr] at h1
    cases h1
  | some r =>
    obtain ⟨q0, e0⟩ := r
    rw [hr] at h1 h2
    simp only [Option.map_some', Option.some.injEq, Prod.mk.injEq, decide_eq_true_eq,
      List.length_eq_zero] at h1 h2
    obtain ⟨hA, hrun, he⟩ := h1
    obtain ⟨hint, hlast, hcs, hc⟩ := h2
    rw [he]
    exact ⟨q0, rfl, hA, hrun, hint, hlast, hcs, hc⟩

/-- C35: in every state that public operations other than `setPosition` reach
from the constructed sequencer, the position lies in 0..`MAX_STEPS - 1` and
every trigger counter is at most the position, so incrementing the 8-bit
counter does not wrap. With `setPosition` the bound fails: after the session
`jumpOps` the position is 0 and the counter of track 0 is 1. And a counter that
is never reset wraps: replaying step 0, an active `1ST` step, by a due tick
followed by `setPosition(0)`, leaves the counter at the number of rounds modulo
256 and logs the trigger of the step in round 0 and again in round 256, once
every 256 rounds. -/
theorem counter_bound_without_setPosition :
    (∀ (ops : List Op) (q : Sequencer) (evs : List Event),
      (∀ op ∈ ops, op.isSetPosition = false) → runOps construct ops = some (q, evs) →
      0 ≤ q.currentStep ∧ q.currentStep ≤ (MAX_STEPS : Int) - 1 ∧
      ∀ t, (q.triggerCounts t : Int) ≤ q.currentStep ∧
        (q.triggerCounts t + 1) % U8_MOD = q.triggerCounts t + 1) ∧
    (runOps construct jumpOps).map (fun r => (r.1.currentStep, r.1.triggerCounts 0)) =
      some (0, 1) ∧
    (∀ n : Nat, ∃ q1 evs, runOps construct (armOps ++ replayOps 0 n) = some (q1, evs) ∧
      q1.currentStep = 0 ∧ q1.triggerCounts 0 = n % U8_MOD ∧
      evs = replayLog 0 n ∧ evs.length = (n + 255) / 256) := by
  refine ⟨?_, by decide, ?_⟩
  · intro ops q evs hno hrun
    obtain ⟨_, h0, h1, hk⟩ :=
      runOps_counterBound ops construct q evs hno counterBound_construct hrun
    refine ⟨h0, h1, fun t => ⟨hk t, ?_⟩⟩
    have h1b : q.currentStep ≤ ((16 : Nat) : Int) - 1 := h1
    have hkt := hk t
    exact Nat.mod_eq_of_lt (show q.triggerCounts t + 1 < 256 by omega)
  · intro n
    obtain ⟨q0, hr0, hI0⟩ := arm_ready
    obtain ⟨q1, hr1, hI1⟩ := replay_rounds n 0 q0 hI0
    refine ⟨q1, replayLog 0 n, ?_, hI1.2.2.2.2.1, ?_, rfl, ?_⟩
    · rw [runOps_append, hr0]
      simp only []
      rw [hr1]
      rfl
    · rw [hI1.2.2.2.2.2, Nat.zero_add]
    · have := replayLog_length n 0
      omega

/-- Witness for C35: the session `playOps` holds no `setPosition` and ends at
step 2 with the counter of track 0 at 1; the replay has logged one trigger
after 256 rounds, with the counter back at 0, and two after 257 rounds, with
the counter at 1. -/
theorem counter_bound_without_setPosition_witness :
    (∀ op ∈ playOps, op.isSetPosition = false) ∧
    (runOps construct playOps).map (fun r => (r.1.currentStep, r.1.triggerCounts 0)) =
      some (2, 1) ∧
    (∃ q evs, runOps construct playOps = some (q, evs) ∧
      0 ≤ q.currentStep ∧ q.currentStep ≤ (MAX_STEPS : Int) - 1 ∧
      ∀ t, (q.triggerCounts t : Int) ≤ q.currentStep ∧
        (q.triggerCounts t + 1) % U8_MOD = q.triggerCounts t + 1) ∧
    (∃ q1 evs, runOps construct (armOps ++ replayOps 0 256) = some (q1, evs) ∧
      q1.triggerCounts 0 = 0 ∧ evs.length = 1) ∧
    (∃ q1 evs, runOps construct (armOps ++ replayOps 0 257) = some (q1, evs) ∧
      q1.triggerCounts 0 = 1 ∧ evs.length = 2) := by
  refine ⟨by decide, by decide, ?_, ?_, ?_⟩
  · obtain ⟨r, hr⟩ := Option.isSome_iff_exists.1
      (show (runOps construct playOps).isSome = true by decide)
    obtain ⟨q, evs⟩ := r
    exact ⟨q, evs, hr, counter_bound_without_setPosition.1 playOps q evs (by decide) hr⟩
  · obtain ⟨q1, evs, hr, _, hk, _, hl⟩ := counter_bound_without_setPosition.2.2 256
    exact ⟨q1, evs, hr, hk, hl⟩
  · obtain ⟨q1, evs, hr, _, hk, _, hl⟩ := counter_bound_without_setPosition.2.2 257
    exact ⟨q1, evs, hr, hk, hl⟩

end OhMyOndas
